import Mathlib

/-!
Splitting in `stri_search_other_split.cpp`.

A shallow embedding of `stri_split_lines1`, `stri_split_lines` and
`stri_split_boundaries` (file `src/src/stri_search_other_split.cpp`) and theorems
about them.

* A byte buffer is a `List Nat`; `byteAt s j` is `str_cur_s[j]`, and reads the
  terminating NUL of `c_str()` at `j = str_cur_n`.
* A string element of an R character vector is an `Option (List Nat)`,
  `none` being `NA`.
* The deque `occurences` is a `List (Nat × Nat)` whose last entry is `back()`.
* The scan loops take a fuel argument and return `none` when it runs out;
  the entry points start them with fuel `str_cur_n`.
* `stri_split_lines` is the body of the vectorised loop for one index, and
  `stri_split_lines_vec` the call on vectors.
* The segmentation service behind `stri_split_boundaries` and the function
  `stri__match_arg` are parameters; an error thrown is a value of `Except`.
-/

namespace Stringi

/-! ## Constants and the decoding step -/

/-- Modelled from the spec: the constant `ASCII_CR` (its header is not under `src/`),
carriage return U+000D. -/
def ASCII_CR : Int := 0x0D

/-- Modelled from the spec: the constant `ASCII_LF` (its header is not under `src/`),
line feed U+000A. -/
def ASCII_LF : Int := 0x0A

/-- Modelled from the spec: the constant `UCHAR_NEL` (its header is not under `src/`),
next line U+0085. -/
def UCHAR_NEL : Int := 0x85

/-- Modelled from the spec: the constant `ASCII_VT` (its header is not under `src/`),
vertical tab U+000B. -/
def ASCII_VT : Int := 0x0B

/-- Modelled from the spec: the constant `ASCII_FF` (its header is not under `src/`),
form feed U+000C. -/
def ASCII_FF : Int := 0x0C

/-- Modelled from the spec: the constant `UCHAR_LS` (its header is not under `src/`),
line separator U+2028. -/
def UCHAR_LS : Int := 0x2028

/-- Modelled from the spec: the constant `UCHAR_PS` (its header is not under `src/`),
paragraph separator U+2029. -/
def UCHAR_PS : Int := 0x2029

/-- The constant `INT_MAX` of a 32-bit `int`. -/
def INT_MAX : Int := 2147483647

/-- The value `U_SENTINEL` that the decoder yields for an ill-formed sequence. -/
def U_SENTINEL : Int := -1

/-- The byte `str_cur_s[j]` of a buffer obtained with `c_str()`: the byte at
index `j`, and the terminating NUL at `j = str_cur_n`. -/
def byteAt (s : List Nat) (j : Nat) : Nat := s.getD j 0

/-- A UTF-8 trail byte, `0x80..0xBF`. -/
def isTrail (b : Nat) : Bool := decide (0x80 ≤ b ∧ b ≤ 0xBF)

/-- Modelled from the spec: the decoding macro `U8_NEXT(s, i, length, c)` of the
Unicode library (its header is not under `src/`), "decoding one Unicode code
point at a time". The result is the code point `c` and the advanced index `i`.
A well-formed sequence of one to four bytes that lies inside `length` is decoded
and skipped; for anything else the model yields `U_SENTINEL` and skips the lead
byte only (the spec leaves the scan of ill-formed input undefined). -/
def U8_NEXT (s : List Nat) (i length : Nat) : Int × Nat :=
  let b0 := byteAt s i
  let b1 := byteAt s (i + 1)
  let b2 := byteAt s (i + 2)
  let b3 := byteAt s (i + 3)
  if b0 < 0x80 then
    ((b0 : Int), i + 1)
  else if 0xC2 ≤ b0 ∧ b0 ≤ 0xDF ∧ i + 1 < length ∧ isTrail b1 = true then
    (((b0 % 32 * 64 + b1 % 64 : Nat) : Int), i + 2)
  else if 0xE0 ≤ b0 ∧ b0 ≤ 0xEF ∧ i + 2 < length ∧ isTrail b1 = true ∧ isTrail b2 = true
      ∧ (b0 = 0xE0 → 0xA0 ≤ b1) ∧ (b0 = 0xED → b1 ≤ 0x9F) then
    (((b0 % 16 * 4096 + b1 % 64 * 64 + b2 % 64 : Nat) : Int), i + 3)
  else if 0xF0 ≤ b0 ∧ b0 ≤ 0xF4 ∧ i + 3 < length ∧ isTrail b1 = true ∧ isTrail b2 = true
      ∧ isTrail b3 = true ∧ (b0 = 0xF0 → 0x90 ≤ b1) ∧ (b0 = 0xF4 → b1 ≤ 0x8F) then
    (((b0 % 8 * 262144 + b1 % 64 * 4096 + b2 % 64 * 64 + b3 % 64 : Nat) : Int), i + 4)
  else
    (U_SENTINEL, i + 1)

/-! ## The deque of occurrences -/

/-- The assignment `occurences.back() = f(occurences.back())`. -/
def modifyBack (f : Nat × Nat → Nat × Nat) : List (Nat × Nat) → List (Nat × Nat)
  | [] => []
  | [p] => [f p]
  | p :: q :: r => p :: modifyBack f (q :: r)

/-- The assignment `occurences.back().second = v`. -/
def setBackSecond (occ : List (Nat × Nat)) (v : Nat) : List (Nat × Nat) :=
  modifyBack (fun p => (p.1, v)) occ

/-- The assignment `occurences.back().first = occurences.back().second = v`. -/
def setBackBoth (occ : List (Nat × Nat)) (v : Nat) : List (Nat × Nat) :=
  modifyBack (fun _ => (v, v)) occ

/-- The entry `occurences.back()`. -/
def back (occ : List (Nat × Nat)) : Nat × Nat := occ.getLastD (0, 0)

/-- The string `Rf_mkCharLenCE(str_cur_s + first, second - first, CE_UTF8)`. -/
def mkCharLen (s : List Nat) (r : Nat × Nat) : List Nat := (s.drop r.1).take (r.2 - r.1)

/-- The character vector built from the deque: one string per range, in order. -/
def mkPieces (s : List Nat) (occ : List (Nat × Nat)) : List (Option (List Nat)) :=
  occ.map (fun r => some (mkCharLen s r))

/-- Whether the decoded code point `c` reaches a `case` label of the `switch`
(a newline) rather than `default`. -/
def isNewline (c : Int) : Bool :=
  c == ASCII_CR || c == ASCII_LF || c == UCHAR_NEL || c == ASCII_VT || c == ASCII_FF
    || c == UCHAR_LS || c == UCHAR_PS

/-- The decoding and the `switch` head shared by both scan loops: decode at `j`,
and after a CR look ahead one byte and skip an LF. The result is the code point
and the advanced `j`. -/
def decodeNewline (s : List Nat) (n j : Nat) : Int × Nat :=
  let cj := U8_NEXT s j n
  if cj.1 = ASCII_CR then
    if (byteAt s cj.2 : Int) = ASCII_LF then (cj.1, cj.2 + 1) else cj
  else cj

/-! ## `stri_split_lines1` -/

/-- One iteration of the `for` loop of `stri_split_lines1` (lines 75-112), from
the index `j` and the deque `occ` to the next index and deque. -/
def lines1Step (s : List Nat) (n j : Nat) (occ : List (Nat × Nat)) : Nat × List (Nat × Nat) :=
  let jlast := j
  let cj := decodeNewline s n j
  let j := cj.2
  if isNewline cj.1 = true then
    let occ := setBackSecond occ jlast
    if j < n then (j, occ ++ [(j, j)]) else (j, occ)
  else
    (j, setBackSecond occ j)

/-- The `for` loop of `stri_split_lines1`, `for (j = 0; j < str_cur_n; )`, with
fuel; `none` when the fuel runs out before the loop ends. -/
def lines1Loop (s : List Nat) (n : Nat) : Nat → Nat → List (Nat × Nat) → Option (List (Nat × Nat))
  | 0, j, occ => if j < n then none else some occ
  | fuel + 1, j, occ =>
    if j < n then
      lines1Loop s n fuel (lines1Step s n j occ).1 (lines1Step s n j occ).2
    else some occ

/-- The deque of `stri_split_lines1` after its scan of the buffer `s`. -/
def lines1Ranges (s : List Nat) : Option (List (Nat × Nat)) :=
  lines1Loop s s.length s.length 0 [(0, 0)]

/-- The function `stri_split_lines1` on the single string `str` (`none` is NA):
the character vector of lines; an NA string is returned as it is. The outer
`none` means that the scan ran out of fuel. -/
def stri_split_lines1 (str : Option (List Nat)) : Option (List (Option (List Nat))) :=
  match str with
  | none => some [none]
  | some s => (lines1Ranges s).map (mkPieces s)

/-! ## `stri_split_lines` -/

/-- One iteration of the `for` loop of `stri_split_lines` (lines 196-247), from
the index `j`, the field count `k` and the deque `occ` to their next values. -/
def linesStep (s : List Nat) (n : Nat) (omit_empty_cur : Int) (j : Nat) (k : Int)
    (occ : List (Nat × Nat)) : Nat × Int × List (Nat × Nat) :=
  let jlast := j
  let cj := decodeNewline s n j
  let j := cj.2
  if isNewline cj.1 = true then
    if omit_empty_cur ≠ 0 ∧ (back occ).2 = (back occ).1 then
      (j, k, setBackBoth occ j)
    else
      (j, k + 1, setBackSecond occ jlast ++ [(j, j)])
  else
    (j, k, setBackSecond occ j)

/-- The `for` loop of `stri_split_lines`,
`for (j = 0; j < str_cur_n && k < n_max_cur; )`, with fuel; the result is the
final `k` and deque, `none` when the fuel runs out before the loop ends. -/
def linesLoop (s : List Nat) (n : Nat) (n_max_cur omit_empty_cur : Int) :
    Nat → Nat → Int → List (Nat × Nat) → Option (Int × List (Nat × Nat))
  | 0, j, k, occ => if j < n ∧ k < n_max_cur then none else some (k, occ)
  | fuel + 1, j, k, occ =>
    if j < n ∧ k < n_max_cur then
      linesLoop s n n_max_cur omit_empty_cur fuel
        (linesStep s n omit_empty_cur j k occ).1
        (linesStep s n omit_empty_cur j k occ).2.1
        (linesStep s n omit_empty_cur j k occ).2.2
    else some (k, occ)

/-- The two adjustments after the loop of `stri_split_lines` (lines 250-253). -/
def linesFinish (n : Nat) (n_max_cur omit_empty_cur k : Int) (occ : List (Nat × Nat)) :
    List (Nat × Nat) :=
  let occ := if k = n_max_cur then setBackSecond occ n else occ
  if omit_empty_cur ≠ 0 ∧ (back occ).1 = (back occ).2 then occ.dropLast else occ

/-- The final deque of `stri_split_lines` for the non-NA buffer `s` and a
non-zero `n_max`. -/
def linesRanges (s : List Nat) (n_max omit_empty : Int) : Option (List (Nat × Nat)) :=
  let n_max_cur := if n_max < 0 then INT_MAX else n_max
  (linesLoop s s.length n_max_cur omit_empty s.length 0 1 [(0, 0)]).map
    (fun r => linesFinish s.length n_max_cur omit_empty r.1 r.2)

/-- The body of the vectorised loop of `stri_split_lines` (lines 160-266) for
one index: the element of the result list for the string `str` (`none` is NA),
`n_max` and `omit_empty` (an R logical as an `int`, `TRUE` is 1 and `FALSE` is 0).
The outer `none` means that the scan ran out of fuel. -/
def stri_split_lines (str : Option (List Nat)) (n_max omit_empty : Int) :
    Option (List (Option (List Nat))) :=
  match str with
  | none => some [none]
  | some s =>
    if n_max = 0 then some []
    else (linesRanges s n_max omit_empty).map (mkPieces s)

/-! ## UTF-8 strings and line terminators -/

/-- A Unicode scalar value. -/
def isScalar (c : Nat) : Prop := c < 0xD800 ∨ (0xE000 ≤ c ∧ c < 0x110000)

instance (c : Nat) : Decidable (isScalar c) := by unfold isScalar; infer_instance

/-- The UTF-8 bytes of the code point `c`. -/
def utf8Encode (c : Nat) : List Nat :=
  if c < 0x80 then [c]
  else if c < 0x800 then [0xC0 + c / 64, 0x80 + c % 64]
  else if c < 0x10000 then [0xE0 + c / 4096, 0x80 + c / 64 % 64, 0x80 + c % 64]
  else [0xF0 + c / 262144, 0x80 + c / 4096 % 64, 0x80 + c / 64 % 64, 0x80 + c % 64]

/-- The UTF-8 bytes of a string given by its code points. -/
def utf8 : List Nat → List Nat
  | [] => []
  | c :: cs => utf8Encode c ++ utf8 cs

/-- The line-terminator code points CR, LF, NEL, VT, FF, LS, PS. -/
def isTermCP (c : Nat) : Bool :=
  c == 0x0D || c == 0x0A || c == 0x85 || c == 0x0B || c == 0x0C || c == 0x2028 || c == 0x2029

/-- The eight terminators, as code point sequences: CR, LF, CRLF, NEL, VT, FF, LS, PS. -/
def terminators : List (List Nat) :=
  [[0x0D], [0x0A], [0x0D, 0x0A], [0x85], [0x0B], [0x0C], [0x2028], [0x2029]]

/-! ## Terminators of a string, for the statements -/

/-- A string all of whose code points are Unicode scalar values: its bytes
`utf8 cs` are valid UTF-8. -/
def Valid (cs : List Nat) : Prop := ∀ c ∈ cs, isScalar c

instance (cs : List Nat) : Decidable (Valid cs) := by unfold Valid; infer_instance

/-- The string `cs` cut into its terminators (`true`) and its other code points
(`false`), in order, a CR followed by an LF being one terminator, CRLF. -/
def tokens : List Nat → List (Bool × List Nat)
  | [] => []
  | [c] => [(isTermCP c, [c])]
  | c :: d :: rest =>
    if c = 0x0D ∧ d = 0x0A then (true, [0x0D, 0x0A]) :: tokens rest
    else (isTermCP c, [c]) :: tokens (d :: rest)

/-- The number of terminators in the string `cs`, a CRLF pair counting once. -/
def countTerminators (cs : List Nat) : Nat := ((tokens cs).filter (fun t => t.1)).length

/-- Whether the string `cs` ends with a terminator. -/
def endsWithTerminator (cs : List Nat) : Bool :=
  match cs.getLast? with
  | some c => isTermCP c
  | none => false

/-- The code points of a list of tokens, in order. -/
def tokJoin : List (Bool × List Nat) → List Nat
  | [] => []
  | t :: ts => t.2 ++ tokJoin ts

/-- The tokens that follow the `k`-th terminator of a list of tokens. -/
def dropTerms : Nat → List (Bool × List Nat) → List (Bool × List Nat)
  | 0, ts => ts
  | _ + 1, [] => []
  | k + 1, t :: ts => if t.1 = true then dropTerms k ts else dropTerms (k + 1) ts

/-- The remainder of the string `cs` after its `k`-th terminator. -/
def afterTerminators (k : Nat) (cs : List Nat) : List Nat := tokJoin (dropTerms k (tokens cs))

/-- The eight terminators as byte sequences. -/
def terminatorBytes : List (List Nat) := terminators.map utf8

/-- The input put together again from the ranges of a deque: each range, then
the bytes up to the start of the next range, and after the last range the bytes
up to the end of the buffer. -/
def reassemble (s : List Nat) : List (Nat × Nat) → List Nat
  | [] => []
  | [r] => mkCharLen s r ++ mkCharLen s (r.2, s.length)
  | r :: r' :: rs => mkCharLen s r ++ mkCharLen s (r.2, r'.1) ++ reassemble s (r' :: rs)

/-! ## The scans told over tokens, for the proofs -/

/-- The number of bytes of a token. -/
def tokLen (t : Bool × List Nat) : Nat := (utf8 t.2).length

/-- The number of bytes of a list of tokens. -/
def bytesLen : List (Bool × List Nat) → Nat
  | [] => 0
  | t :: ts => tokLen t + bytesLen ts

/-- The deque of `stri_split_lines1` told over the tokens still to be scanned,
from the open range `(a, j)`. -/
def tokRanges1 : Nat → Nat → List (Bool × List Nat) → List (Nat × Nat)
  | a, j, [] => [(a, j)]
  | a, j, t :: ts =>
    if t.1 = true then
      if ts = [] then [(a, j)] else (a, j) :: tokRanges1 (j + tokLen t) (j + tokLen t) ts
    else tokRanges1 a (j + tokLen t) ts

/-- The final deque of `stri_split_lines` without suppression told over the
tokens still to be scanned, from the open range `(a, j)`, `r` more fields being
allowed. -/
def tokRangesCap : Nat → Nat → Nat → List (Bool × List Nat) → List (Nat × Nat)
  | 0, a, j, ts => [(a, j + bytesLen ts)]
  | _ + 1, a, j, [] => [(a, j)]
  | r + 1, a, j, t :: ts =>
    if t.1 = true then (a, j) :: tokRangesCap r (j + tokLen t) (j + tokLen t) ts
    else tokRangesCap (r + 1) a (j + tokLen t) ts

/-- Whether the last token of a list is a terminator. -/
def endsTerm : List (Bool × List Nat) → Bool
  | [] => false
  | [t] => t.1
  | _ :: t :: ts => endsTerm (t :: ts)

/-- The first token of the string `c :: rest`. -/
def headTok (c : Nat) (rest : List Nat) : Bool × List Nat :=
  if c = 0x0D ∧ rest.head? = some 0x0A then (true, [0x0D, 0x0A]) else (isTermCP c, [c])

/-- The string `c :: rest` after its first token. -/
def afterTok (c : Nat) (rest : List Nat) : List Nat :=
  if c = 0x0D ∧ rest.head? = some 0x0A then rest.tail else rest

/-! ## Predicates on the state of the scans, for the proofs -/

/-- The state of the scan of `stri_split_lines` at the head of its loop: the
deque is `pre ++ [b]` with the open range `b` ending at `j`, the field count is
its length, every range lies inside the buffer, and with suppression every
closed range is non-empty. -/
def LinesInv (n : Nat) (cap o : Int) (j : Nat) (k : Int) (occ : List (Nat × Nat)) : Prop :=
  ∃ pre b, occ = pre ++ [b] ∧ b.1 ≤ b.2 ∧ b.2 = j ∧ j ≤ n ∧ k = (pre.length : Int) + 1 ∧ k ≤ cap
    ∧ k ≤ (j : Int) + 1 ∧ (∀ r ∈ pre, r.1 ≤ r.2 ∧ r.2 ≤ n) ∧ (o ≠ 0 → ∀ r ∈ pre, r.1 < r.2)

/-- A range that is not empty. -/
def nonEmptyRange (r : Nat × Nat) : Bool := decide (r.1 ≠ r.2)

/-! ## The vectorised call of `stri_split_lines` -/

/-- The errors a call can raise: `StriException(MSG__INCORRECT_MATCH_OPTION, ...)`,
`StriException(status)` for a failed call of the Unicode library, the error of
`stri__recycling_rule`, and the use of a null `briter`. -/
inductive StriError where
  | incorrectMatchOption
  | icuStatus
  | recyclingRule
  | nullBriter
  deriving DecidableEq

deriving instance DecidableEq for Except

/-- Modelled from the spec: the function `stri__recycling_rule` (only declared
under `src/`), on the lengths of the main vector and of the auxiliary vectors. "A
zero-length main vector with any auxiliary vectors yields a zero-length result
directly"; otherwise the iteration length is the maximum of all lengths, and the
call "fails with a usage error if any non-empty vector's length does not evenly
divide the computed length". -/
def stri__recycling_rule (lens : List Nat) : Except StriError Nat :=
  match lens with
  | [] => .ok 0
  | main :: aux =>
    if main = 0 then .ok 0
    else if (main :: aux).all (fun l => l = 0 || (main :: aux).foldl max 0 % l = 0) then
      .ok ((main :: aux).foldl max 0)
    else .error .recyclingRule

/-- Modelled from the spec: the access `cont.get(i)` of the container classes
(their headers are not under `src/`): "each vector independently maps the shared
cursor to its own index via modulo its own length". The value `d` is read from an
empty vector, for which the spec does not define an element. -/
def recycledGet {α : Type} (v : List α) (i : Nat) (d : α) : α := v.getD (i % v.length) d

/-- All the values of a list of results, when no scan ran out of fuel. -/
def allSome {α : Type} : List (Option α) → Option (List α)
  | [] => some []
  | none :: _ => none
  | some a :: l =>
    match allSome l with
    | none => none
    | some r => some (a :: r)

/-- The function `stri_split_lines` on the vectors `str`, `n_max` and
`omit_empty`: the list `ret` with one element per index `i` below
`vectorize_length`, each set by the body of the loop, which `stri_split_lines`
(above) embeds, on the `i`-th elements of the recycled vectors. The indices are
visited in index order (modelled from the spec; each element of `ret` depends on
its index only). An empty `n_max` or `omit_empty` reads as `NA`, which is
`INT_MIN`. The result is an error, or `none` when a scan ran out of fuel. -/
def stri_split_lines_vec (str : List (Option (List Nat))) (n_max omit_empty : List Int) :
    Except StriError (Option (List (List (Option (List Nat))))) :=
  match stri__recycling_rule [str.length, n_max.length, omit_empty.length] with
  | .error e => .error e
  | .ok vectorize_length =>
    .ok (allSome ((List.range vectorize_length).map (fun i =>
      stri_split_lines (recycledGet str i none) (recycledGet n_max i (-2147483648))
        (recycledGet omit_empty i (-2147483648)))))

/-! ## `stri_split_boundaries` -/

/-- The index of a boundary name in `boundary_opts`: 0 `character`, 1 `line_break`,
2 `sentence`, 3 `word`. -/
inductive BoundaryKind where
  | character
  | line_break
  | sentence
  | word
  deriving DecidableEq

/-- Modelled from the spec: the external segmentation service behind
`BreakIterator` and `UText` (the Unicode library, not under `src/`), for the
locale of the call. `createOk k` tells whether `create...Instance(loc, status)`
for the kind `k` leaves `status` a success, `openOk s` the same for
`utext_openUTF8` on the text `s`, and `setTextOk k s` for `setText`; `first k s`
is the value of `briter->first()` and `nexts k s` the values of the calls
`briter->next()` before `BreakIterator::DONE`. -/
structure BreakService where
  createOk : BoundaryKind → Bool
  openOk : List Nat → Bool
  setTextOk : BoundaryKind → List Nat → Bool
  first : BoundaryKind → List Nat → Nat
  nexts : BoundaryKind → List Nat → List Nat

/-- The variables that live across the iterations of the loop of
`stri_split_boundaries`: `last_boundary` (`none` is -1), the kind for which the
instance `briter` was constructed (`none` is `NULL`), and, for the statements
only, the number of instances constructed so far. -/
structure BrkState where
  last_boundary : Option BoundaryKind
  briter : Option BoundaryKind
  created : Nat
  deriving DecidableEq

/-- The deque filled by the loop `while ((match = briter->next()) != DONE)` (lines
369-374), from `last_match` and the values of `next()`. -/
def brkRanges : Nat → List Nat → List (Nat × Nat)
  | _, [] => []
  | last_match, m :: ms => (last_match, m) :: brkRanges m ms

/-- The character vector set for an element (lines 376-393): one empty string
when there is no occurrence, and one string per range otherwise. -/
def brkOutput (s : List Nat) (occ : List (Nat × Nat)) : List (Option (List Nat)) :=
  if occ.length ≤ 0 then [some []] else mkPieces s occ

/-- The opening of the `BreakIterator` (lines 330-357) for the kind
`boundary_cur`: the instance is kept when `last_boundary` is this kind, and
deleted and constructed anew otherwise. -/
def brkOpen (svc : BreakService) (st : BrkState) (boundary_cur : BoundaryKind) :
    Except StriError BrkState :=
  if st.last_boundary ≠ some boundary_cur then
    if svc.createOk boundary_cur = true then
      .ok (BrkState.mk (some boundary_cur) (some boundary_cur) (st.created + 1))
    else .error .icuStatus
  else .ok st

/-- The segmentation of the current string (lines 359-394) with the instance
`briter`. -/
def brkSegment (svc : BreakService) (briter : Option BoundaryKind) (s : List Nat) :
    Except StriError (List (Option (List Nat))) :=
  if svc.openOk s = true then
    match briter with
    | none => .error .nullBriter
    | some inst =>
      if svc.setTextOk inst s = true then
        .ok (brkOutput s (brkRanges (svc.first inst s) (svc.nexts inst s)))
      else .error .icuStatus
  else .error .icuStatus

/-- The body of the loop of `stri_split_boundaries` (lines 320-394) for one index:
from the state and the elements `str_i` and `boundary_i` (`none` is NA) to the
next state and the element of `ret`, or to the error thrown. The parameter
`match_arg` is `stri__match_arg(name, boundary_opts)` (not under `src/`), `none`
being a negative result. -/
def boundariesBody (svc : BreakService) (match_arg : List Nat → Option BoundaryKind)
    (st : BrkState) (str_i boundary_i : Option (List Nat)) :
    Except StriError (BrkState × List (Option (List Nat))) :=
  match str_i, boundary_i with
  | some s, some name =>
    match match_arg name with
    | none => .error .incorrectMatchOption
    | some boundary_cur =>
      match brkOpen svc st boundary_cur with
      | .error e => .error e
      | .ok st1 =>
        match brkSegment svc st1.briter s with
        | .error e => .error e
        | .ok ans => .ok (st1, ans)
  | _, _ => .ok (st, [none])

/-- The loop of `stri_split_boundaries` over the elements of the recycled vectors,
in the order in which they are visited: the final state and the list `ret`, or the
first error thrown. -/
def boundariesLoop (svc : BreakService) (match_arg : List Nat → Option BoundaryKind) :
    BrkState → List (Option (List Nat) × Option (List Nat)) →
      Except StriError (BrkState × List (List (Option (List Nat))))
  | st, [] => .ok (st, [])
  | st, x :: items =>
    match boundariesBody svc match_arg st x.1 x.2 with
    | .error e => .error e
    | .ok r =>
      match boundariesLoop svc match_arg r.1 items with
      | .error e => .error e
      | .ok rs => .ok (rs.1, r.2 :: rs.2)

/-- The elements of the recycled vectors `str` and `boundary` for the indices
below `vectorize_length`, in index order (modelled from the spec: "each element of
the vectorized operation is processed strictly in index order"). -/
def recycledItems (str boundary : List (Option (List Nat))) (vectorize_length : Nat) :
    List (Option (List Nat) × Option (List Nat)) :=
  (List.range vectorize_length).map (fun i => (recycledGet str i none, recycledGet boundary i none))

/-- The function `stri_split_boundaries` on the vectors `str` and `boundary`, with
the segmentation service of the call: the list `ret`, or the error thrown. -/
def stri_split_boundaries (svc : BreakService) (match_arg : List Nat → Option BoundaryKind)
    (str boundary : List (Option (List Nat))) :
    Except StriError (List (List (Option (List Nat)))) :=
  match stri__recycling_rule [str.length, boundary.length] with
  | .error e => .error e
  | .ok vectorize_length =>
    match boundariesLoop svc match_arg (BrkState.mk none none 0)
        (recycledItems str boundary vectorize_length) with
    | .error e => .error e
    | .ok r => .ok r.2

/-! ## Notions for the statements on ranges, mutations and segmenter reuse -/

/-- The ranges of a deque lie inside a buffer of `n` bytes, each with its start
at most its end, and each ends at most where the next one starts. -/
def RangesOK (n : Nat) (occ : List (Nat × Nat)) : Prop :=
  (∀ r ∈ occ, r.1 ≤ r.2 ∧ r.2 ≤ n) ∧ List.Chain' (fun r r' => r.2 ≤ r'.1) occ

/-- The state of a scan at the head of its loop, for the proofs: every range of
the deque has its start at most its end and its end at most the index `j`, and
each range ends at most where the next one starts. -/
def ScanInv (j : Nat) (occ : List (Nat × Nat)) : Prop :=
  (∀ r ∈ occ, r.1 ≤ r.2 ∧ r.2 ≤ j) ∧ List.Chain' (fun r r' => r.2 ≤ r'.1) occ

/-- One change of the deque that is the append of a new range, or a change of the
end offset of the last range. -/
def Mutation (occ occ' : List (Nat × Nat)) : Prop :=
  (∃ r, occ' = occ ++ [r]) ∨ (∃ pre b e, occ = pre ++ [b] ∧ occ' = pre ++ [(b.1, e)])

/-- One change of the deque that is a `Mutation`, or the move of an empty last
range to another offset. -/
def MutationOmit (occ occ' : List (Nat × Nat)) : Prop :=
  Mutation occ occ' ∨ (∃ pre a v, occ = pre ++ [(a, a)] ∧ occ' = pre ++ [(v, v)])

/-- The kinds of the elements that are not NA (string and boundary name), in the
order of the list; the kind of an unmatched name is left out. -/
def kindsOf (match_arg : List Nat → Option BoundaryKind) :
    List (Option (List Nat) × Option (List Nat)) → List BoundaryKind
  | [] => []
  | (some _, some name) :: items =>
    match match_arg name with
    | none => kindsOf match_arg items
    | some k => k :: kindsOf match_arg items
  | _ :: items => kindsOf match_arg items

/-- The number of maximal runs of equal kinds in a list. -/
def runs : List BoundaryKind → Nat
  | [] => 0
  | [_] => 1
  | a :: b :: l => (if a = b then 0 else 1) + runs (b :: l)

/-- The number of instances constructed for the kinds `ks` of successive non-NA
elements, `prev` being the kind of the element before them, if any. -/
def runsFrom : Option BoundaryKind → List BoundaryKind → Nat
  | _, [] => 0
  | prev, k :: ks => (if prev = some k then 0 else 1) + runsFrom (some k) ks

/-- The kind of the last of the non-NA elements with the kinds `ks`, or `prev`
when there is none. -/
def lastKind : Option BoundaryKind → List BoundaryKind → Option BoundaryKind
  | prev, [] => prev
  | _, k :: ks => lastKind (some k) ks

/-- The state of the loop of `stri_split_boundaries` between two iterations, for
the proofs: the instance `briter` is of the kind `last_boundary`. -/
def BrkInv (st : BrkState) : Prop := st.briter = st.last_boundary

/-- The values `bs` are strictly increasing and start above `a`. -/
def increasingFrom : Nat → List Nat → Bool
  | _, [] => true
  | a, b :: bs => decide (a < b) && increasingFrom b bs

/-- The element of `ret` that segmenting the string `s` with an instance of the
kind `k` gives. -/
def brkExpected (svc : BreakService) (k : BoundaryKind) (s : List Nat) :
    List (Option (List Nat)) :=
  brkOutput s (brkRanges (svc.first k s) (svc.nexts k s))

/-- A segmentation service none of whose calls fails. -/
def ServiceOk (svc : BreakService) : Prop :=
  (∀ k, svc.createOk k = true) ∧ (∀ s, svc.openOk s = true) ∧ (∀ k s, svc.setTextOk k s = true)

/-- A sample service: every call succeeds, and there is a boundary after every
byte of the text. -/
def byteService : BreakService :=
  BreakService.mk (fun _ => true) (fun _ => true) (fun _ _ => true) (fun _ _ => 0)
    (fun _ s => List.range' 1 s.length)

/-- A sample `match_arg`: the names `character`, `line_break`, `sentence` and
`word` in ASCII match their kinds, and no other name matches. -/
def exactMatch (name : List Nat) : Option BoundaryKind :=
  if name = [99, 104, 97, 114, 97, 99, 116, 101, 114] then some .character
  else if name = [108, 105, 110, 101, 95, 98, 114, 101, 97, 107] then some .line_break
  else if name = [115, 101, 110, 116, 101, 110, 99, 101] then some .sentence
  else if name = [119, 111, 114, 100] then some .word
  else none

/-! ## Basic facts on the deque operations -/

theorem modifyBack_append_singleton (f : Nat × Nat → Nat × Nat) (pre : List (Nat × Nat))
    (p : Nat × Nat) : modifyBack f (pre ++ [p]) = pre ++ [f p] := by
  induction pre with
  | nil => rfl
  | cons a pre ih =>
    cases pre with
    | nil => rfl
    | cons b pre => simpa [modifyBack] using ih

theorem setBackSecond_append (pre : List (Nat × Nat)) (p : Nat × Nat) (v : Nat) :
    setBackSecond (pre ++ [p]) v = pre ++ [(p.1, v)] :=
  modifyBack_append_singleton _ pre p

theorem setBackBoth_append (pre : List (Nat × Nat)) (p : Nat × Nat) (v : Nat) :
    setBackBoth (pre ++ [p]) v = pre ++ [(v, v)] :=
  modifyBack_append_singleton _ pre p

theorem back_append (pre : List (Nat × Nat)) (p : Nat × Nat) : back (pre ++ [p]) = p := by
  simp [back, List.getLastD_eq_getLast?]

/-! ## Progress of the decoding step -/

theorem U8_NEXT_gt (s : List Nat) (i n : Nat) : i < (U8_NEXT s i n).2 := by
  unfold U8_NEXT
  simp only
  split_ifs <;> simp

theorem U8_NEXT_le (s : List Nat) (i n : Nat) (h : i < n) : (U8_NEXT s i n).2 ≤ n := by
  unfold U8_NEXT
  simp only
  split_ifs <;> simp <;> omega

theorem byteAt_lt_of_ne_zero (s : List Nat) (j : Nat) (h : byteAt s j ≠ 0) : j < s.length := by
  by_contra hj
  apply h
  unfold byteAt
  rw [List.getD_eq_default]
  omega

theorem decodeNewline_gt (s : List Nat) (n j : Nat) : j < (decodeNewline s n j).2 := by
  have h := U8_NEXT_gt s j n
  unfold decodeNewline
  simp only
  split_ifs <;> simp <;> omega

theorem decodeNewline_le (s : List Nat) (j : Nat) (h : j < s.length) :
    (decodeNewline s s.length j).2 ≤ s.length := by
  have h1 := U8_NEXT_le s j s.length h
  unfold decodeNewline
  simp only
  split_ifs with hc hl
  · have : byteAt s (U8_NEXT s j s.length).2 ≠ 0 := by
      intro h0
      rw [h0] at hl
      simp [ASCII_LF] at hl
    have := byteAt_lt_of_ne_zero _ _ this
    simp
    omega
  · exact h1
  · exact h1

/-! ## The loops end, and the invariant rule -/

theorem lines1Step_fst (s : List Nat) (n j : Nat) (occ : List (Nat × Nat)) :
    (lines1Step s n j occ).1 = (decodeNewline s n j).2 := by
  unfold lines1Step
  simp only
  split_ifs <;> rfl

theorem linesStep_fst (s : List Nat) (n : Nat) (o : Int) (j : Nat) (k : Int)
    (occ : List (Nat × Nat)) : (linesStep s n o j k occ).1 = (decodeNewline s n j).2 := by
  unfold linesStep
  simp only
  split_ifs <;> rfl

/-- With at least `n - j` iterations of fuel the loop of `stri_split_lines1` ends. -/
theorem lines1Loop_total (s : List Nat) (n : Nat) :
    ∀ (fuel j : Nat) (occ : List (Nat × Nat)), n ≤ j + fuel →
      ∃ r, lines1Loop s n fuel j occ = some r := by
  intro fuel
  induction fuel with
  | zero =>
    intro j occ h
    exact ⟨occ, by simp [lines1Loop]; omega⟩
  | succ f ih =>
    intro j occ h
    unfold lines1Loop
    split_ifs with hj
    · apply ih
      rw [lines1Step_fst]
      have := decodeNewline_gt s n j
      omega
    · exact ⟨occ, rfl⟩

/-- With at least `n - j` iterations of fuel the loop of `stri_split_lines` ends. -/
theorem linesLoop_total (s : List Nat) (n : Nat) (cap o : Int) :
    ∀ (fuel j : Nat) (k : Int) (occ : List (Nat × Nat)), n ≤ j + fuel →
      ∃ r, linesLoop s n cap o fuel j k occ = some r := by
  intro fuel
  induction fuel with
  | zero =>
    intro j k occ h
    refine ⟨(k, occ), ?_⟩
    simp only [linesLoop]
    rw [if_neg]
    omega
  | succ f ih =>
    intro j k occ h
    unfold linesLoop
    split_ifs with hj
    · apply ih
      rw [linesStep_fst]
      have := decodeNewline_gt s n j
      omega
    · exact ⟨(k, occ), rfl⟩

/-- Invariant rule for the loop of `stri_split_lines1`: a property kept by every
iteration holds of the final state, together with the negated loop condition. -/
theorem lines1Loop_inv (s : List Nat) (n : Nat) (P : Nat → List (Nat × Nat) → Prop)
    (hstep : ∀ j occ, j < n → P j occ → P (lines1Step s n j occ).1 (lines1Step s n j occ).2) :
    ∀ (fuel j : Nat) (occ r : List (Nat × Nat)), P j occ →
      lines1Loop s n fuel j occ = some r → ∃ j', P j' r ∧ ¬ j' < n := by
  intro fuel
  induction fuel with
  | zero =>
    intro j occ r hP h
    simp only [lines1Loop] at h
    split_ifs at h with hj
    exact ⟨j, by simpa using (Option.some.inj h) ▸ hP, hj⟩
  | succ f ih =>
    intro j occ r hP h
    unfold lines1Loop at h
    split_ifs at h with hj
    · exact ih _ _ r (hstep j occ hj hP) h
    · exact ⟨j, (Option.some.inj h) ▸ hP, hj⟩

/-- Invariant rule for the loop of `stri_split_lines`. -/
theorem linesLoop_inv (s : List Nat) (n : Nat) (cap o : Int)
    (P : Nat → Int → List (Nat × Nat) → Prop)
    (hstep : ∀ j k occ, j < n → k < cap → P j k occ →
      P (linesStep s n o j k occ).1 (linesStep s n o j k occ).2.1 (linesStep s n o j k occ).2.2) :
    ∀ (fuel j : Nat) (k : Int) (occ : List (Nat × Nat)) (r : Int × List (Nat × Nat)), P j k occ →
      linesLoop s n cap o fuel j k occ = some r → ∃ j', P j' r.1 r.2 ∧ ¬ (j' < n ∧ r.1 < cap) := by
  intro fuel
  induction fuel with
  | zero =>
    intro j k occ r hP h
    simp only [linesLoop] at h
    split_ifs at h with hj
    cases Option.some.inj h
    exact ⟨j, hP, hj⟩
  | succ f ih =>
    intro j k occ r hP h
    unfold linesLoop at h
    split_ifs at h with hj
    · exact ih _ _ _ r (hstep j k occ hj.1 hj.2 hP) h
    · cases Option.some.inj h
      exact ⟨j, hP, hj⟩

/-! ## The shape of the deque during the scan of `stri_split_lines` -/

theorem linesInv_init (n : Nat) (cap o : Int) (hcap : 1 ≤ cap) :
    LinesInv n cap o 0 1 [(0, 0)] :=
  ⟨[], (0, 0), rfl, le_refl _, rfl, Nat.zero_le _, by simp, hcap, by simp, by simp, by simp⟩

theorem linesInv_step (s : List Nat) (cap o : Int) (j : Nat) (k : Int) (occ : List (Nat × Nat))
    (hj : j < s.length) (hk : k < cap) (h : LinesInv s.length cap o j k occ) :
    LinesInv s.length cap o (linesStep s s.length o j k occ).1
      (linesStep s s.length o j k occ).2.1 (linesStep s s.length o j k occ).2.2 := by
  obtain ⟨pre, b, rfl, hb, hbj, hjn, hkl, hkc, hkj, hpre, hne⟩ := h
  have hgt := decodeNewline_gt s s.length j
  have hle := decodeNewline_le s j hj
  unfold linesStep
  simp only [back_append, setBackSecond_append, setBackBoth_append]
  split_ifs with hnl hom
  · exact ⟨pre, _, rfl, le_refl _, rfl, hle, hkl, hkc, by show k ≤ _; omega, hpre, hne⟩
  · refine ⟨pre ++ [(b.1, j)], _, rfl, le_refl _, rfl, hle, ?_, ?_, ?_, ?_, ?_⟩
    · simp [hkl]
    · show k + 1 ≤ cap
      omega
    · show k + 1 ≤ _
      omega
    · intro r hr
      rcases List.mem_append.1 hr with hr | hr
      · exact hpre r hr
      · simp only [List.mem_singleton] at hr
        subst hr
        exact ⟨by simpa [← hbj] using hb, hjn⟩
    · intro ho r hr
      rcases List.mem_append.1 hr with hr | hr
      · exact hne ho r hr
      · simp only [List.mem_singleton] at hr
        subst hr
        have : b.2 ≠ b.1 := fun e => hom ⟨ho, e⟩
        simp only
        omega
  · exact ⟨pre, _, rfl, by simp; omega, rfl, hle, hkl, hkc, by show k ≤ _; omega, hpre, hne⟩

/-- The loop of `stri_split_lines` ends with fuel `str_cur_n`, in a state that
satisfies `LinesInv` and the negated loop condition. -/
theorem linesLoop_spec (s : List Nat) (cap o : Int) (hcap : 1 ≤ cap) :
    ∃ r j, linesLoop s s.length cap o s.length 0 1 [(0, 0)] = some r
      ∧ LinesInv s.length cap o j r.1 r.2 ∧ ¬ (j < s.length ∧ r.1 < cap) := by
  obtain ⟨r, hr⟩ := linesLoop_total s s.length cap o s.length 0 1 [(0, 0)] (by omega)
  obtain ⟨j, hP, hex⟩ := linesLoop_inv s s.length cap o (LinesInv s.length cap o)
    (fun j k occ hj hk h => linesInv_step s cap o j k occ hj hk h) s.length 0 1 [(0, 0)] r
    (linesInv_init _ _ _ hcap) hr
  exact ⟨r, j, hr, hP, hex⟩

theorem length_mkCharLen (s : List Nat) (r : Nat × Nat) (h : r.2 ≤ s.length) :
    (mkCharLen s r).length = r.2 - r.1 := by
  simp only [mkCharLen, List.length_take, List.length_drop]
  omega

theorem mkCharLen_ne_nil (s : List Nat) (r : Nat × Nat) (h1 : r.1 < r.2) (h2 : r.2 ≤ s.length) :
    mkCharLen s r ≠ [] := by
  intro h
  have := length_mkCharLen s r h2
  rw [h] at this
  simp at this
  omega

theorem mkCharLen_eq_nil (s : List Nat) (r : Nat × Nat) (h : r.1 = r.2) : mkCharLen s r = [] := by
  simp [mkCharLen, h]

theorem mkCharLen_whole (s : List Nat) : mkCharLen s (0, s.length) = s := by
  simp [mkCharLen]

theorem mkPieces_append (s : List Nat) (a b : List (Nat × Nat)) :
    mkPieces s (a ++ b) = mkPieces s a ++ mkPieces s b := by
  simp [mkPieces]

theorem length_mkPieces (s : List Nat) (a : List (Nat × Nat)) :
    (mkPieces s a).length = a.length := by
  simp [mkPieces]

/-- The effective cap of `stri_split_lines` is at least one when `n_max` is not zero. -/
theorem one_le_cap (n_max : Int) (h : n_max ≠ 0) :
    1 ≤ (if n_max < 0 then INT_MAX else n_max) := by
  split_ifs with hn
  · decide
  · omega

theorem linesFinish_append (n : Nat) (cap o k : Int) (pre : List (Nat × Nat)) (b : Nat × Nat) :
    linesFinish n cap o k (pre ++ [b]) =
      if o ≠ 0 ∧ b.1 = (if k = cap then n else b.2) then pre
      else pre ++ [(b.1, if k = cap then n else b.2)] := by
  unfold linesFinish
  by_cases hk : k = cap
  · simp only [hk, if_true, setBackSecond_append, back_append]
    split_ifs <;> simp
  · simp only [hk, if_false, back_append]
    split_ifs <;> simp

theorem linesLoop_cap_reached (s : List Nat) (n : Nat) (cap o : Int) (fuel j : Nat) (k : Int)
    (occ : List (Nat × Nat)) (h : cap ≤ k) :
    linesLoop s n cap o fuel j k occ = some (k, occ) := by
  cases fuel <;> simp only [linesLoop] <;> rw [if_neg] <;> omega

/-- The final deque of `stri_split_lines`: it exists, and it is the deque `pre ++ [b]`
of the state in which the loop ended, adjusted by the two statements after the loop. -/
theorem linesRanges_spec (s : List Nat) (n_max o : Int) (h : n_max ≠ 0) :
    ∃ (pre : List (Nat × Nat)) (b : Nat × Nat) (k : Int),
      b.1 ≤ b.2 ∧ b.2 ≤ s.length ∧ k = (pre.length : Int) + 1
      ∧ k ≤ (if n_max < 0 then INT_MAX else n_max) ∧ k ≤ (b.2 : Int) + 1
      ∧ (∀ r ∈ pre, r.1 ≤ r.2 ∧ r.2 ≤ s.length) ∧ (o ≠ 0 → ∀ r ∈ pre, r.1 < r.2)
      ∧ ¬ (b.2 < s.length ∧ k < (if n_max < 0 then INT_MAX else n_max))
      ∧ linesRanges s n_max o = some (linesFinish s.length
          (if n_max < 0 then INT_MAX else n_max) o k (pre ++ [b])) := by
  obtain ⟨r, j, hr, hP, hex⟩ := linesLoop_spec s (if n_max < 0 then INT_MAX else n_max) o
    (one_le_cap n_max h)
  obtain ⟨pre, b, hocc, hb, hbj, hjn, hk, hkc, hkj, hpre, hne⟩ := hP
  refine ⟨pre, b, r.1, hb, by omega, hk, hkc, by rw [hbj]; exact hkj, hpre, hne,
    by rw [hbj]; exact hex, ?_⟩
  simp only [linesRanges, hr, Option.map_some', hocc]

theorem stri_split_lines_of_ranges (s : List Nat) (n_max o : Int) (h : n_max ≠ 0)
    (occ : List (Nat × Nat)) (hr : linesRanges s n_max o = some occ) :
    stri_split_lines (some s) n_max o = some (mkPieces s occ) := by
  simp only [stri_split_lines, if_neg h, hr, Option.map_some']

/-! ## Suppression of empty pieces against no suppression -/

theorem linesStep_newline_keep (s : List Nat) (n : Nat) (o : Int) (j : Nat) (k : Int)
    (pre : List (Nat × Nat)) (b : Nat × Nat) (hnl : isNewline (decodeNewline s n j).1 = true)
    (hk : ¬ (o ≠ 0 ∧ b.2 = b.1)) :
    linesStep s n o j k (pre ++ [b]) = ((decodeNewline s n j).2, k + 1,
      pre ++ [(b.1, j)] ++ [((decodeNewline s n j).2, (decodeNewline s n j).2)]) := by
  unfold linesStep
  simp only [back_append, setBackSecond_append, hnl, if_true, if_neg hk]

theorem linesStep_newline_skip (s : List Nat) (n : Nat) (o : Int) (j : Nat) (k : Int)
    (pre : List (Nat × Nat)) (b : Nat × Nat) (hnl : isNewline (decodeNewline s n j).1 = true)
    (ho : o ≠ 0) (hb : b.2 = b.1) :
    linesStep s n o j k (pre ++ [b]) = ((decodeNewline s n j).2, k,
      pre ++ [((decodeNewline s n j).2, (decodeNewline s n j).2)]) := by
  unfold linesStep
  simp only [back_append, setBackBoth_append, hnl, if_true, if_pos (And.intro ho hb)]

theorem linesStep_other (s : List Nat) (n : Nat) (o : Int) (j : Nat) (k : Int)
    (pre : List (Nat × Nat)) (b : Nat × Nat) (hnl : ¬ isNewline (decodeNewline s n j).1 = true) :
    linesStep s n o j k (pre ++ [b]) = ((decodeNewline s n j).2, k,
      pre ++ [(b.1, (decodeNewline s n j).2)]) := by
  unfold linesStep
  simp [setBackSecond_append, hnl]

/-- While no cap is reached, the scan with suppression runs in step with the
scan without it: same open range, and its closed ranges are the non-empty closed
ranges of the scan without suppression. -/
theorem linesLoop_omit_sim (s : List Nat) (n : Nat) (cap o : Int) (ho : o ≠ 0)
    (hcap : (n : Int) < cap) :
    ∀ (fuel j : Nat) (kF kT : Int) (preF : List (Nat × Nat)) (b : Nat × Nat)
      (rF : Int × List (Nat × Nat)),
      b.2 = j → kF ≤ (j : Int) + 1 → kT ≤ (j : Int) + 1 →
      linesLoop s n cap 0 fuel j kF (preF ++ [b]) = some rF →
      ∃ preF' b' kT', rF.2 = preF' ++ [b'] ∧
        linesLoop s n cap o fuel j kT (preF.filter nonEmptyRange ++ [b])
          = some (kT', preF'.filter nonEmptyRange ++ [b']) := by
  intro fuel
  induction fuel with
  | zero =>
    intro j kF kT preF b rF hb hkF hkT h
    simp only [linesLoop] at h ⊢
    by_cases hj : j < n
    · rw [if_pos ⟨hj, by omega⟩] at h
      cases h
    · rw [if_neg (fun c => hj c.1)] at h ⊢
      cases Option.some.inj h
      exact ⟨preF, b, kT, rfl, rfl⟩
  | succ f ih =>
    intro j kF kT preF b rF hb hkF hkT h
    unfold linesLoop at h ⊢
    by_cases hj : j < n
    · rw [if_pos ⟨hj, by omega⟩] at h ⊢
      have hgt := decodeNewline_gt s n j
      by_cases hnl : isNewline (decodeNewline s n j).1 = true
      · rw [linesStep_newline_keep s n 0 j kF preF b hnl (fun c => c.1 rfl)] at h
        by_cases hbe : b.2 = b.1
        · rw [linesStep_newline_skip s n o j kT _ b hnl ho hbe]
          have := ih (decodeNewline s n j).2 (kF + 1) kT (preF ++ [(b.1, j)])
            ((decodeNewline s n j).2, (decodeNewline s n j).2) rF rfl (by omega) (by omega) h
          have hf : (preF ++ [(b.1, j)]).filter nonEmptyRange = preF.filter nonEmptyRange := by
            simp [List.filter_append, nonEmptyRange]
            omega
          rw [hf] at this
          exact this
        · rw [linesStep_newline_keep s n o j kT _ b hnl (fun c => hbe c.2)]
          have := ih (decodeNewline s n j).2 (kF + 1) (kT + 1) (preF ++ [(b.1, j)])
            ((decodeNewline s n j).2, (decodeNewline s n j).2) rF rfl (by omega) (by omega) h
          have hf : (preF ++ [(b.1, j)]).filter nonEmptyRange
              = preF.filter nonEmptyRange ++ [(b.1, j)] := by
            have : b.1 ≠ j := by omega
            simp [List.filter_append, nonEmptyRange, List.filter_cons, this]
          rw [hf] at this
          exact this
      · rw [linesStep_other s n 0 j kF preF b hnl] at h
        rw [linesStep_other s n o j kT _ b hnl]
        exact ih (decodeNewline s n j).2 kF kT preF (b.1, (decodeNewline s n j).2) rF rfl
          (by omega) (by omega) h
    · rw [if_neg (fun c => hj c.1)] at h ⊢
      cases Option.some.inj h
      exact ⟨preF, b, kT, rfl, rfl⟩

theorem mkPieces_filter (s : List Nat) (occ : List (Nat × Nat))
    (h : ∀ r ∈ occ, r.1 ≤ r.2 ∧ r.2 ≤ s.length) :
    mkPieces s (occ.filter nonEmptyRange) = (mkPieces s occ).filter (fun p => p ≠ some []) := by
  induction occ with
  | nil => rfl
  | cons r occ ih =>
    have ih := ih (fun x hx => h x (List.mem_cons_of_mem _ hx))
    have hr := h r (List.mem_cons_self _ _)
    by_cases he : r.1 = r.2
    · have : mkCharLen s r = [] := mkCharLen_eq_nil s r he
      simp only [mkPieces, List.map_cons] at ih ⊢
      simp [List.filter_cons, nonEmptyRange, he, this, ih]
    · have : mkCharLen s r ≠ [] := mkCharLen_ne_nil s r (by omega) hr.2
      simp only [mkPieces, List.map_cons] at ih ⊢
      simp [List.filter_cons, nonEmptyRange, he, this, ih]

/-! ## Decoding a well-formed buffer -/

theorem byteAt_append_right (pfx l : List Nat) (i : Nat) :
    byteAt (pfx ++ l) (pfx.length + i) = byteAt l i := by
  unfold byteAt
  rw [List.getD_eq_getElem?_getD, List.getD_eq_getElem?_getD,
    List.getElem?_append_right (by omega)]
  simp

theorem byteAt_append_right_zero (pfx l : List Nat) :
    byteAt (pfx ++ l) pfx.length = byteAt l 0 := by
  simpa using byteAt_append_right pfx l 0

theorem byteAt_cons_zero (b : Nat) (l : List Nat) : byteAt (b :: l) 0 = b := rfl

theorem byteAt_cons_succ (b : Nat) (l : List Nat) (i : Nat) :
    byteAt (b :: l) (i + 1) = byteAt l i := rfl

theorem byteAt_nil (i : Nat) : byteAt [] i = 0 := rfl

theorem length_utf8Encode_pos (c : Nat) : 1 ≤ (utf8Encode c).length := by
  unfold utf8Encode
  split_ifs <;> simp

theorem length_utf8Encode_le (c : Nat) : (utf8Encode c).length ≤ 4 := by
  unfold utf8Encode
  split_ifs <;> simp

/-- Decoding inverts encoding: at the first byte of the encoding of a scalar value
`c`, `U8_NEXT` yields `c` and skips the encoding. -/
theorem U8_NEXT_utf8Encode (pfx rest : List Nat) (c n : Nat) (hc : isScalar c)
    (hn : pfx.length + (utf8Encode c).length ≤ n) :
    U8_NEXT (pfx ++ (utf8Encode c ++ rest)) pfx.length n
      = ((c : Int), pfx.length + (utf8Encode c).length) := by
  unfold isScalar at hc
  unfold utf8Encode at hn ⊢
  have e1 : pfx.length + 1 = pfx.length + 1 := rfl
  split_ifs at hn ⊢ with h1 h2 h3
  · unfold U8_NEXT
    simp only [byteAt_append_right_zero, byteAt_append_right, List.cons_append,
      List.nil_append, byteAt_cons_zero, byteAt_cons_succ, List.length_cons, List.length_nil]
    rw [if_pos h1]
  · simp only [List.length_cons, List.length_nil] at hn
    unfold U8_NEXT
    simp only [byteAt_append_right_zero, byteAt_append_right, List.cons_append,
      List.nil_append, byteAt_cons_zero, byteAt_cons_succ, List.length_cons, List.length_nil,
      isTrail, decide_eq_true_eq]
    rw [if_neg (by omega), if_pos (by omega)]
    congr 1
    congr 1
    omega
  · simp only [List.length_cons, List.length_nil] at hn
    unfold U8_NEXT
    simp only [byteAt_append_right_zero, byteAt_append_right, List.cons_append,
      List.nil_append, byteAt_cons_zero, byteAt_cons_succ, List.length_cons, List.length_nil,
      isTrail, decide_eq_true_eq]
    rw [if_neg (by omega), if_neg (by omega), if_pos (by omega)]
    congr 1
    congr 1
    omega
  · simp only [List.length_cons, List.length_nil] at hn
    unfold U8_NEXT
    simp only [byteAt_append_right_zero, byteAt_append_right, List.cons_append,
      List.nil_append, byteAt_cons_zero, byteAt_cons_succ, List.length_cons, List.length_nil,
      isTrail, decide_eq_true_eq]
    rw [if_neg (by omega), if_neg (by omega), if_neg (by omega), if_pos (by omega)]
    congr 1
    congr 1
    omega

/-! ## Tokens and the decoding step -/

theorem utf8_append (a b : List Nat) : utf8 (a ++ b) = utf8 a ++ utf8 b := by
  induction a with
  | nil => rfl
  | cons c a ih => simp [utf8, ih]

theorem utf8_singleton (c : Nat) : utf8 [c] = utf8Encode c := by simp [utf8]

theorem tokens_cons (c : Nat) (rest : List Nat) :
    tokens (c :: rest) = headTok c rest :: tokens (afterTok c rest) := by
  cases rest with
  | nil => simp [tokens, headTok, afterTok]
  | cons d rest =>
    by_cases h : c = 0x0D ∧ d = 0x0A
    · simp [tokens, headTok, afterTok, h]
    · simp [tokens, headTok, afterTok, h]

theorem headTok_append_afterTok (c : Nat) (rest : List Nat) :
    (headTok c rest).2 ++ afterTok c rest = c :: rest := by
  unfold headTok afterTok
  split_ifs with h
  · obtain ⟨rfl, h2⟩ := h
    cases rest with
    | nil => simp at h2
    | cons d rest =>
      simp only [List.head?_cons, Option.some.injEq] at h2
      subst h2
      rfl
  · rfl

theorem length_afterTok_lt (c : Nat) (rest : List Nat) :
    (afterTok c rest).length < (c :: rest).length := by
  unfold afterTok
  split_ifs <;> simp
  omega

theorem valid_afterTok (c : Nat) (rest : List Nat) (h : Valid (c :: rest)) :
    Valid (afterTok c rest) := by
  intro x hx
  apply h
  unfold afterTok at hx
  split_ifs at hx
  · exact List.mem_cons_of_mem _ (List.mem_of_mem_tail hx)
  · exact List.mem_cons_of_mem _ hx

theorem isNewline_cast (c : Nat) : isNewline (c : Int) = isTermCP c := by
  simp only [isNewline, isTermCP, ASCII_CR, ASCII_LF, UCHAR_NEL, ASCII_VT, ASCII_FF, UCHAR_LS,
    UCHAR_PS]
  have h : ∀ (k : Nat), ((c : Int) == (k : Int)) = (c == k) := by
    intro k
    by_cases hk : c = k
    · simp [hk]
    · have : (c : Int) ≠ (k : Int) := by exact_mod_cast hk
      simp [hk, this]
  have h13 := h 0x0D
  have h10 := h 0x0A
  have h85 := h 0x85
  have h11 := h 0x0B
  have h12 := h 0x0C
  have hls := h 0x2028
  have hps := h 0x2029
  simp only [Nat.cast_ofNat] at h13 h10 h85 h11 h12 hls hps
  rw [h13, h10, h85, h11, h12, hls, hps]

theorem byteAt_utf8_zero_eq_LF (cs : List Nat) :
    byteAt (utf8 cs) 0 = 0x0A ↔ cs.head? = some 0x0A := by
  cases cs with
  | nil => simp [utf8, byteAt]
  | cons d cs =>
    simp only [utf8, List.head?_cons, Option.some.injEq]
    unfold utf8Encode
    split_ifs <;> simp only [List.cons_append, byteAt_cons_zero] <;> omega

theorem isTermCP_headTok (c : Nat) (rest : List Nat) : (headTok c rest).1 = isTermCP c := by
  unfold headTok
  split_ifs with h
  · rw [h.1]
    rfl
  · rfl

/-- At a token boundary of a well-formed buffer, the decoding step of the scans
yields the first code point of the token and skips the token. -/
theorem decodeNewline_utf8 (pfx : List Nat) (c : Nat) (rest : List Nat) (n : Nat)
    (hv : Valid (c :: rest)) (hn : n = pfx.length + (utf8 (c :: rest)).length) :
    decodeNewline (pfx ++ utf8 (c :: rest)) n pfx.length
      = ((c : Int), pfx.length + tokLen (headTok c rest)) := by
  have hc : isScalar c := hv c (List.mem_cons_self _ _)
  have hU := U8_NEXT_utf8Encode pfx (utf8 rest) c n hc
    (by rw [hn]; simp only [utf8, List.length_append]; omega)
  unfold decodeNewline
  simp only [utf8] at hU ⊢
  rw [hU]
  simp only
  by_cases h13 : c = 0x0D
  · subst h13
    have hE : utf8Encode 0x0D = [0x0D] := by decide
    rw [if_pos (by decide), hE]
    have hb : byteAt (pfx ++ ([0x0D] ++ utf8 rest)) (pfx.length + [0x0D].length)
        = byteAt (utf8 rest) 0 := by
      have := byteAt_append_right (pfx ++ [0x0D]) (utf8 rest) 0
      simpa using this
    rw [hb]
    by_cases hlf : rest.head? = some 0x0A
    · have : byteAt (utf8 rest) 0 = 0x0A := (byteAt_utf8_zero_eq_LF rest).2 hlf
      rw [this, if_pos (by decide)]
      simp [headTok, hlf, tokLen, utf8, utf8Encode]
    · have : byteAt (utf8 rest) 0 ≠ 0x0A := fun e => hlf ((byteAt_utf8_zero_eq_LF rest).1 e)
      rw [if_neg (by simpa [ASCII_LF] using by exact_mod_cast this)]
      simp [headTok, hlf, tokLen, utf8, utf8Encode]
  · have : ¬ ((c : Int) = ASCII_CR) := by
      simp only [ASCII_CR]
      exact_mod_cast h13
    rw [if_neg this]
    simp [headTok, h13, tokLen, utf8]

theorem tokLen_pos_headTok (c : Nat) (rest : List Nat) : 1 ≤ tokLen (headTok c rest) := by
  unfold headTok tokLen
  split_ifs
  · decide
  · simp only [utf8, List.append_nil]
    exact length_utf8Encode_pos c

theorem bytesLen_tokens_aux (m : Nat) :
    ∀ cs : List Nat, cs.length ≤ m → bytesLen (tokens cs) = (utf8 cs).length := by
  induction m with
  | zero =>
    intro cs h
    have : cs = [] := List.length_eq_zero.1 (by omega)
    subst this
    rfl
  | succ m ih =>
    intro cs h
    cases cs with
    | nil => rfl
    | cons c rest =>
      have hlt := length_afterTok_lt c rest
      rw [tokens_cons, bytesLen, ih _ (by simp only [List.length_cons] at h hlt; omega)]
      unfold tokLen
      rw [← List.length_append, ← utf8_append, headTok_append_afterTok]

theorem bytesLen_tokens (cs : List Nat) : bytesLen (tokens cs) = (utf8 cs).length :=
  bytesLen_tokens_aux cs.length cs (le_refl _)

theorem tokens_eq_nil (cs : List Nat) : tokens cs = [] ↔ cs = [] := by
  cases cs with
  | nil => simp [tokens]
  | cons c rest => simp [tokens_cons]

theorem utf8_eq_nil (cs : List Nat) : utf8 cs = [] ↔ cs = [] := by
  cases cs with
  | nil => simp [utf8]
  | cons c rest =>
    have := length_utf8Encode_pos c
    simp only [utf8, List.append_eq_nil, reduceCtorEq, iff_false, not_and]
    intro h
    rw [h] at this
    simp at this

/-! ## The scans of a well-formed buffer, token by token -/

theorem lines1Loop_done (s : List Nat) (n fuel j : Nat) (occ : List (Nat × Nat)) (h : n ≤ j) :
    lines1Loop s n fuel j occ = some occ := by
  cases fuel <;> simp only [lines1Loop] <;> rw [if_neg (by omega)]

theorem linesLoop_done (s : List Nat) (n : Nat) (cap o : Int) (fuel j : Nat) (k : Int)
    (occ : List (Nat × Nat)) (h : n ≤ j) :
    linesLoop s n cap o fuel j k occ = some (k, occ) := by
  cases fuel <;> simp only [linesLoop] <;> rw [if_neg (by omega)]

theorem lines1Step_append (s : List Nat) (n j : Nat) (pre : List (Nat × Nat)) (b : Nat × Nat) :
    lines1Step s n j (pre ++ [b]) =
      if isNewline (decodeNewline s n j).1 = true then
        if (decodeNewline s n j).2 < n then
          ((decodeNewline s n j).2,
            pre ++ [(b.1, j)] ++ [((decodeNewline s n j).2, (decodeNewline s n j).2)])
        else ((decodeNewline s n j).2, pre ++ [(b.1, j)])
      else ((decodeNewline s n j).2, pre ++ [(b.1, (decodeNewline s n j).2)]) := by
  unfold lines1Step
  simp only [setBackSecond_append]

theorem buffer_split (pfx : List Nat) (c : Nat) (rest : List Nat) :
    pfx ++ utf8 (c :: rest) = (pfx ++ utf8 (headTok c rest).2) ++ utf8 (afterTok c rest) := by
  rw [List.append_assoc, ← utf8_append, headTok_append_afterTok]

theorem length_split (pfx : List Nat) (c : Nat) (rest : List Nat) :
    pfx.length + (utf8 (c :: rest)).length
      = (pfx ++ utf8 (headTok c rest).2).length + (utf8 (afterTok c rest)).length := by
  rw [← List.length_append, ← List.length_append, buffer_split]

theorem length_pfx_tok (pfx : List Nat) (t : Bool × List Nat) :
    (pfx ++ utf8 t.2).length = pfx.length + tokLen t := by
  simp [tokLen]

theorem length_split_tok (pfx : List Nat) (c : Nat) (rest : List Nat) :
    pfx.length + tokLen (headTok c rest) + (utf8 (afterTok c rest)).length
      = pfx.length + (utf8 (c :: rest)).length := by
  rw [length_split, length_pfx_tok]

/-- The loop of `stri_split_lines1` on a well-formed buffer, from a token boundary:
it ends, and extends the deque as `tokRanges1` tells. -/
theorem lines1Loop_tokens (m : Nat) :
    ∀ cs : List Nat, cs.length ≤ m → Valid cs →
      ∀ (pfx : List Nat) (pre : List (Nat × Nat)) (a fuel : Nat), cs.length ≤ fuel →
        lines1Loop (pfx ++ utf8 cs) (pfx.length + (utf8 cs).length) fuel pfx.length
          (pre ++ [(a, pfx.length)]) = some (pre ++ tokRanges1 a pfx.length (tokens cs)) := by
  induction m with
  | zero =>
    intro cs h _ pfx pre a fuel _
    have : cs = [] := List.length_eq_zero.1 (by omega)
    subst this
    rw [lines1Loop_done _ _ _ _ _ (by simp [utf8])]
    rfl
  | succ m ih =>
    intro cs h hv pfx pre a fuel hfuel
    cases cs with
    | nil =>
      rw [lines1Loop_done _ _ _ _ _ (by simp [utf8])]
      rfl
    | cons c rest =>
      cases fuel with
      | zero => simp at hfuel
      | succ f =>
        have hlt := length_afterTok_lt c rest
        simp only [List.length_cons] at h hfuel hlt
        have hpos := tokLen_pos_headTok c rest
        have hdec := decodeNewline_utf8 pfx c rest _ hv rfl
        have hjn : pfx.length < pfx.length + (utf8 (c :: rest)).length := by
          have := length_utf8Encode_pos c
          simp only [utf8, List.length_append]
          omega
        unfold lines1Loop
        rw [if_pos hjn, lines1Step_append, hdec]
        simp only [isNewline_cast, ← isTermCP_headTok c rest]
        rw [tokens_cons, tokRanges1]
        have hIH := fun pre' a' => ih (afterTok c rest) (by omega) (valid_afterTok c rest hv)
          (pfx ++ utf8 (headTok c rest).2) pre' a' f (by omega)
        simp only [← buffer_split, length_pfx_tok, length_split_tok] at hIH
        by_cases ht : (headTok c rest).1 = true
        · rw [if_pos ht, if_pos ht]
          by_cases hr : afterTok c rest = []
          · have hn' : ¬ (pfx.length + tokLen (headTok c rest)
                < pfx.length + (utf8 (c :: rest)).length) := by
              rw [length_split, hr, length_pfx_tok]
              simp [utf8]
            rw [if_neg hn', if_pos ((tokens_eq_nil _).2 hr)]
            exact lines1Loop_done _ _ _ _ _ (by omega)
          · have hn' : pfx.length + tokLen (headTok c rest)
                < pfx.length + (utf8 (c :: rest)).length := by
              rw [length_split, length_pfx_tok]
              have : (utf8 (afterTok c rest)).length ≠ 0 := fun e =>
                hr ((utf8_eq_nil _).1 (List.length_eq_zero.1 e))
              omega
            rw [if_pos hn', if_neg (fun e => hr ((tokens_eq_nil _).1 e))]
            simpa using hIH (pre ++ [(a, pfx.length)]) (pfx.length + tokLen (headTok c rest))
        · rw [if_neg ht, if_neg ht]
          exact hIH pre a

/-- The loop of `stri_split_lines` without suppression on a well-formed buffer,
from a token boundary, followed by the statements after the loop: it ends, and
extends the deque as `tokRangesCap` tells. -/
theorem linesLoop_tokens (m : Nat) :
    ∀ cs : List Nat, cs.length ≤ m → Valid cs →
      ∀ (pfx : List Nat) (pre : List (Nat × Nat)) (a fuel r : Nat) (k cap : Int),
        cap = k + r → cs.length ≤ fuel →
        ∃ k' occ', linesLoop (pfx ++ utf8 cs) (pfx.length + (utf8 cs).length) cap 0 fuel
            pfx.length k (pre ++ [(a, pfx.length)]) = some (k', occ')
          ∧ linesFinish (pfx.length + (utf8 cs).length) cap 0 k' occ'
            = pre ++ tokRangesCap r a pfx.length (tokens cs) := by
  have hdone : ∀ (cs : List Nat) (pfx : List Nat) (pre : List (Nat × Nat)) (a fuel r : Nat)
      (k cap : Int), cap = k + r → (r = 0 ∨ cs = []) →
      ∃ k' occ', linesLoop (pfx ++ utf8 cs) (pfx.length + (utf8 cs).length) cap 0 fuel
          pfx.length k (pre ++ [(a, pfx.length)]) = some (k', occ')
        ∧ linesFinish (pfx.length + (utf8 cs).length) cap 0 k' occ'
          = pre ++ tokRangesCap r a pfx.length (tokens cs) := by
    intro cs pfx pre a fuel r k cap hcap hor
    refine ⟨k, pre ++ [(a, pfx.length)], ?_, ?_⟩
    · rcases hor with h0 | h0
      · exact linesLoop_cap_reached _ _ _ _ _ _ _ _ (by subst h0; simp [hcap])
      · exact linesLoop_done _ _ _ _ _ _ _ _ (by subst h0; simp [utf8])
    · rw [linesFinish_append]
      simp only [ne_eq, not_true_eq_false, false_and, if_false]
      cases r with
      | zero =>
        rw [if_pos (by simp [hcap]), tokRangesCap, bytesLen_tokens]
      | succ r =>
        rcases hor with h0 | h0
        · cases h0
        · subst h0
          rw [if_neg (by rw [hcap]; push_cast; omega)]
          rfl
  induction m with
  | zero =>
    intro cs h _ pfx pre a fuel r k cap hcap _
    exact hdone cs pfx pre a fuel r k cap hcap (Or.inr (List.length_eq_zero.1 (by omega)))
  | succ m ih =>
    intro cs h hv pfx pre a fuel r k cap hcap hfuel
    cases cs with
    | nil => exact hdone [] pfx pre a fuel r k cap hcap (Or.inr rfl)
    | cons c rest =>
      cases r with
      | zero => exact hdone _ pfx pre a fuel 0 k cap hcap (Or.inl rfl)
      | succ r =>
        cases fuel with
        | zero => simp at hfuel
        | succ f =>
          have hlt := length_afterTok_lt c rest
          simp only [List.length_cons] at h hfuel hlt
          have hdec := decodeNewline_utf8 pfx c rest _ hv rfl
          have hjn : pfx.length < pfx.length + (utf8 (c :: rest)).length := by
            have := length_utf8Encode_pos c
            simp only [utf8, List.length_append]
            omega
          have hkc : k < cap := by rw [hcap]; push_cast; omega
          unfold linesLoop
          rw [if_pos ⟨hjn, hkc⟩, tokens_cons, tokRangesCap]
          have hIH := fun pre' a' r' k' (hc : cap = k' + (r' : Nat)) =>
            ih (afterTok c rest) (by omega) (valid_afterTok c rest hv)
              (pfx ++ utf8 (headTok c rest).2) pre' a' f r' k' cap hc (by omega)
          simp only [← buffer_split, length_pfx_tok, length_split_tok] at hIH
          by_cases ht : (headTok c rest).1 = true
          · have hnl : isNewline (decodeNewline (pfx ++ utf8 (c :: rest))
                (pfx.length + (utf8 (c :: rest)).length) pfx.length).1 = true := by
              rw [hdec, isNewline_cast, ← isTermCP_headTok c rest, ht]
            rw [linesStep_newline_keep _ _ 0 _ k pre (a, pfx.length) hnl (fun e => e.1 rfl),
              hdec, if_pos ht]
            obtain ⟨k', occ', h1, h2⟩ := hIH (pre ++ [(a, pfx.length)])
              (pfx.length + tokLen (headTok c rest)) r (k + 1)
              (by rw [hcap]; push_cast; ring)
            exact ⟨k', occ', h1, by simpa using h2⟩
          · have hnl : ¬ isNewline (decodeNewline (pfx ++ utf8 (c :: rest))
                (pfx.length + (utf8 (c :: rest)).length) pfx.length).1 = true := by
              rw [hdec, isNewline_cast, ← isTermCP_headTok c rest]
              exact ht
            rw [linesStep_other _ _ 0 _ k pre (a, pfx.length) hnl, hdec, if_neg ht]
            exact hIH pre a (r + 1) k hcap

/-! ## The entry points on a well-formed buffer -/

theorem length_le_length_utf8 (cs : List Nat) : cs.length ≤ (utf8 cs).length := by
  induction cs with
  | nil => simp
  | cons c cs ih =>
    have := length_utf8Encode_pos c
    simp only [utf8, List.length_cons, List.length_append]
    omega

/-- The deque of `stri_split_lines1` on a valid UTF-8 buffer. -/
theorem lines1Ranges_utf8 (cs : List Nat) (hv : Valid cs) :
    lines1Ranges (utf8 cs) = some (tokRanges1 0 0 (tokens cs)) := by
  have := lines1Loop_tokens cs.length cs (le_refl _) hv [] [] 0 (utf8 cs).length
    (length_le_length_utf8 cs)
  simpa [lines1Ranges] using this

/-- The final deque of `stri_split_lines` without suppression on a valid UTF-8
buffer, `r + 1` being the effective cap. -/
theorem linesRanges_utf8 (cs : List Nat) (hv : Valid cs) (n_max : Int) (r : Nat)
    (hr : (if n_max < 0 then INT_MAX else n_max) = 1 + (r : Int)) :
    linesRanges (utf8 cs) n_max 0 = some (tokRangesCap r 0 0 (tokens cs)) := by
  obtain ⟨k, occ, h1, h2⟩ := linesLoop_tokens cs.length cs (le_refl _) hv [] [] 0
    (utf8 cs).length r 1 _ hr (length_le_length_utf8 cs)
  simp only [List.nil_append, List.length_nil, Nat.zero_add] at h1 h2
  unfold linesRanges
  dsimp only
  rw [h1, Option.map_some']
  dsimp only
  rw [h2]

theorem stri_split_lines1_utf8 (cs : List Nat) (hv : Valid cs) :
    stri_split_lines1 (some (utf8 cs))
      = some (mkPieces (utf8 cs) (tokRanges1 0 0 (tokens cs))) := by
  simp only [stri_split_lines1, lines1Ranges_utf8 cs hv, Option.map_some']

/-! ## The capped scan against the scan of `stri_split_lines1`, over tokens -/

theorem endsTerm_cons (t : Bool × List Nat) (ts : List (Bool × List Nat)) :
    endsTerm (t :: ts) = if ts = [] then t.1 else endsTerm ts := by
  cases ts <;> simp [endsTerm]

theorem countT_cons (t : Bool × List Nat) (ts : List (Bool × List Nat)) :
    ((t :: ts).filter (fun t => t.1)).length
      = (if t.1 = true then 1 else 0) + (ts.filter (fun t => t.1)).length := by
  by_cases h : t.1 = true
  · simp [List.filter_cons, h]
    omega
  · simp [List.filter_cons, h]

/-- With a cap that is not reached before the last terminator, the final deque of
`stri_split_lines` is the deque of `stri_split_lines1`, followed by one empty
range at the end of the buffer when the tokens end with a terminator. -/
theorem tokRangesCap_eq_tokRanges1 (ts : List (Bool × List Nat)) :
    ∀ (r a j : Nat), (ts.filter (fun t => t.1)).length ≤ r →
      tokRangesCap r a j ts = tokRanges1 a j ts
        ++ (if endsTerm ts = true then [(j + bytesLen ts, j + bytesLen ts)] else []) := by
  induction ts with
  | nil =>
    intro r a j _
    cases r <;> simp [tokRangesCap, tokRanges1, endsTerm, bytesLen]
  | cons t ts ih =>
    intro r a j h
    rw [countT_cons] at h
    rw [endsTerm_cons, tokRanges1, bytesLen]
    by_cases ht : t.1 = true
    · rw [if_pos ht] at h
      obtain ⟨r, rfl⟩ : ∃ r', r = r' + 1 := ⟨r - 1, by omega⟩
      rw [tokRangesCap, if_pos ht, if_pos ht, ih r _ _ (by omega)]
      by_cases hts : ts = []
      · subst hts
        simp [tokRanges1, endsTerm, bytesLen, ht]
      · simp [hts, Nat.add_assoc]
    · rw [if_neg ht] at h
      rw [if_neg ht]
      have hX : (if (if ts = [] then t.1 else endsTerm ts) = true
            then [(j + (tokLen t + bytesLen ts), j + (tokLen t + bytesLen ts))] else [])
          = (if endsTerm ts = true
            then [(j + tokLen t + bytesLen ts, j + tokLen t + bytesLen ts)] else []) := by
        by_cases hts : ts = []
        · subst hts
          simp [endsTerm, ht]
        · simp [hts, Nat.add_assoc]
      rw [hX, ← ih r a (j + tokLen t) (by omega)]
      cases r with
      | zero => simp [tokRangesCap, bytesLen, Nat.add_assoc]
      | succ r => simp [tokRangesCap, ht]

theorem endsWithTerminator_cons (c : Nat) (rest : List Nat) (h : rest ≠ []) :
    endsWithTerminator (c :: rest) = endsWithTerminator rest := by
  unfold endsWithTerminator
  cases rest with
  | nil => exact absurd rfl h
  | cons d rest => simp [List.getLast?_cons_cons]

theorem endsTerm_tokens_aux (m : Nat) :
    ∀ cs : List Nat, cs.length ≤ m → endsTerm (tokens cs) = endsWithTerminator cs := by
  induction m with
  | zero =>
    intro cs h
    have : cs = [] := List.length_eq_zero.1 (by omega)
    subst this
    rfl
  | succ m ih =>
    intro cs h
    cases cs with
    | nil => rfl
    | cons c rest =>
      have hlt := length_afterTok_lt c rest
      simp only [List.length_cons] at h hlt
      rw [tokens_cons, endsTerm_cons, ih (afterTok c rest) (by omega)]
      simp only [tokens_eq_nil]
      unfold headTok afterTok
      by_cases hc : c = 0x0D ∧ rest.head? = some 0x0A
      · simp only [hc, and_self, if_true]
        obtain ⟨rfl, h2⟩ := hc
        cases rest with
        | nil => simp at h2
        | cons d rest =>
          simp only [List.head?_cons, Option.some.injEq] at h2
          subst h2
          simp only [List.tail_cons]
          by_cases hr : rest = []
          · subst hr
            simp [endsWithTerminator, isTermCP]
          · rw [if_neg hr, endsWithTerminator_cons _ _ (by simp),
              endsWithTerminator_cons _ _ hr]
      · simp only [hc, if_false]
        by_cases hr : rest = []
        · subst hr
          simp [endsWithTerminator]
        · rw [if_neg hr, endsWithTerminator_cons _ _ hr]

theorem endsTerm_tokens (cs : List Nat) : endsTerm (tokens cs) = endsWithTerminator cs :=
  endsTerm_tokens_aux cs.length cs (le_refl _)

/-! ## Lines of a terminated line followed by a string -/

theorem tokens_nonterm_append (x z : List Nat) (hx : ∀ c ∈ x, isTermCP c = false) :
    tokens (x ++ z) = x.map (fun c => (false, [c])) ++ tokens z := by
  induction x with
  | nil => rfl
  | cons c x ih =>
    have hc : isTermCP c = false := hx c (List.mem_cons_self _ _)
    have h13 : c ≠ 0x0D := by
      intro e
      rw [e] at hc
      exact absurd hc (by decide)
    rw [List.cons_append, tokens_cons, List.map_cons, List.cons_append,
      ← ih (fun d hd => hx d (List.mem_cons_of_mem _ hd))]
    simp [headTok, afterTok, h13, hc]

theorem tokens_terminator_append (t y : List Nat) (ht : t ∈ terminators)
    (hcr : t = [0x0D] → y.head? ≠ some 0x0A) : tokens (t ++ y) = (true, t) :: tokens y := by
  simp only [terminators, List.mem_cons, List.mem_singleton, List.not_mem_nil, or_false] at ht
  rcases ht with rfl | rfl | rfl | rfl | rfl | rfl | rfl | rfl
  · have := hcr rfl
    rw [List.singleton_append, tokens_cons]
    simp [headTok, afterTok, this, isTermCP]
  all_goals
    simp only [List.cons_append, List.nil_append]
    rw [tokens_cons]
    simp [headTok, afterTok, isTermCP]

theorem tokRanges1_nonterm_append (x : List Nat) (ts : List (Bool × List Nat)) :
    ∀ (a j : Nat), tokRanges1 a j (x.map (fun c => (false, [c])) ++ ts)
      = tokRanges1 a (j + (utf8 x).length) ts := by
  induction x with
  | nil => intro a j; rfl
  | cons c x ih =>
    intro a j
    rw [List.map_cons, List.cons_append, tokRanges1]
    simp only [Bool.false_eq_true, if_false]
    rw [ih]
    simp [tokLen, utf8, Nat.add_assoc]

theorem tokRanges1_shift (d : Nat) (ts : List (Bool × List Nat)) :
    ∀ (a j : Nat), tokRanges1 (a + d) (j + d) ts
      = (tokRanges1 a j ts).map (fun r => (r.1 + d, r.2 + d)) := by
  induction ts with
  | nil => intro a j; rfl
  | cons t ts ih =>
    intro a j
    rw [tokRanges1, tokRanges1]
    by_cases ht : t.1 = true
    · rw [if_pos ht, if_pos ht]
      by_cases hts : ts = []
      · rw [if_pos hts, if_pos hts]
        rfl
      · rw [if_neg hts, if_neg hts, List.map_cons, ← ih]
        simp [Nat.add_right_comm]
    · rw [if_neg ht, if_neg ht, ← ih]
      simp [Nat.add_right_comm]

theorem mkCharLen_shift (pfx s : List Nat) (r : Nat × Nat) :
    mkCharLen (pfx ++ s) (r.1 + pfx.length, r.2 + pfx.length) = mkCharLen s r := by
  unfold mkCharLen
  simp only
  rw [Nat.add_comm r.1, ← List.drop_drop, List.drop_left]
  congr 1
  omega

theorem mkPieces_shift (pfx s : List Nat) (occ : List (Nat × Nat)) :
    mkPieces (pfx ++ s) (occ.map (fun r => (r.1 + pfx.length, r.2 + pfx.length)))
      = mkPieces s occ := by
  unfold mkPieces
  rw [List.map_map]
  apply List.map_congr_left
  intro r _
  simp only [Function.comp]
  rw [mkCharLen_shift]

theorem mkPieces_cons (s : List Nat) (r : Nat × Nat) (occ : List (Nat × Nat)) :
    mkPieces s (r :: occ) = some (mkCharLen s r) :: mkPieces s occ := rfl

theorem mkCharLen_head (p q : List Nat) : mkCharLen (p ++ q) (0, p.length) = p := by
  simp [mkCharLen]

theorem valid_of_mem_terminators (t : List Nat) (ht : t ∈ terminators) : Valid t := by
  simp only [terminators, List.mem_cons, List.mem_singleton, List.not_mem_nil, or_false] at ht
  rcases ht with rfl | rfl | rfl | rfl | rfl | rfl | rfl | rfl <;> decide

theorem valid_append (a b : List Nat) (ha : Valid a) (hb : Valid b) : Valid (a ++ b) := by
  intro c hc
  rcases List.mem_append.1 hc with h | h
  · exact ha c h
  · exact hb c h

theorem length_tokRanges1 (ts : List (Bool × List Nat)) :
    ∀ (a j : Nat), (tokRanges1 a j ts).length
      = (ts.filter (fun t => t.1)).length + (if endsTerm ts = true then 0 else 1) := by
  induction ts with
  | nil => intro a j; rfl
  | cons t ts ih =>
    intro a j
    rw [tokRanges1, countT_cons, endsTerm_cons]
    by_cases ht : t.1 = true
    · rw [if_pos ht, if_pos ht]
      by_cases hts : ts = []
      · subst hts
        simp [ht]
      · rw [if_neg hts, if_neg hts, List.length_cons, ih]
        omega
    · rw [if_neg ht, if_neg ht, ih]
      by_cases hts : ts = []
      · subst hts
        simp [ht, endsTerm]
      · rw [if_neg hts]
        omega

/-- C1: for every string `x` without terminator code points, every terminator `t`
(CR, LF, CRLF, NEL, VT, FF, LS, PS) and every string `y` that does not begin with
LF when `t` is CR, all valid UTF-8, `stri_split_lines1` returns on `y` and on
`x·t·y`, and the lines of `x·t·y` are `[x]` when `y` is empty and `x` followed by
the lines of `y` otherwise. -/
theorem C1_lines1_recursive_reference (x t y : List Nat) (hx : Valid x)
    (hxt : ∀ c ∈ x, isTermCP c = false) (ht : t ∈ terminators) (hy : Valid y)
    (hcr : t = [0x0D] → y.head? ≠ some 0x0A) :
    ∃ Ly, stri_split_lines1 (some (utf8 y)) = some Ly
      ∧ stri_split_lines1 (some (utf8 (x ++ t ++ y)))
          = some (if y = [] then [some (utf8 x)] else some (utf8 x) :: Ly) := by
  refine ⟨_, stri_split_lines1_utf8 y hy, ?_⟩
  have hv : Valid (x ++ t ++ y) :=
    valid_append _ _ (valid_append _ _ hx (valid_of_mem_terminators t ht)) hy
  rw [stri_split_lines1_utf8 _ hv, List.append_assoc, tokens_nonterm_append x _ hxt,
    tokens_terminator_append t y ht hcr, tokRanges1_nonterm_append, tokRanges1]
  simp only [if_true, tokens_eq_nil, Nat.zero_add]
  by_cases hye : y = []
  · subst hye
    rw [if_pos rfl, if_pos rfl]
    simp only [mkPieces, List.map_cons, List.map_nil, utf8_append]
    rw [mkCharLen_head]
  · rw [if_neg hye, if_neg hye]
    have hsh := tokRanges1_shift ((utf8 x).length + tokLen (true, t)) (tokens y) 0 0
    simp only [Nat.zero_add] at hsh
    rw [hsh]
    have hlen : (utf8 x).length + tokLen (true, t) = (utf8 (x ++ t)).length := by
      simp [tokLen, utf8_append]
    have hbuf : utf8 (x ++ (t ++ y)) = utf8 (x ++ t) ++ utf8 y := by
      rw [← List.append_assoc, utf8_append]
    rw [hlen, mkPieces_cons, hbuf, mkPieces_shift, utf8_append, List.append_assoc,
      mkCharLen_head]

/-- Witness for C1 at `x` = "ab", `t` = CR, `y` = "c\n". -/
theorem C1_lines1_recursive_reference_witness :
    Valid [97, 98] ∧ (∀ c ∈ [97, 98], isTermCP c = false) ∧ [0x0D] ∈ terminators
      ∧ Valid [99, 10] ∧ (([0x0D] : List Nat) = [0x0D] → [99, 10].head? ≠ some 0x0A)
      ∧ ∃ Ly, stri_split_lines1 (some (utf8 [99, 10])) = some Ly
        ∧ stri_split_lines1 (some (utf8 ([97, 98] ++ [0x0D] ++ [99, 10])))
            = some (if ([99, 10] : List Nat) = [] then [some (utf8 [97, 98])]
                else some (utf8 [97, 98]) :: Ly) :=
  ⟨by decide, by decide, by decide, by decide, by decide,
    C1_lines1_recursive_reference [97, 98] [0x0D] [99, 10] (by decide) (by decide) (by decide)
      (by decide) (by decide)⟩

/-- C2: for every valid UTF-8 string, `stri_split_lines1` returns, and the number
of lines it returns is the number of terminators of the string (CRLF counting
once), plus one if the string is empty or does not end with a terminator. -/
theorem C2_lines1_number_of_lines (cs : List Nat) (hv : Valid cs) :
    ∃ L, stri_split_lines1 (some (utf8 cs)) = some L
      ∧ L.length = countTerminators cs
          + (if cs = [] ∨ endsWithTerminator cs = false then 1 else 0) := by
  refine ⟨_, stri_split_lines1_utf8 cs hv, ?_⟩
  rw [length_mkPieces, length_tokRanges1, endsTerm_tokens, countTerminators]
  congr 1
  by_cases he : endsWithTerminator cs = true
  · have : cs ≠ [] := by
      rintro rfl
      exact absurd he (by decide)
    simp [he, this]
  · simp [he]

/-- Witness for C2 at the string "a\r\n\nb\n". -/
theorem C2_lines1_number_of_lines_witness :
    Valid [97, 13, 10, 10, 98, 10]
      ∧ ∃ L, stri_split_lines1 (some (utf8 [97, 13, 10, 10, 98, 10])) = some L
        ∧ L.length = countTerminators [97, 13, 10, 10, 98, 10]
          + (if ([97, 13, 10, 10, 98, 10] : List Nat) = []
              ∨ endsWithTerminator [97, 13, 10, 10, 98, 10] = false then 1 else 0) :=
  ⟨by decide, C2_lines1_number_of_lines [97, 13, 10, 10, 98, 10] (by decide)⟩

/-! ## The gaps between the lines of `stri_split_lines1` -/

theorem mkCharLen_middle (p q r : List Nat) :
    mkCharLen (p ++ q ++ r) (p.length, p.length + q.length) = q := by
  simp [mkCharLen, List.append_assoc]

theorem mkCharLen_append (s : List Nat) (a b c : Nat) (hab : a ≤ b) (hbc : b ≤ c) :
    mkCharLen s (a, b) ++ mkCharLen s (b, c) = mkCharLen s (a, c) := by
  unfold mkCharLen
  simp only
  have h1 : c - a = (b - a) + (c - b) := by omega
  have h2 : List.drop b s = List.drop (b - a) (List.drop a s) := by
    rw [List.drop_drop]
    congr 1
    omega
  rw [h1, List.take_add, h2]

theorem lt_of_mkCharLen_mem_terminatorBytes (s : List Nat) (a b : Nat)
    (h : mkCharLen s (a, b) ∈ terminatorBytes) : a < b := by
  by_contra hn
  have : mkCharLen s (a, b) = [] := by
    unfold mkCharLen
    simp only
    rw [show b - a = 0 by omega]
    rfl
  rw [this] at h
  exact absurd h (by decide)

theorem reassemble_eq (s : List Nat) :
    ∀ (rs : List (Nat × Nat)) (r : Nat × Nat),
      (∀ x ∈ r :: rs, x.1 ≤ x.2 ∧ x.2 ≤ s.length) →
      List.Chain' (fun x y => x.2 ≤ y.1) (r :: rs) →
      reassemble s (r :: rs) = mkCharLen s (r.1, s.length) := by
  intro rs
  induction rs with
  | nil =>
    intro r hb _
    have := hb r (List.mem_cons_self _ _)
    exact mkCharLen_append s r.1 r.2 s.length this.1 this.2
  | cons r' rs ih =>
    intro r hb hc
    have hr := hb r (List.mem_cons_self _ _)
    have hr' := hb r' (List.mem_cons_of_mem _ (List.mem_cons_self _ _))
    rw [List.chain'_cons] at hc
    rw [reassemble, ih r' (fun x hx => hb x (List.mem_cons_of_mem _ hx)) hc.2,
      mkCharLen_append s r.1 r.2 r'.1 hr.1 hc.1,
      mkCharLen_append s r.1 r'.1 s.length (by omega) (by omega)]

theorem tokJoin_tokens_aux (m : Nat) :
    ∀ cs : List Nat, cs.length ≤ m → tokJoin (tokens cs) = cs := by
  induction m with
  | zero =>
    intro cs h
    have : cs = [] := List.length_eq_zero.1 (by omega)
    subst this
    rfl
  | succ m ih =>
    intro cs h
    cases cs with
    | nil => rfl
    | cons c rest =>
      have hlt := length_afterTok_lt c rest
      simp only [List.length_cons] at h hlt
      rw [tokens_cons, tokJoin, ih _ (by omega), headTok_append_afterTok]

theorem tokJoin_tokens (cs : List Nat) : tokJoin (tokens cs) = cs :=
  tokJoin_tokens_aux cs.length cs (le_refl _)

theorem headTok_mem_terminators (c : Nat) (rest : List Nat) (h : (headTok c rest).1 = true) :
    (headTok c rest).2 ∈ terminators := by
  unfold headTok at h ⊢
  split_ifs at h ⊢ with hc
  · decide
  · simp only [isTermCP, Bool.or_eq_true, beq_iff_eq] at h
    simp only [terminators, List.mem_cons, List.cons.injEq, and_true, List.mem_singleton,
      List.not_mem_nil, or_false]
    simp only [reduceCtorEq, and_false, false_or, or_false] 
    omega

theorem tokens_terminators_aux (m : Nat) :
    ∀ cs : List Nat, cs.length ≤ m → ∀ t ∈ tokens cs, t.1 = true → t.2 ∈ terminators := by
  induction m with
  | zero =>
    intro cs h
    have : cs = [] := List.length_eq_zero.1 (by omega)
    subst this
    intro t ht
    cases ht
  | succ m ih =>
    intro cs h
    cases cs with
    | nil =>
      intro t ht
      cases ht
    | cons c rest =>
      have hlt := length_afterTok_lt c rest
      simp only [List.length_cons] at h hlt
      intro t ht
      rw [tokens_cons] at ht
      rcases List.mem_cons.1 ht with rfl | ht
      · exact headTok_mem_terminators c rest
      · exact ih _ (by omega) t ht

/-- The deque of `stri_split_lines1`, told over tokens, in a buffer `s` that ends
with the bytes of these tokens: it starts with the open range, its ranges lie
inside `s`, the bytes between two ranges are one terminator, and the bytes after
the last range are none or one terminator. -/
theorem tokRanges1_gaps (s : List Nat) :
    ∀ ts : List (Bool × List Nat), (∀ t ∈ ts, t.1 = true → t.2 ∈ terminators) →
      ∀ (pfx : List Nat) (a : Nat), s = pfx ++ utf8 (tokJoin ts) → a ≤ pfx.length →
      ∃ b rs, tokRanges1 a pfx.length ts = (a, b) :: rs
        ∧ (∀ r ∈ (a, b) :: rs, r.1 ≤ r.2 ∧ r.2 ≤ s.length)
        ∧ List.Chain' (fun r r' => mkCharLen s (r.2, r'.1) ∈ terminatorBytes) ((a, b) :: rs)
        ∧ ∃ l, ((a, b) :: rs).getLast? = some l
          ∧ (mkCharLen s (l.2, s.length) = []
            ∨ mkCharLen s (l.2, s.length) ∈ terminatorBytes) := by
  intro ts
  induction ts with
  | nil =>
    intro _ pfx a hs ha
    have hlen : s.length = pfx.length := by rw [hs]; simp [tokJoin, utf8]
    refine ⟨pfx.length, [], rfl, ?_, List.chain'_singleton _, (a, pfx.length), rfl, Or.inl ?_⟩
    · intro r hr
      simp only [List.mem_singleton] at hr
      subst hr
      exact ⟨ha, by omega⟩
    · exact mkCharLen_eq_nil s _ hlen.symm
  | cons t ts ih =>
    intro hts pfx a hs ha
    have hs' : s = (pfx ++ utf8 t.2) ++ utf8 (tokJoin ts) := by
      rw [hs, tokJoin, utf8_append, List.append_assoc]
    have hlen' : (pfx ++ utf8 t.2).length = pfx.length + tokLen t := length_pfx_tok pfx t
    have hsl : s.length = pfx.length + tokLen t + (utf8 (tokJoin ts)).length := by
      rw [hs', List.length_append, hlen']
    have hgap : mkCharLen s (pfx.length, pfx.length + tokLen t) = utf8 t.2 := by
      rw [hs']
      exact mkCharLen_middle pfx (utf8 t.2) _
    have hIH := ih (fun x hx => hts x (List.mem_cons_of_mem _ hx)) (pfx ++ utf8 t.2)
    rw [hlen'] at hIH
    rw [tokRanges1]
    by_cases ht : t.1 = true
    · have hterm : utf8 t.2 ∈ terminatorBytes :=
        List.mem_map_of_mem _ (hts t (List.mem_cons_self _ _) ht)
      rw [if_pos ht]
      by_cases hnil : ts = []
      · subst hnil
        rw [if_pos rfl]
        have hend : s.length = pfx.length + tokLen t := by
          rw [hsl]
          simp [tokJoin, utf8]
        refine ⟨pfx.length, [], rfl, ?_, List.chain'_singleton _, (a, pfx.length), rfl,
          Or.inr ?_⟩
        · intro r hr
          simp only [List.mem_singleton] at hr
          subst hr
          exact ⟨ha, by omega⟩
        · rw [hend, hgap]
          exact hterm
      · rw [if_neg hnil]
        obtain ⟨b, rs, hR, hb, hc, l, hl, hlast⟩ := hIH (pfx.length + tokLen t) hs' (le_refl _)
        refine ⟨pfx.length, _, rfl, ?_, ?_, l, ?_, hlast⟩
        · intro r hr
          rcases List.mem_cons.1 hr with rfl | hr
          · exact ⟨ha, by omega⟩
          · rw [hR] at hr
            exact hb r hr
        · rw [hR, List.chain'_cons]
          refine ⟨?_, hc⟩
          show mkCharLen s (pfx.length, pfx.length + tokLen t) ∈ terminatorBytes
          rw [hgap]
          exact hterm
        · rw [hR, List.getLast?_cons_cons]
          exact hl
    · rw [if_neg ht]
      exact hIH a hs' (by omega)

/-- C3: for every valid UTF-8 string `s`, `stri_split_lines1` returns the strings
of its ranges `r_0 .. r_(m-1)`, where `r_0` starts at byte 0, the bytes between the
end of each range and the start of the next are exactly one terminator, and the
bytes between the end of the last range and the end of `s` are none or exactly
one terminator; and the lines interleaved with these bytes give back `s`. -/
theorem C3_lines1_round_trip (cs : List Nat) (hv : Valid cs) :
    ∃ occ, lines1Ranges (utf8 cs) = some occ
      ∧ stri_split_lines1 (some (utf8 cs)) = some (mkPieces (utf8 cs) occ)
      ∧ (∃ b rs, occ = (0, b) :: rs)
      ∧ List.Chain' (fun r r' => mkCharLen (utf8 cs) (r.2, r'.1) ∈ terminatorBytes) occ
      ∧ (∃ l, occ.getLast? = some l
          ∧ (mkCharLen (utf8 cs) (l.2, (utf8 cs).length) = []
            ∨ mkCharLen (utf8 cs) (l.2, (utf8 cs).length) ∈ terminatorBytes))
      ∧ reassemble (utf8 cs) occ = utf8 cs := by
  obtain ⟨b, rs, hR, hb, hc, hl⟩ := tokRanges1_gaps (utf8 cs) (tokens cs)
    (tokens_terminators_aux cs.length cs (le_refl _)) [] 0
    (by rw [tokJoin_tokens]; rfl) (le_refl _)
  simp only [List.length_nil] at hR
  refine ⟨_, lines1Ranges_utf8 cs hv, stri_split_lines1_utf8 cs hv, ⟨b, rs, hR⟩, ?_, ?_, ?_⟩
  · rw [hR]
    exact hc
  · rw [hR]
    exact hl
  · rw [hR, reassemble_eq (utf8 cs) rs (0, b) hb
      (hc.imp (fun {x y} h => le_of_lt (lt_of_mkCharLen_mem_terminatorBytes _ _ _ h)))]
    exact mkCharLen_whole _

/-- Witness for C3 at the string "a\r\nb", NEL, "c", LS. -/
theorem C3_lines1_round_trip_witness :
    Valid [97, 13, 10, 98, 0x85, 99, 0x2028]
      ∧ ∃ occ, lines1Ranges (utf8 [97, 13, 10, 98, 0x85, 99, 0x2028]) = some occ
        ∧ stri_split_lines1 (some (utf8 [97, 13, 10, 98, 0x85, 99, 0x2028]))
            = some (mkPieces (utf8 [97, 13, 10, 98, 0x85, 99, 0x2028]) occ)
        ∧ (∃ b rs, occ = (0, b) :: rs)
        ∧ List.Chain' (fun r r' =>
            mkCharLen (utf8 [97, 13, 10, 98, 0x85, 99, 0x2028]) (r.2, r'.1) ∈ terminatorBytes) occ
        ∧ (∃ l, occ.getLast? = some l
            ∧ (mkCharLen (utf8 [97, 13, 10, 98, 0x85, 99, 0x2028])
                  (l.2, (utf8 [97, 13, 10, 98, 0x85, 99, 0x2028]).length) = []
              ∨ mkCharLen (utf8 [97, 13, 10, 98, 0x85, 99, 0x2028])
                  (l.2, (utf8 [97, 13, 10, 98, 0x85, 99, 0x2028]).length) ∈ terminatorBytes))
        ∧ reassemble (utf8 [97, 13, 10, 98, 0x85, 99, 0x2028]) occ
            = utf8 [97, 13, 10, 98, 0x85, 99, 0x2028] :=
  ⟨by decide, C3_lines1_round_trip [97, 13, 10, 98, 0x85, 99, 0x2028] (by decide)⟩

/-- C4 (as stated, refuted): on the string "a\n", `stri_split_lines` with
`n_max = -1` and `omit_empty = FALSE` returns the two pieces "a" and "", while
`stri_split_lines1` returns the single piece "a". -/
theorem C4_counterexample_trailing_terminator :
    stri_split_lines (some [97, 10]) (-1) 0 = some [some [97], some []]
      ∧ stri_split_lines1 (some [97, 10]) = some [some [97]]
      ∧ stri_split_lines (some [97, 10]) (-1) 0 ≠ stri_split_lines1 (some [97, 10]) := by
  decide

/-- C4 (amended): for every valid UTF-8 string with fewer than `INT_MAX`
terminators, `stri_split_lines` with a negative `n_max` and `omit_empty = FALSE`
returns the pieces of `stri_split_lines1`, followed by one more, empty piece when
the string ends with a terminator. -/
theorem C4_unbounded_lines_against_lines1 (cs : List Nat) (n_max : Int) (hv : Valid cs)
    (hn : n_max < 0) (hc : (countTerminators cs : Int) < INT_MAX) :
    ∃ L, stri_split_lines1 (some (utf8 cs)) = some L
      ∧ stri_split_lines (some (utf8 cs)) n_max 0
          = some (L ++ if endsWithTerminator cs = true then [some []] else []) := by
  refine ⟨_, stri_split_lines1_utf8 cs hv, ?_⟩
  have hR := linesRanges_utf8 cs hv n_max 2147483646 (by rw [if_pos hn]; rfl)
  rw [stri_split_lines_of_ranges _ n_max 0 (by omega) _ hR,
    tokRangesCap_eq_tokRanges1 _ _ _ _ (by
      have : countTerminators cs < 2147483647 := by
        have h2 : INT_MAX = ((2147483647 : Nat) : Int) := rfl
        rw [h2] at hc
        exact_mod_cast hc
      unfold countTerminators at this
      omega),
    mkPieces_append, endsTerm_tokens]
  congr 2
  by_cases he : endsWithTerminator cs = true
  · simp [he, mkPieces, mkCharLen]
  · simp [he, mkPieces]

/-- Witness for C4 (amended) at the string "a\r\nb\n". -/
theorem C4_unbounded_lines_against_lines1_witness :
    Valid [97, 13, 10, 98, 10] ∧ (-1 : Int) < 0
      ∧ (countTerminators [97, 13, 10, 98, 10] : Int) < INT_MAX
      ∧ ∃ L, stri_split_lines1 (some (utf8 [97, 13, 10, 98, 10])) = some L
        ∧ stri_split_lines (some (utf8 [97, 13, 10, 98, 10])) (-1) 0
          = some (L ++ if endsWithTerminator [97, 13, 10, 98, 10] = true then [some []] else []) :=
  ⟨by decide, by decide, by decide,
    C4_unbounded_lines_against_lines1 [97, 13, 10, 98, 10] (-1) (by decide) (by decide)
      (by decide)⟩

/-- C5 (amended): for every buffer `s` shorter than `INT_MAX` bytes, with a
negative `n_max` the pieces that `stri_split_lines` returns with a true
`omit_empty` are the pieces it returns with `omit_empty = FALSE` after deleting
the empty ones, in the same order. -/
theorem C5_omit_empty_deletes_empty_pieces (s : List Nat) (n_max n_max' omit_empty : Int)
    (hn : n_max < 0) (hn' : n_max' < 0) (ho : omit_empty ≠ 0)
    (hlen : (s.length : Int) < INT_MAX) :
    ∃ F, stri_split_lines (some s) n_max 0 = some F
      ∧ stri_split_lines (some s) n_max' omit_empty = some (F.filter (fun p => p ≠ some [])) := by
  obtain ⟨r, j, hr, hP, hex⟩ := linesLoop_spec s INT_MAX 0 (by decide)
  obtain ⟨pre, b, hocc, hb, hbj, hjn, hk, hkc, hkj, hpre, -⟩ := hP
  obtain ⟨preF, b', kT, hocc', hT⟩ := linesLoop_omit_sim s s.length INT_MAX omit_empty ho hlen
    s.length 0 1 1 [] (0, 0) r rfl (by simp) (by simp) hr
  rw [hocc] at hocc'
  obtain ⟨rfl, hbb⟩ := List.append_inj' hocc' rfl
  simp only [List.cons.injEq, and_true] at hbb
  subst hbb
  simp only [List.filter_nil, List.nil_append] at hT
  have hb2 : b.2 = s.length := by
    by_cases hc : r.1 < INT_MAX
    · have : ¬ j < s.length := fun c => hex ⟨c, hc⟩
      omega
    · omega
  have hF : linesRanges s n_max 0 = some (pre ++ [(b.1, s.length)]) := by
    simp only [linesRanges, if_pos hn, hr, Option.map_some', hocc, linesFinish_append]
    simp [hb2]
  have hTr : linesRanges s n_max' omit_empty
      = some ((pre ++ [(b.1, s.length)]).filter nonEmptyRange) := by
    simp only [linesRanges, if_pos hn', hT, Option.map_some', linesFinish_append]
    by_cases he : b.1 = s.length
    · simp [hb2, he, ho, List.filter_append, nonEmptyRange]
    · simp [hb2, he, ho, List.filter_append, nonEmptyRange]
  refine ⟨_, stri_split_lines_of_ranges s n_max 0 (by omega) _ hF, ?_⟩
  rw [stri_split_lines_of_ranges s n_max' omit_empty (by omega) _ hTr, mkPieces_filter]
  intro x hx
  rcases List.mem_append.1 hx with hx | hx
  · exact hpre x hx
  · simp only [List.mem_singleton] at hx
    subst hx
    exact ⟨by simp only; omega, le_refl _⟩

/-- Witness for C5 (amended) at the string "a\n\nb". -/
theorem C5_omit_empty_deletes_empty_pieces_witness :
    (-1 : Int) < 0 ∧ (1 : Int) ≠ 0 ∧ (([97, 10, 10, 98] : List Nat).length : Int) < INT_MAX
      ∧ ∃ F, stri_split_lines (some [97, 10, 10, 98]) (-1) 0 = some F
        ∧ stri_split_lines (some [97, 10, 10, 98]) (-1) 1
          = some (F.filter (fun p => p ≠ some [])) :=
  ⟨by decide, by decide, by decide,
    C5_omit_empty_deletes_empty_pieces [97, 10, 10, 98] (-1) (-1) 1 (by decide) (by decide)
      (by decide) (by decide)⟩

/-! ## A buffer of `INT_MAX` line feeds -/

theorem byteAt_replicate (N c j : Nat) (h : j < N) : byteAt (List.replicate N c) j = c := by
  unfold byteAt
  rw [List.getD_eq_getElem _ _ (by simpa using h)]
  simp

theorem decodeNewline_replicate_LF (N j : Nat) (h : j < N) :
    decodeNewline (List.replicate N 10) N j = (10, j + 1) := by
  unfold decodeNewline U8_NEXT
  simp [byteAt_replicate N 10 j h, ASCII_CR]

theorem isNewline_LF : isNewline 10 = true := by decide

/-- On a buffer of `N` line feeds, `N` being `INT_MAX`, `stri_split_lines` with a
negative `n_max` returns no piece with a true `omit_empty`, and a non-empty piece
(a line feed) with `omit_empty = FALSE`. -/
theorem stri_split_lines_replicate_LF (N : Nat) (hN : (N : Int) = INT_MAX) (o : Int)
    (ho : o ≠ 0) :
    stri_split_lines (some (List.replicate N 10)) (-1) o = some []
      ∧ ∃ F, stri_split_lines (some (List.replicate N 10)) (-1) 0 = some F ∧ some [10] ∈ F := by
  have hN1 : 1 ≤ N := by
    have : (0 : Int) < N := by rw [hN]; decide
    omega
  constructor
  · obtain ⟨r, hr⟩ := linesLoop_total (List.replicate N 10) N INT_MAX o N 0 1 [(0, 0)] (by omega)
    obtain ⟨j, ⟨hk, hocc, hjN⟩, hex⟩ := linesLoop_inv (List.replicate N 10) N INT_MAX o
      (fun j k occ => k = 1 ∧ occ = [(j, j)] ∧ j ≤ N)
      (by
        rintro j k occ hj - ⟨rfl, rfl, -⟩
        have := linesStep_newline_skip (List.replicate N 10) N o j 1 [] (j, j)
          (by rw [decodeNewline_replicate_LF N j hj]; exact isNewline_LF) ho rfl
        simp only [List.nil_append, decodeNewline_replicate_LF N j hj] at this
        rw [this]
        exact ⟨rfl, rfl, hj⟩)
      N 0 1 [(0, 0)] r ⟨rfl, rfl, Nat.zero_le _⟩ hr
    have hjeq : j = N := by
      have : ¬ j < N := fun c => hex ⟨c, by rw [hk]; decide⟩
      omega
    subst hjeq
    have hrr : r = (1, [(j, j)]) := Prod.ext hk hocc
    have hf : linesFinish j INT_MAX o 1 [(j, j)] = [] := by
      have := linesFinish_append j INT_MAX o 1 [] (j, j)
      simp only [List.nil_append] at this
      rw [this, if_pos ⟨ho, by split_ifs <;> rfl⟩]
    rw [hrr] at hr
    have hR : linesRanges (List.replicate j 10) (-1) o = some [] := by
      unfold linesRanges
      dsimp only
      rw [List.length_replicate, if_pos (by decide), hr, Option.map_some', hf]
    rw [stri_split_lines_of_ranges _ (-1) o (by decide) _ hR]
    rfl
  · obtain ⟨r, hr⟩ := linesLoop_total (List.replicate N 10) N INT_MAX 0 N 0 1 [(0, 0)] (by omega)
    obtain ⟨j, ⟨hk, ⟨pre, hocc⟩, hjN⟩, hex⟩ := linesLoop_inv (List.replicate N 10) N INT_MAX 0
      (fun j k occ => k = (j : Int) + 1 ∧ (∃ pre, occ = pre ++ [(j, j)]) ∧ j + 1 ≤ N)
      (by
        rintro j k occ hj hk ⟨rfl, ⟨pre, rfl⟩, -⟩
        have := linesStep_newline_keep (List.replicate N 10) N 0 j (j + 1) pre (j, j)
          (by rw [decodeNewline_replicate_LF N j hj]; exact isNewline_LF) (fun c => c.1 rfl)
        simp only [decodeNewline_replicate_LF N j hj] at this
        rw [this]
        refine ⟨by push_cast; ring, ⟨_, rfl⟩, ?_⟩
        show j + 1 + 1 ≤ N
        omega)
      N 0 1 [(0, 0)] r ⟨by simp, ⟨[], rfl⟩, hN1⟩ hr
    have hjeq : j + 1 = N := by
      by_contra hne
      exact hex ⟨by omega, by omega⟩
    have hrr : r = ((N : Int), pre ++ [(j, j)]) := Prod.ext (by rw [hk, ← hjeq]; simp) hocc
    have hf := linesFinish_append N INT_MAX 0 N pre (j, j)
    simp only [hN, if_true, ne_eq, not_true_eq_false, false_and, if_false] at hf
    rw [hrr] at hr
    have hR : linesRanges (List.replicate N 10) (-1) 0 = some (pre ++ [(j, N)]) := by
      unfold linesRanges
      dsimp only
      rw [List.length_replicate, if_pos (by decide), hr, Option.map_some']
      dsimp only
      rw [hN, hf]
    refine ⟨mkPieces (List.replicate N 10) (pre ++ [(j, N)]),
      stri_split_lines_of_ranges _ (-1) 0 (by decide) _ hR, ?_⟩
    · rw [mkPieces_append]
      apply List.mem_append_right
      simp only [mkPieces, List.map_cons, List.map_nil, List.mem_singleton, Option.some.injEq]
      simp only [mkCharLen, List.drop_replicate, List.take_replicate]
      have : min (N - j) (N - j) = 1 := by omega
      rw [this]
      rfl

/-- C5 (as stated, refuted): on the buffer of `INT_MAX` line feeds, with
`n_max = -1`, suppression returns no piece, while deleting the empty pieces of the
result without suppression leaves a piece. -/
theorem C5_counterexample_int_max_line_feeds :
    ∃ F, stri_split_lines (some (List.replicate 2147483647 10)) (-1) 0 = some F
      ∧ stri_split_lines (some (List.replicate 2147483647 10)) (-1) 1
          ≠ some (F.filter (fun p => p ≠ some [])) := by
  obtain ⟨hT, F, hF, hmem⟩ := stri_split_lines_replicate_LF 2147483647 rfl 1 (by decide)
  refine ⟨F, hF, ?_⟩
  rw [hT]
  intro h
  have h2 : some [10] ∈ F.filter (fun p => p ≠ some []) := by
    rw [List.mem_filter]
    exact ⟨hmem, by simp⟩
  rw [← Option.some.inj h] at h2
  cases h2

/-- C6: for every buffer `s`, every `n_max` other than 0 and every true
`omit_empty`, `stri_split_lines` returns, and no piece it returns is the empty
string. -/
theorem C6_no_empty_piece_with_omit_empty (s : List Nat) (n_max omit_empty : Int)
    (hn : n_max ≠ 0) (ho : omit_empty ≠ 0) :
    ∃ ps, stri_split_lines (some s) n_max omit_empty = some ps ∧ ∀ p ∈ ps, p ≠ some [] := by
  obtain ⟨pre, b, k, hb, hbn, -, -, -, hpre, hne, -, hres⟩ :=
    linesRanges_spec s n_max omit_empty hn
  refine ⟨_, stri_split_lines_of_ranges s n_max omit_empty hn _ hres, ?_⟩
  have hprene : ∀ p ∈ mkPieces s pre, p ≠ some [] := by
    intro p hp
    simp only [mkPieces, List.mem_map] at hp
    obtain ⟨r, hr, rfl⟩ := hp
    simpa using mkCharLen_ne_nil s r (hne ho r hr) (hpre r hr).2
  rw [linesFinish_append]
  have he : b.1 ≤ (if k = (if n_max < 0 then INT_MAX else n_max) then s.length else b.2)
      ∧ (if k = (if n_max < 0 then INT_MAX else n_max) then s.length else b.2) ≤ s.length := by
    split_ifs <;> omega
  generalize (if k = (if n_max < 0 then INT_MAX else n_max) then s.length else b.2) = e at he ⊢
  by_cases h1 : omit_empty ≠ 0 ∧ b.1 = e
  · rw [if_pos h1]
    exact hprene
  · rw [if_neg h1]
    intro p hp
    rw [mkPieces_append] at hp
    rcases List.mem_append.1 hp with hp | hp
    · exact hprene p hp
    · simp only [mkPieces, List.map_cons, List.map_nil, List.mem_singleton] at hp
      subst hp
      have hlt : b.1 ≠ e := fun e => h1 ⟨ho, e⟩
      simpa using mkCharLen_ne_nil s (b.1, e) (by simp only; omega) he.2

/-- Witness for C6 at the string "a\n\n" with `n_max = 2` and `omit_empty = TRUE`. -/
theorem C6_no_empty_piece_with_omit_empty_witness :
    (2 : Int) ≠ 0 ∧ (1 : Int) ≠ 0
      ∧ ∃ ps, stri_split_lines (some [97, 10, 10]) 2 1 = some ps ∧ ∀ p ∈ ps, p ≠ some [] :=
  ⟨by decide, by decide,
    C6_no_empty_piece_with_omit_empty [97, 10, 10] 2 1 (by decide) (by decide)⟩

/-- C8 (as stated, refuted): with `n_max = 1` and `omit_empty = TRUE` the empty
string yields no piece at all, not one piece equal to the string. -/
theorem C8_counterexample_empty_string_omit_empty :
    stri_split_lines (some []) 1 1 = some [] ∧ stri_split_lines (some []) 1 1 ≠ some [some []] := by
  decide

/-- C8 (amended): with `n_max = 1`, `stri_split_lines` returns the whole of `s`
as its single piece, terminators included, unless `omit_empty` is true and `s`
is empty, where it returns no piece. -/
theorem C8_n_max_one_returns_whole_string (s : List Nat) (omit_empty : Int) :
    stri_split_lines (some s) 1 omit_empty =
      some (if omit_empty ≠ 0 ∧ s = [] then [] else [some s]) := by
  have hl : linesLoop s s.length 1 omit_empty s.length 0 1 [(0, 0)] = some (1, [(0, 0)]) :=
    linesLoop_cap_reached s s.length 1 omit_empty s.length 0 1 [(0, 0)] (le_refl _)
  have hf := linesFinish_append s.length 1 omit_empty 1 [] (0, 0)
  simp only [List.nil_append, if_true] at hf
  simp only [stri_split_lines, linesRanges, one_ne_zero, if_false, Int.reduceLT, hl,
    Option.map_some', hf]
  by_cases ho : omit_empty ≠ 0 <;> by_cases hs : s = []
  · subst hs
    simp [ho, mkPieces]
  · have : ¬ (0 = s.length) := fun e => hs (List.length_eq_zero.1 e.symm)
    simp [ho, hs, this, mkPieces, mkCharLen]
  · simp [ho, mkPieces, mkCharLen]
  · simp [ho, mkPieces, mkCharLen]

/-- C9: for every buffer `s`, either value of `omit_empty` and every positive
`n_max`, `stri_split_lines` returns, and it returns at most `n_max` pieces. -/
theorem C9_at_most_n_max_pieces (s : List Nat) (n_max omit_empty : Int) (hn : 0 < n_max) :
    ∃ ps, stri_split_lines (some s) n_max omit_empty = some ps ∧ (ps.length : Int) ≤ n_max := by
  have hn0 : n_max ≠ 0 := by omega
  obtain ⟨pre, b, k, -, -, hk, hkc, -, -, -, -, hres⟩ :=
    linesRanges_spec s n_max omit_empty hn0
  refine ⟨_, stri_split_lines_of_ranges s n_max omit_empty hn0 _ hres, ?_⟩
  rw [if_neg (by omega)] at hkc ⊢
  rw [length_mkPieces, linesFinish_append]
  generalize (if k = n_max then s.length else b.2) = e
  by_cases h1 : omit_empty ≠ 0 ∧ b.1 = e
  · rw [if_pos h1]
    omega
  · rw [if_neg h1]
    simp only [List.length_append, List.length_singleton, Nat.cast_add, Nat.cast_one]
    omega

/-- Witness for C9 at the string "a\n\nb" with `n_max = 2` and `omit_empty = FALSE`. -/
theorem C9_at_most_n_max_pieces_witness :
    (0 : Int) < 2
      ∧ ∃ ps, stri_split_lines (some [97, 10, 10, 98]) 2 0 = some ps ∧ (ps.length : Int) ≤ 2 :=
  ⟨by decide, C9_at_most_n_max_pieces [97, 10, 10, 98] 2 0 (by decide)⟩

/-- C10: for every non-NA string and either value of `omit_empty`,
`stri_split_lines` with `n_max = 0` returns the empty sequence of pieces. -/
theorem C10_n_max_zero_returns_no_piece (s : List Nat) (omit_empty : Int) :
    stri_split_lines (some s) 0 omit_empty = some [] := by
  simp [stri_split_lines]

/-! ## The capped scan against a scan with a larger cap -/

theorem bytesLen_eq (ts : List (Bool × List Nat)) : bytesLen ts = (utf8 (tokJoin ts)).length := by
  induction ts with
  | nil => rfl
  | cons t ts ih => simp [bytesLen, tokJoin, utf8_append, ih, tokLen]

theorem tokJoin_dropTerms_suffix (ts : List (Bool × List Nat)) :
    ∀ r : Nat, ∃ p, tokJoin ts = p ++ tokJoin (dropTerms r ts) := by
  induction ts with
  | nil =>
    intro r
    exact ⟨[], by cases r <;> rfl⟩
  | cons t ts ih =>
    intro r
    cases r with
    | zero => exact ⟨[], rfl⟩
    | succ r =>
      rw [dropTerms]
      by_cases ht : t.1 = true
      · rw [if_pos ht]
        obtain ⟨p, hp⟩ := ih r
        exact ⟨t.2 ++ p, by rw [tokJoin, hp, List.append_assoc]⟩
      · rw [if_neg ht]
        obtain ⟨p, hp⟩ := ih (r + 1)
        exact ⟨t.2 ++ p, by rw [tokJoin, hp, List.append_assoc]⟩

theorem mkCharLen_suffix (p q : List Nat) :
    mkCharLen (p ++ q) ((p ++ q).length - q.length, (p ++ q).length) = q := by
  simp [mkCharLen]

theorem length_tokRangesCap (ts : List (Bool × List Nat)) :
    ∀ (r a j : Nat), r ≤ (ts.filter (fun t => t.1)).length →
      (tokRangesCap r a j ts).length = r + 1 := by
  induction ts with
  | nil =>
    intro r a j h
    have : r = 0 := by simpa using h
    subst this
    rfl
  | cons t ts ih =>
    intro r a j h
    rw [countT_cons] at h
    cases r with
    | zero => rfl
    | succ r =>
      rw [tokRangesCap]
      by_cases ht : t.1 = true
      · rw [if_pos ht] at h ⊢
        rw [List.length_cons, ih r _ _ (by omega)]
      · rw [if_neg ht] at h ⊢
        exact ih (r + 1) _ _ (by omega)

/-- With at least `r` terminators, the deque for `r + 1` allowed fields is the
first `r` ranges of the deque for a larger cap, followed by the range from the
end of the `r`-th terminator to the end of the buffer. -/
theorem tokRangesCap_take (ts : List (Bool × List Nat)) :
    ∀ (r R a j : Nat), r ≤ R → r ≤ (ts.filter (fun t => t.1)).length → (r = 0 → a = j) →
      tokRangesCap r a j ts = (tokRangesCap R a j ts).take r
        ++ [(j + bytesLen ts - bytesLen (dropTerms r ts), j + bytesLen ts)] := by
  induction ts with
  | nil =>
    intro r R a j _ h ha
    have : r = 0 := by simpa using h
    subst this
    simp [tokRangesCap, dropTerms, bytesLen, ha rfl]
  | cons t ts ih =>
    intro r R a j hrR h ha
    rw [countT_cons] at h
    cases r with
    | zero =>
      simp [tokRangesCap, dropTerms, ha rfl]
    | succ r =>
      obtain ⟨R, rfl⟩ : ∃ R', R = R' + 1 := ⟨R - 1, by omega⟩
      rw [tokRangesCap, tokRangesCap, dropTerms, bytesLen]
      by_cases ht : t.1 = true
      · rw [if_pos ht] at h
        rw [if_pos ht, if_pos ht, if_pos ht, List.take_succ_cons, List.cons_append,
          ih r R _ _ (by omega) (by omega) (fun _ => rfl), Nat.add_assoc]
      · rw [if_neg ht] at h
        rw [if_neg ht, if_neg ht, if_neg ht,
          ih (r + 1) (R + 1) a _ hrR (by omega) (fun e => by omega), Nat.add_assoc]

/-- C7: for every valid UTF-8 string with at least `m - 1` terminators, `m` being
a positive `n_max`, `stri_split_lines` without suppression returns exactly `m`
pieces: the first `m - 1` pieces of the unbounded split followed by the whole
remainder of the string after its `(m - 1)`-th terminator. -/
theorem C7_piece_cap_absorbs_remainder (cs : List Nat) (m : Nat) (n_neg : Int) (hv : Valid cs)
    (hm : 1 ≤ m) (hmax : (m : Int) ≤ INT_MAX) (hneg : n_neg < 0)
    (hterm : m - 1 ≤ countTerminators cs) :
    ∃ U ps, stri_split_lines (some (utf8 cs)) n_neg 0 = some U
      ∧ stri_split_lines (some (utf8 cs)) (m : Int) 0 = some ps
      ∧ ps.length = m
      ∧ ps = U.take (m - 1) ++ [some (utf8 (afterTerminators (m - 1) cs))] := by
  have hU := linesRanges_utf8 cs hv n_neg 2147483646 (by rw [if_pos hneg]; rfl)
  have hP := linesRanges_utf8 cs hv (m : Int) (m - 1) (by
    rw [if_neg (by omega)]
    omega)
  have hm' : m - 1 ≤ 2147483646 := by
    have h2 : INT_MAX = ((2147483647 : Nat) : Int) := rfl
    rw [h2] at hmax
    have : m ≤ 2147483647 := by exact_mod_cast hmax
    omega
  refine ⟨_, _, stri_split_lines_of_ranges _ n_neg 0 (by omega) _ hU,
    stri_split_lines_of_ranges _ (m : Int) 0 (by omega) _ hP, ?_, ?_⟩
  · rw [length_mkPieces, length_tokRangesCap _ _ _ _ hterm]
    omega
  · rw [tokRangesCap_take (tokens cs) (m - 1) 2147483646 0 0 hm' hterm (fun _ => rfl),
      mkPieces_append]
    congr 1
    · simp [mkPieces, List.map_take]
    · obtain ⟨p, hp⟩ := tokJoin_dropTerms_suffix (tokens cs) (m - 1)
      rw [tokJoin_tokens] at hp
      have hs : utf8 cs = utf8 p ++ utf8 (afterTerminators (m - 1) cs) := by
        rw [← utf8_append, afterTerminators, ← hp]
      simp only [mkPieces, List.map_cons, List.map_nil, List.cons.injEq, and_true,
        Option.some.injEq, Nat.zero_add]
      rw [bytesLen_tokens, bytesLen_eq]
      show mkCharLen (utf8 cs)
        ((utf8 cs).length - (utf8 (afterTerminators (m - 1) cs)).length, (utf8 cs).length) = _
      rw [hs]
      exact mkCharLen_suffix _ _

/-- Witness for C7 at the string "a\n\nb" with `n_max = 2`: the pieces are "a"
and "\nb". -/
theorem C7_piece_cap_absorbs_remainder_witness :
    Valid [97, 10, 10, 98] ∧ 1 ≤ 2 ∧ ((2 : Nat) : Int) ≤ INT_MAX ∧ (-1 : Int) < 0
      ∧ 2 - 1 ≤ countTerminators [97, 10, 10, 98]
      ∧ ∃ U ps, stri_split_lines (some (utf8 [97, 10, 10, 98])) (-1) 0 = some U
        ∧ stri_split_lines (some (utf8 [97, 10, 10, 98])) ((2 : Nat) : Int) 0 = some ps
        ∧ ps.length = 2
        ∧ ps = U.take (2 - 1) ++ [some (utf8 (afterTerminators (2 - 1) [97, 10, 10, 98]))] :=
  ⟨by decide, by decide, by decide, by decide, by decide,
    C7_piece_cap_absorbs_remainder [97, 10, 10, 98] 2 (-1) (by decide) (by decide) (by decide)
      (by decide) (by decide)⟩

/-! ## A cap that is not reached -/

theorem linesStep_count (s : List Nat) (n : Nat) (o : Int) (j : Nat) (k : Int)
    (occ : List (Nat × Nat)) :
    k ≤ (linesStep s n o j k occ).2.1
      ∧ (linesStep s n o j k occ).2.1
          ≤ k + (if isNewline (decodeNewline s n j).1 = true then 1 else 0) := by
  unfold linesStep
  simp only
  split_ifs <;> simp

/-- The field count does not decrease along the loop of `stri_split_lines`, and a
loop that ends below its cap ends in the same state under every cap above its
final field count. -/
theorem linesLoop_cap_irrelevant (s : List Nat) (n : Nat) (c1 c2 o : Int) :
    ∀ (fuel j : Nat) (k : Int) (occ : List (Nat × Nat)) (r : Int × List (Nat × Nat)),
      linesLoop s n c1 o fuel j k occ = some r →
      k ≤ r.1 ∧ (r.1 < c1 → r.1 < c2 → linesLoop s n c2 o fuel j k occ = some r) := by
  intro fuel
  induction fuel with
  | zero =>
    intro j k occ r h
    simp only [linesLoop] at h ⊢
    split_ifs at h with hc
    cases Option.some.inj h
    refine ⟨le_refl _, fun h1 _ => ?_⟩
    rw [if_neg (fun c => hc ⟨c.1, h1⟩)]
  | succ f ih =>
    intro j k occ r h
    unfold linesLoop at h ⊢
    split_ifs at h with hc
    · obtain ⟨hle, hrun⟩ := ih _ _ _ r h
      have hk := (linesStep_count s n o j k occ).1
      refine ⟨by omega, fun h1 h2 => ?_⟩
      rw [if_pos ⟨hc.1, by omega⟩]
      exact hrun h1 h2
    · cases Option.some.inj h
      refine ⟨le_refl _, fun h1 _ => ?_⟩
      rw [if_neg (fun c => hc ⟨c.1, h1⟩)]

/-- On a well-formed buffer, from a token boundary, the loop of
`stri_split_lines` adds at most one field per terminator still to be scanned. -/
theorem linesLoop_count_le (m : Nat) :
    ∀ cs : List Nat, cs.length ≤ m → Valid cs →
      ∀ (pfx : List Nat) (occ : List (Nat × Nat)) (fuel : Nat) (k cap o : Int)
        (r : Int × List (Nat × Nat)),
        linesLoop (pfx ++ utf8 cs) (pfx.length + (utf8 cs).length) cap o fuel pfx.length k occ
          = some r →
        r.1 ≤ k + (((tokens cs).filter (fun t => t.1)).length : Int) := by
  induction m with
  | zero =>
    intro cs h _ pfx occ fuel k cap o r hr
    have : cs = [] := List.length_eq_zero.1 (by omega)
    subst this
    rw [linesLoop_done _ _ _ _ _ _ _ _ (by simp [utf8])] at hr
    cases Option.some.inj hr
    simp [tokens]
  | succ m ih =>
    intro cs h hv pfx occ fuel k cap o r hr
    cases cs with
    | nil =>
      rw [linesLoop_done _ _ _ _ _ _ _ _ (by simp [utf8])] at hr
      cases Option.some.inj hr
      simp [tokens]
    | cons c rest =>
      have hnn : (0 : Int) ≤ (((tokens (c :: rest)).filter (fun t => t.1)).length : Int) :=
        Int.ofNat_nonneg _
      cases fuel with
      | zero =>
        simp only [linesLoop] at hr
        split_ifs at hr
        cases Option.some.inj hr
        omega
      | succ f =>
        unfold linesLoop at hr
        split_ifs at hr with hc
        · have hlt := length_afterTok_lt c rest
          simp only [List.length_cons] at h hlt
          have hdec := decodeNewline_utf8 pfx c rest _ hv rfl
          have hcount := (linesStep_count (pfx ++ utf8 (c :: rest))
            (pfx.length + (utf8 (c :: rest)).length) o pfx.length k occ).2
          rw [linesStep_fst, hdec] at hr
          rw [hdec, isNewline_cast, ← isTermCP_headTok c rest] at hcount
          have hIH := ih (afterTok c rest) (by omega) (valid_afterTok c rest hv)
            (pfx ++ utf8 (headTok c rest).2)
            (linesStep (pfx ++ utf8 (c :: rest)) (pfx.length + (utf8 (c :: rest)).length) o
              pfx.length k occ).2.2 f
            (linesStep (pfx ++ utf8 (c :: rest)) (pfx.length + (utf8 (c :: rest)).length) o
              pfx.length k occ).2.1 cap o r
          simp only [← buffer_split, length_pfx_tok, length_split_tok] at hIH
          have := hIH hr
          rw [tokens_cons, countT_cons]
          push_cast
          split_ifs at hcount ⊢ <;> omega
        · cases Option.some.inj hr
          omega

theorem stri_split_lines_total (str : Option (List Nat)) (n_max o : Int) :
    ∃ ps, stri_split_lines str n_max o = some ps := by
  cases str with
  | none => exact ⟨_, rfl⟩
  | some s =>
    by_cases hn : n_max = 0
    · exact ⟨[], by simp [stri_split_lines, hn]⟩
    · obtain ⟨pre, b, k, -, -, -, -, -, -, -, -, hres⟩ := linesRanges_spec s n_max o hn
      exact ⟨_, stri_split_lines_of_ranges s n_max o hn _ hres⟩

/-- The final count of fields of `stri_split_lines` on a valid UTF-8 buffer is at
most the number of terminators plus one, under every cap. -/
theorem linesLoop_utf8_count (cs : List Nat) (hv : Valid cs) (cap o : Int) :
    ∃ r, linesLoop (utf8 cs) (utf8 cs).length cap o (utf8 cs).length 0 1 [(0, 0)] = some r
      ∧ r.1 ≤ 1 + (countTerminators cs : Int) := by
  obtain ⟨r, hr⟩ := linesLoop_total (utf8 cs) (utf8 cs).length cap o (utf8 cs).length 0 1
    [(0, 0)] (by omega)
  refine ⟨r, hr, ?_⟩
  have := linesLoop_count_le cs.length cs (le_refl _) hv [] [(0, 0)] (utf8 cs).length 1 cap o r
    (by simpa using hr)
  exact this

/-- C11: for every valid UTF-8 string and either value of `omit_empty`, all
negative values of `n_max` give the same result of `stri_split_lines`, and this
result is also the result for every positive `n_max` (a C `int`) greater than the
number of terminators of the string plus one. -/
theorem C11_negative_n_max_is_unbounded (cs : List Nat) (hv : Valid cs)
    (omit_empty n1 n2 m : Int) (h1 : n1 < 0) (h2 : n2 < 0)
    (hm : (countTerminators cs : Int) + 1 < m) (hmax : m ≤ INT_MAX) :
    ∃ ps, stri_split_lines (some (utf8 cs)) n1 omit_empty = some ps
      ∧ stri_split_lines (some (utf8 cs)) n2 omit_empty = some ps
      ∧ stri_split_lines (some (utf8 cs)) m omit_empty = some ps := by
  obtain ⟨r, hr, hk⟩ := linesLoop_utf8_count cs hv INT_MAX omit_empty
  have hrm := (linesLoop_cap_irrelevant (utf8 cs) (utf8 cs).length INT_MAX m omit_empty
    (utf8 cs).length 0 1 [(0, 0)] r hr).2 (by omega) (by omega)
  have hfin : linesFinish (utf8 cs).length m omit_empty r.1 r.2
      = linesFinish (utf8 cs).length INT_MAX omit_empty r.1 r.2 := by
    have e1 : ¬ (r.1 = m) := by omega
    have e2 : ¬ (r.1 = INT_MAX) := by omega
    unfold linesFinish
    simp only [e1, e2, if_false]
  have hR : ∀ n : Int, n < 0 → linesRanges (utf8 cs) n omit_empty
      = some (linesFinish (utf8 cs).length INT_MAX omit_empty r.1 r.2) := by
    intro n hn
    unfold linesRanges
    dsimp only
    rw [if_pos hn, hr, Option.map_some']
  have hRm : linesRanges (utf8 cs) m omit_empty
      = some (linesFinish (utf8 cs).length INT_MAX omit_empty r.1 r.2) := by
    unfold linesRanges
    dsimp only
    rw [if_neg (by omega), hrm, Option.map_some', hfin]
  exact ⟨_, stri_split_lines_of_ranges _ n1 _ (by omega) _ (hR n1 h1),
    stri_split_lines_of_ranges _ n2 _ (by omega) _ (hR n2 h2),
    stri_split_lines_of_ranges _ m _ (by omega) _ hRm⟩

/-- Witness for C11 at the string "a\n\nb" with `omit_empty = TRUE`, the values
-1 and -7 of `n_max`, and `n_max = 4`. -/
theorem C11_negative_n_max_is_unbounded_witness :
    Valid [97, 10, 10, 98] ∧ (-1 : Int) < 0 ∧ (-7 : Int) < 0
      ∧ (countTerminators [97, 10, 10, 98] : Int) + 1 < 4 ∧ (4 : Int) ≤ INT_MAX
      ∧ ∃ ps, stri_split_lines (some (utf8 [97, 10, 10, 98])) (-1) 1 = some ps
        ∧ stri_split_lines (some (utf8 [97, 10, 10, 98])) (-7) 1 = some ps
        ∧ stri_split_lines (some (utf8 [97, 10, 10, 98])) 4 1 = some ps :=
  ⟨by decide, by decide, by decide, by decide, by decide,
    C11_negative_n_max_is_unbounded [97, 10, 10, 98] (by decide) 1 (-1) (-7) 4 (by decide)
      (by decide) (by decide) (by decide)⟩

/-! ## A string without terminators -/

theorem tokens_nonterm (cs : List Nat) (h : ∀ c ∈ cs, isTermCP c = false) :
    tokens cs = cs.map (fun c => (false, [c])) := by
  have := tokens_nonterm_append cs [] h
  simpa [tokens] using this

theorem tokRangesCap_nonterm (x : List Nat) :
    ∀ (r a j : Nat), tokRangesCap r a j (x.map (fun c => (false, [c])))
      = [(a, j + (utf8 x).length)] := by
  induction x with
  | nil =>
    intro r a j
    cases r <;> simp [tokRangesCap, bytesLen, utf8]
  | cons c x ih =>
    intro r a j
    cases r with
    | zero =>
      have hb : ∀ y : List Nat, bytesLen (y.map (fun c => (false, [c]))) = (utf8 y).length := by
        intro y
        induction y with
        | nil => rfl
        | cons d y ihy => simp [bytesLen, tokLen, utf8, ihy]
      rw [tokRangesCap, hb]
    | succ r =>
      rw [List.map_cons, tokRangesCap]
      simp only [Bool.false_eq_true, if_false]
      rw [ih]
      simp [tokLen, utf8, Nat.add_assoc]

/-- C13: for every valid UTF-8 string without a terminator code point, the empty
string included, `stri_split_lines1` and `stri_split_lines` with any non-zero
`n_max` and `omit_empty = FALSE` each return exactly one piece, the string
itself. -/
theorem C13_single_line_string (cs : List Nat) (n_max : Int) (hv : Valid cs)
    (hnt : ∀ c ∈ cs, isTermCP c = false) (hn : n_max ≠ 0) :
    stri_split_lines1 (some (utf8 cs)) = some [some (utf8 cs)]
      ∧ stri_split_lines (some (utf8 cs)) n_max 0 = some [some (utf8 cs)] := by
  constructor
  · rw [stri_split_lines1_utf8 cs hv, tokens_nonterm cs hnt]
    have := tokRanges1_nonterm_append cs [] 0 0
    simp only [List.append_nil, Nat.zero_add] at this
    rw [this]
    simp [tokRanges1, mkPieces, mkCharLen]
  · have hcap := one_le_cap n_max hn
    have hR := linesRanges_utf8 cs hv n_max
      ((if n_max < 0 then INT_MAX else n_max) - 1).toNat (by
        rw [Int.toNat_of_nonneg (by omega)]
        ring)
    rw [stri_split_lines_of_ranges _ n_max 0 hn _ hR, tokens_nonterm cs hnt,
      tokRangesCap_nonterm]
    simp [mkPieces, mkCharLen]

/-- Witness for C13 at the string "ab" with `n_max = 3`. -/
theorem C13_single_line_string_witness :
    Valid [97, 98] ∧ (∀ c ∈ [97, 98], isTermCP c = false) ∧ (3 : Int) ≠ 0
      ∧ stri_split_lines1 (some (utf8 [97, 98])) = some [some (utf8 [97, 98])]
      ∧ stri_split_lines (some (utf8 [97, 98])) 3 0 = some [some (utf8 [97, 98])] :=
  ⟨by decide, by decide, by decide,
    C13_single_line_string [97, 98] 3 (by decide) (by decide) (by decide)⟩

/-! ## The ranges stay inside the buffer, in ascending order -/

theorem chain_snoc_of_le (pre : List (Nat × Nat)) (b b' : Nat × Nat)
    (h : List.Chain' (fun r r' : Nat × Nat => r.2 ≤ r'.1) (pre ++ [b])) (hb : b.1 ≤ b'.1) :
    List.Chain' (fun r r' : Nat × Nat => r.2 ≤ r'.1) (pre ++ [b']) := by
  rw [List.chain'_append] at h ⊢
  refine ⟨h.1, List.chain'_singleton _, ?_⟩
  intro x hx y hy
  simp only [List.head?_cons, Option.mem_def, Option.some.injEq] at hy
  subst hy
  have := h.2.2 x hx b (by simp)
  omega

theorem chain_snoc_push (pre : List (Nat × Nat)) (b c : Nat × Nat)
    (h : List.Chain' (fun r r' : Nat × Nat => r.2 ≤ r'.1) (pre ++ [b])) (hb : b.2 ≤ c.1) :
    List.Chain' (fun r r' : Nat × Nat => r.2 ≤ r'.1) (pre ++ [b] ++ [c]) := by
  rw [List.chain'_append]
  refine ⟨h, List.chain'_singleton _, ?_⟩
  intro x hx y hy
  simp only [List.head?_cons, Option.mem_def, Option.some.injEq] at hy
  subst hy
  have hx' : x = b := by
    simpa [List.getLast?_append] using hx.symm
  subst hx'
  exact hb

theorem chain_of_snoc (pre : List (Nat × Nat)) (b : Nat × Nat)
    (h : List.Chain' (fun r r' : Nat × Nat => r.2 ≤ r'.1) (pre ++ [b])) :
    List.Chain' (fun r r' : Nat × Nat => r.2 ≤ r'.1) pre :=
  (List.chain'_append.1 h).1

theorem scanInv_snoc_back (j j' : Nat) (pre : List (Nat × Nat)) (b b' : Nat × Nat)
    (h : ScanInv j (pre ++ [b])) (hj : j ≤ j') (h1 : b.1 ≤ b'.1) (h2 : b'.1 ≤ b'.2)
    (h3 : b'.2 ≤ j') : ScanInv j' (pre ++ [b']) := by
  obtain ⟨hb, hc⟩ := h
  refine ⟨?_, chain_snoc_of_le pre b b' hc h1⟩
  intro r hr
  rcases List.mem_append.1 hr with hr | hr
  · have := hb r (List.mem_append_left _ hr)
    exact ⟨this.1, by omega⟩
  · simp only [List.mem_singleton] at hr
    subst hr
    exact ⟨h2, h3⟩

theorem scanInv_push (j j' : Nat) (pre : List (Nat × Nat)) (b : Nat × Nat)
    (h : ScanInv j (pre ++ [b])) (hj : j ≤ j') :
    ScanInv j' (pre ++ [(b.1, j)] ++ [(j', j')]) := by
  have hb := h.1 b (by simp)
  have h1 := scanInv_snoc_back j j pre b (b.1, j) h (le_refl _) (le_refl _) (by simp; omega)
    (le_refl _)
  refine ⟨?_, chain_snoc_push pre (b.1, j) (j', j') h1.2 hj⟩
  intro r hr
  rcases List.mem_append.1 hr with hr | hr
  · have := h1.1 r hr
    exact ⟨this.1, by omega⟩
  · simp only [List.mem_singleton] at hr
    subst hr
    exact ⟨le_refl _, le_refl _⟩

theorem scanInv_lines1Step (s : List Nat) (j : Nat) (pre : List (Nat × Nat)) (b : Nat × Nat)
    (h : ScanInv j (pre ++ [b])) :
    ∃ pre' b', (lines1Step s s.length j (pre ++ [b])).2 = pre' ++ [b']
      ∧ ScanInv (lines1Step s s.length j (pre ++ [b])).1 (pre' ++ [b']) := by
  have hgt := decodeNewline_gt s s.length j
  have hb := h.1 b (by simp)
  rw [lines1Step_append]
  split_ifs with hnl hlt
  · exact ⟨pre ++ [(b.1, j)], _, rfl, scanInv_push j _ pre b h (by omega)⟩
  · exact ⟨pre, (b.1, j), rfl,
      scanInv_snoc_back j _ pre b (b.1, j) h (by simp only; omega) (le_refl _)
        (by simp only; omega) (by simp only; omega)⟩
  · exact ⟨pre, _, rfl,
      scanInv_snoc_back j _ pre b _ h (by simp only; omega) (le_refl _) (by simp only; omega)
        (le_refl _)⟩

theorem scanInv_linesStep (s : List Nat) (o : Int) (j : Nat) (k : Int) (pre : List (Nat × Nat))
    (b : Nat × Nat) (h : ScanInv j (pre ++ [b])) :
    ∃ pre' b', (linesStep s s.length o j k (pre ++ [b])).2.2 = pre' ++ [b']
      ∧ ScanInv (linesStep s s.length o j k (pre ++ [b])).1 (pre' ++ [b']) := by
  have hgt := decodeNewline_gt s s.length j
  have hb := h.1 b (by simp)
  by_cases hnl : isNewline (decodeNewline s s.length j).1 = true
  · by_cases hk : o ≠ 0 ∧ b.2 = b.1
    · rw [linesStep_newline_skip s s.length o j k pre b hnl hk.1 hk.2]
      exact ⟨pre, _, rfl,
        scanInv_snoc_back j _ pre b _ h (by simp only; omega) (by simp only; omega) (le_refl _)
          (le_refl _)⟩
    · rw [linesStep_newline_keep s s.length o j k pre b hnl hk]
      exact ⟨pre ++ [(b.1, j)], _, rfl, scanInv_push j _ pre b h (by simp only; omega)⟩
  · rw [linesStep_other s s.length o j k pre b hnl]
    exact ⟨pre, _, rfl,
      scanInv_snoc_back j _ pre b _ h (by simp only; omega) (le_refl _) (by simp only; omega)
        (le_refl _)⟩

theorem rangesOK_of_scanInv (n j : Nat) (occ : List (Nat × Nat)) (h : ScanInv j occ)
    (hj : j ≤ n) : RangesOK n occ :=
  ⟨fun r hr => ⟨(h.1 r hr).1, le_trans (h.1 r hr).2 hj⟩, h.2⟩

theorem scanInv_init : ScanInv 0 ([] ++ [(0, 0)]) :=
  ⟨by simp, List.chain'_singleton _⟩

/-- The deque of `stri_split_lines1` exists, is not empty, and its ranges lie
inside the buffer in ascending order. -/
theorem lines1Ranges_ok (s : List Nat) :
    ∃ occ, lines1Ranges s = some occ ∧ RangesOK s.length occ := by
  obtain ⟨r, hr⟩ := lines1Loop_total s s.length s.length 0 [(0, 0)] (by omega)
  obtain ⟨j, ⟨hjn, pre, b, hocc, hinv⟩, -⟩ := lines1Loop_inv s s.length
    (fun j occ => j ≤ s.length ∧ ∃ pre b, occ = pre ++ [b] ∧ ScanInv j occ)
    (by
      rintro j occ hj ⟨-, pre, b, rfl, hinv⟩
      obtain ⟨pre', b', h1, h2⟩ := scanInv_lines1Step s j pre b hinv
      refine ⟨?_, pre', b', h1, h1 ▸ h2⟩
      rw [lines1Step_fst]
      exact decodeNewline_le s j hj)
    s.length 0 [(0, 0)] r ⟨Nat.zero_le _, [], (0, 0), rfl, scanInv_init⟩ hr
  exact ⟨r, hr, rangesOK_of_scanInv _ _ _ hinv hjn⟩

/-- The final deque of `stri_split_lines` exists, and its ranges lie inside the
buffer in ascending order. -/
theorem linesRanges_ok (s : List Nat) (n_max o : Int) :
    ∃ occ, linesRanges s n_max o = some occ ∧ RangesOK s.length occ := by
  obtain ⟨r, hr⟩ := linesLoop_total s s.length (if n_max < 0 then INT_MAX else n_max) o
    s.length 0 1 [(0, 0)] (by omega)
  obtain ⟨j, ⟨hjn, pre, b, hocc, hinv⟩, -⟩ := linesLoop_inv s s.length
    (if n_max < 0 then INT_MAX else n_max) o
    (fun j _ occ => j ≤ s.length ∧ ∃ pre b, occ = pre ++ [b] ∧ ScanInv j occ)
    (by
      rintro j k occ hj - ⟨-, pre, b, rfl, hinv⟩
      obtain ⟨pre', b', h1, h2⟩ := scanInv_linesStep s o j k pre b hinv
      refine ⟨?_, pre', b', h1, h1 ▸ h2⟩
      rw [linesStep_fst]
      exact decodeNewline_le s j hj)
    s.length 0 1 [(0, 0)] r ⟨Nat.zero_le _, [], (0, 0), rfl, scanInv_init⟩ hr
  refine ⟨_, by unfold linesRanges; dsimp only; rw [hr, Option.map_some'], ?_⟩
  rw [hocc, linesFinish_append]
  rw [hocc] at hinv
  have hb := hinv.1 b (by simp)
  have hpre : RangesOK s.length pre :=
    ⟨fun x hx => ⟨(hinv.1 x (List.mem_append_left _ hx)).1,
        le_trans (hinv.1 x (List.mem_append_left _ hx)).2 hjn⟩, chain_of_snoc pre b hinv.2⟩
  have he : b.1 ≤ (if r.1 = (if n_max < 0 then INT_MAX else n_max) then s.length else b.2)
      ∧ (if r.1 = (if n_max < 0 then INT_MAX else n_max) then s.length else b.2) ≤ s.length := by
    split_ifs <;> omega
  generalize (if r.1 = (if n_max < 0 then INT_MAX else n_max) then s.length else b.2) = e
    at he ⊢
  by_cases h1 : o ≠ 0 ∧ b.1 = e
  · rw [if_pos h1]
    exact hpre
  · rw [if_neg h1]
    have := scanInv_snoc_back j s.length pre b (b.1, e) hinv hjn (le_refl _) he.1 he.2
    exact rangesOK_of_scanInv _ _ _ this (le_refl _)

/-- C18: for every buffer `s` of `n` bytes (valid UTF-8 or not), every `n_max`
other than 0 and either value of `omit_empty`, the scans of `stri_split_lines1`
and of `stri_split_lines` end, and every range `[start, end)` of their final
deques satisfies `start ≤ end ≤ n`, the end of a range being at most the start
of the next one; the pieces returned are the strings of these ranges. -/
theorem C18_byte_range_invariant (s : List Nat) (n_max omit_empty : Int) (hn : n_max ≠ 0) :
    ∃ occ1 occ, lines1Ranges s = some occ1 ∧ linesRanges s n_max omit_empty = some occ
      ∧ stri_split_lines1 (some s) = some (mkPieces s occ1)
      ∧ stri_split_lines (some s) n_max omit_empty = some (mkPieces s occ)
      ∧ RangesOK s.length occ1 ∧ RangesOK s.length occ := by
  obtain ⟨occ1, h1, ok1⟩ := lines1Ranges_ok s
  obtain ⟨occ, h2, ok2⟩ := linesRanges_ok s n_max omit_empty
  exact ⟨occ1, occ, h1, h2, by simp only [stri_split_lines1, h1, Option.map_some'],
    stri_split_lines_of_ranges s n_max omit_empty hn occ h2, ok1, ok2⟩

/-- Witness for C18 at the string "a\r\n\nb" with `n_max = 2` and
`omit_empty = TRUE`. -/
theorem C18_byte_range_invariant_witness :
    (2 : Int) ≠ 0
      ∧ ∃ occ1 occ, lines1Ranges [97, 13, 10, 10, 98] = some occ1
        ∧ linesRanges [97, 13, 10, 10, 98] 2 1 = some occ
        ∧ stri_split_lines1 (some [97, 13, 10, 10, 98]) = some (mkPieces [97, 13, 10, 10, 98] occ1)
        ∧ stri_split_lines (some [97, 13, 10, 10, 98]) 2 1
            = some (mkPieces [97, 13, 10, 10, 98] occ)
        ∧ RangesOK ([97, 13, 10, 10, 98] : List Nat).length occ1
        ∧ RangesOK ([97, 13, 10, 10, 98] : List Nat).length occ :=
  ⟨by decide, C18_byte_range_invariant [97, 13, 10, 10, 98] 2 1 (by decide)⟩

/-! ## The mutations of the deque in one iteration -/

theorem mutation_end (pre : List (Nat × Nat)) (b : Nat × Nat) (e : Nat) :
    Mutation (pre ++ [b]) (pre ++ [(b.1, e)]) :=
  Or.inr ⟨pre, b, e, rfl, rfl⟩

theorem mutation_push (occ : List (Nat × Nat)) (r : Nat × Nat) : Mutation occ (occ ++ [r]) :=
  Or.inl ⟨r, rfl⟩

theorem mutation_end_push (pre : List (Nat × Nat)) (b r : Nat × Nat) (e : Nat) :
    Relation.ReflTransGen Mutation (pre ++ [b]) (pre ++ [(b.1, e)] ++ [r]) :=
  Relation.ReflTransGen.tail (Relation.ReflTransGen.single (mutation_end pre b e))
    (mutation_push _ r)

theorem mutationOmit_of_mutation (occ occ' : List (Nat × Nat))
    (h : Relation.ReflTransGen Mutation occ occ') :
    Relation.ReflTransGen MutationOmit occ occ' :=
  Relation.ReflTransGen.mono (fun _ _ hm => Or.inl hm) h

theorem lines1Step_mutations (s : List Nat) (n j : Nat) (pre : List (Nat × Nat))
    (b : Nat × Nat) :
    Relation.ReflTransGen Mutation (pre ++ [b]) (lines1Step s n j (pre ++ [b])).2 := by
  rw [lines1Step_append]
  split_ifs
  · exact mutation_end_push pre b _ j
  · exact Relation.ReflTransGen.single (mutation_end pre b j)
  · exact Relation.ReflTransGen.single (mutation_end pre b _)

theorem linesStep_mutations (s : List Nat) (n : Nat) (o : Int) (j : Nat) (k : Int)
    (pre : List (Nat × Nat)) (b : Nat × Nat) (h : ¬ (o ≠ 0 ∧ b.2 = b.1)) :
    Relation.ReflTransGen Mutation (pre ++ [b]) (linesStep s n o j k (pre ++ [b])).2.2 := by
  by_cases hnl : isNewline (decodeNewline s n j).1 = true
  · rw [linesStep_newline_keep s n o j k pre b hnl h]
    exact mutation_end_push pre b _ j
  · rw [linesStep_other s n o j k pre b hnl]
    exact Relation.ReflTransGen.single (mutation_end pre b _)

theorem linesStep_mutationsOmit (s : List Nat) (n : Nat) (o : Int) (j : Nat) (k : Int)
    (pre : List (Nat × Nat)) (b : Nat × Nat) :
    Relation.ReflTransGen MutationOmit (pre ++ [b]) (linesStep s n o j k (pre ++ [b])).2.2 := by
  by_cases h : o ≠ 0 ∧ b.2 = b.1
  · by_cases hnl : isNewline (decodeNewline s n j).1 = true
    · rw [linesStep_newline_skip s n o j k pre b hnl h.1 h.2]
      refine Relation.ReflTransGen.single (Or.inr ⟨pre, b.1, _, ?_, rfl⟩)
      congr 2
      exact Prod.ext rfl h.2
    · exact mutationOmit_of_mutation _ _ (by
        rw [linesStep_other s n o j k pre b hnl]
        exact Relation.ReflTransGen.single (mutation_end pre b _))
  · exact mutationOmit_of_mutation _ _ (linesStep_mutations s n o j k pre b h)

theorem lines1Step_keeps_closed (s : List Nat) (n j : Nat) (pre : List (Nat × Nat))
    (b : Nat × Nat) : ∃ b' tl, (lines1Step s n j (pre ++ [b])).2 = pre ++ b' :: tl := by
  rw [lines1Step_append]
  split_ifs
  · exact ⟨(b.1, j), [((decodeNewline s n j).2, (decodeNewline s n j).2)], by simp⟩
  · exact ⟨_, [], rfl⟩
  · exact ⟨_, [], rfl⟩

theorem linesStep_keeps_closed (s : List Nat) (n : Nat) (o : Int) (j : Nat) (k : Int)
    (pre : List (Nat × Nat)) (b : Nat × Nat) :
    ∃ b' tl, (linesStep s n o j k (pre ++ [b])).2.2 = pre ++ b' :: tl := by
  by_cases hnl : isNewline (decodeNewline s n j).1 = true
  · by_cases h : o ≠ 0 ∧ b.2 = b.1
    · rw [linesStep_newline_skip s n o j k pre b hnl h.1 h.2]
      exact ⟨_, [], rfl⟩
    · rw [linesStep_newline_keep s n o j k pre b hnl h]
      exact ⟨(b.1, j), [((decodeNewline s n j).2, (decodeNewline s n j).2)], by simp⟩
  · rw [linesStep_other s n o j k pre b hnl]
    exact ⟨_, [], rfl⟩

theorem mutation_keeps_first_start (occ occ' : List (Nat × Nat))
    (h : Relation.ReflTransGen Mutation occ occ') :
    ∀ r rs, occ = r :: rs → ∃ r' rs', occ' = r' :: rs' ∧ r'.1 = r.1 := by
  induction h with
  | refl =>
    intro r rs h
    exact ⟨r, rs, h, rfl⟩
  | tail _ hm ih =>
    intro r rs h
    obtain ⟨r1, rs1, h1, e1⟩ := ih r rs h
    rcases hm with ⟨x, hx⟩ | ⟨pre, b, e, hb, hb'⟩
    · exact ⟨r1, rs1 ++ [x], by rw [hx, h1]; rfl, e1⟩
    · cases pre with
      | nil =>
        rw [h1] at hb
        simp only [List.nil_append, List.cons.injEq] at hb
        exact ⟨(b.1, e), [], hb', by rw [← hb.1]; exact e1⟩
      | cons p pre =>
        rw [h1] at hb
        simp only [List.cons_append, List.cons.injEq] at hb
        exact ⟨p, pre ++ [(b.1, e)], hb', by rw [← hb.1]; exact e1⟩

/-- C20 (as stated, refuted): the first iteration of the scan of
`stri_split_lines` on the string "\n" with `omit_empty = TRUE` turns the deque
`[(0, 0)]` into `[(1, 1)]`: the start offset of the range that was appended
changes, which no sequence of appends and changes of an end offset does. -/
theorem C20_counterexample_suppression_moves_start :
    (linesStep [10] 1 1 0 1 [(0, 0)]).2.2 = [(1, 1)]
      ∧ linesLoop [10] 1 INT_MAX 1 1 0 1 [(0, 0)] = linesLoop [10] 1 INT_MAX 1 0 1 1 [(1, 1)]
      ∧ ¬ Relation.ReflTransGen Mutation [(0, 0)] [(1, 1)] := by
  refine ⟨by decide, by decide, ?_⟩
  intro h
  obtain ⟨r', rs', h1, h2⟩ := mutation_keeps_first_start _ _ h (0, 0) [] rfl
  simp only [List.cons.injEq] at h1
  rw [← h1.1] at h2
  exact absurd h2 (by decide)

/-- C20 (amended): in every iteration of the scan loops, from a deque `pre ++ [b]`,
the ranges `pre` before the last one are not modified; in `stri_split_lines1`, and
in `stri_split_lines` unless `omit_empty` is true, the last range is empty and the
code point read is a terminator, every change is the append of a new range or a
change of the end offset of the last range; in `stri_split_lines` with a true
`omit_empty`, a terminator read at `j` while the last range is empty moves that
range, start and end together, to the offset after the terminator, which is the
next index of the scan, and leaves the count of fields as it is. -/
theorem C20_mutation_discipline (s : List Nat) (n j : Nat) (k omit_empty : Int)
    (pre : List (Nat × Nat)) (b : Nat × Nat) :
    Relation.ReflTransGen Mutation (pre ++ [b]) (lines1Step s n j (pre ++ [b])).2
      ∧ (∃ b' tl, (lines1Step s n j (pre ++ [b])).2 = pre ++ b' :: tl)
      ∧ (¬ (omit_empty ≠ 0 ∧ b.2 = b.1 ∧ isNewline (decodeNewline s n j).1 = true) →
          Relation.ReflTransGen Mutation (pre ++ [b])
            (linesStep s n omit_empty j k (pre ++ [b])).2.2)
      ∧ (omit_empty ≠ 0 → b.2 = b.1 → isNewline (decodeNewline s n j).1 = true →
          (linesStep s n omit_empty j k (pre ++ [b])).2.2
              = pre ++ [((linesStep s n omit_empty j k (pre ++ [b])).1,
                  (linesStep s n omit_empty j k (pre ++ [b])).1)]
            ∧ (linesStep s n omit_empty j k (pre ++ [b])).1 = (decodeNewline s n j).2
            ∧ j < (linesStep s n omit_empty j k (pre ++ [b])).1
            ∧ (linesStep s n omit_empty j k (pre ++ [b])).2.1 = k)
      ∧ Relation.ReflTransGen MutationOmit (pre ++ [b])
          (linesStep s n omit_empty j k (pre ++ [b])).2.2
      ∧ (∃ b' tl, (linesStep s n omit_empty j k (pre ++ [b])).2.2 = pre ++ b' :: tl) := by
  refine ⟨lines1Step_mutations s n j pre b, lines1Step_keeps_closed s n j pre b, ?_, ?_,
    linesStep_mutationsOmit s n omit_empty j k pre b,
    linesStep_keeps_closed s n omit_empty j k pre b⟩
  · intro h
    by_cases hnl : isNewline (decodeNewline s n j).1 = true
    · exact linesStep_mutations s n omit_empty j k pre b (fun c => h ⟨c.1, c.2, hnl⟩)
    · rw [linesStep_other s n omit_empty j k pre b hnl]
      exact Relation.ReflTransGen.single (mutation_end pre b _)
  · intro ho hb hnl
    rw [linesStep_newline_skip s n omit_empty j k pre b hnl ho hb]
    exact ⟨rfl, rfl, decodeNewline_gt s n j, rfl⟩

/-- Witness for C20 (amended) on "a\n\nb": the second iteration without
suppression, and the third iteration with suppression, which moves the empty last
range `(2, 2)` to `(3, 3)` and keeps the closed range `(0, 1)`. -/
theorem C20_mutation_discipline_witness :
    (¬ ((0 : Int) ≠ 0 ∧ ((0, 1) : Nat × Nat).2 = ((0, 1) : Nat × Nat).1
          ∧ isNewline (decodeNewline [97, 10, 10, 98] 4 1).1 = true)
        ∧ Relation.ReflTransGen Mutation ([] ++ [(0, 1)])
            (linesStep [97, 10, 10, 98] 4 0 1 1 ([] ++ [(0, 1)])).2.2)
      ∧ ((1 : Int) ≠ 0 ∧ ((2, 2) : Nat × Nat).2 = ((2, 2) : Nat × Nat).1
          ∧ isNewline (decodeNewline [97, 10, 10, 98] 4 2).1 = true
          ∧ (linesStep [97, 10, 10, 98] 4 1 2 2 ([(0, 1)] ++ [(2, 2)])).1 = 3
          ∧ ((linesStep [97, 10, 10, 98] 4 1 2 2 ([(0, 1)] ++ [(2, 2)])).2.2
              = [(0, 1)] ++ [((linesStep [97, 10, 10, 98] 4 1 2 2 ([(0, 1)] ++ [(2, 2)])).1,
                  (linesStep [97, 10, 10, 98] 4 1 2 2 ([(0, 1)] ++ [(2, 2)])).1)]
            ∧ (linesStep [97, 10, 10, 98] 4 1 2 2 ([(0, 1)] ++ [(2, 2)])).1
                = (decodeNewline [97, 10, 10, 98] 4 2).2
            ∧ 2 < (linesStep [97, 10, 10, 98] 4 1 2 2 ([(0, 1)] ++ [(2, 2)])).1
            ∧ (linesStep [97, 10, 10, 98] 4 1 2 2 ([(0, 1)] ++ [(2, 2)])).2.1 = 2)) :=
  ⟨⟨by decide,
      (C20_mutation_discipline [97, 10, 10, 98] 4 1 1 0 [] (0, 1)).2.2.1 (by decide)⟩,
    by decide, by decide, by decide, by decide,
    (C20_mutation_discipline [97, 10, 10, 98] 4 2 2 1 [(0, 1)] (2, 2)).2.2.2.1
      (by decide) (by decide) (by decide)⟩

/-! ## NA elements -/

theorem boundariesBody_na (svc : BreakService) (match_arg : List Nat → Option BoundaryKind)
    (st : BrkState) (str_i boundary_i : Option (List Nat))
    (h : str_i = none ∨ boundary_i = none) :
    boundariesBody svc match_arg st str_i boundary_i = .ok (st, [none]) := by
  rcases h with rfl | rfl
  · rfl
  · cases str_i <;> rfl

/-- C12: an NA string gives the one-element sequence holding NA in
`stri_split_lines`, for every `n_max` (0 included) and `omit_empty`, and in
`stri_split_lines1`; in `stri_split_boundaries` an element whose string or
boundary name is NA gives the one-element sequence holding NA, leaves the state
of the loop as it is, and the loop goes on with the remaining elements. -/
theorem C12_na_propagation (svc : BreakService) (match_arg : List Nat → Option BoundaryKind)
    (st : BrkState) (str_i boundary_i : Option (List Nat)) (n_max omit_empty : Int)
    (items : List (Option (List Nat) × Option (List Nat)))
    (h : str_i = none ∨ boundary_i = none) :
    stri_split_lines none n_max omit_empty = some [none]
      ∧ stri_split_lines1 none = some [none]
      ∧ boundariesBody svc match_arg st str_i boundary_i = .ok (st, [none])
      ∧ boundariesLoop svc match_arg st ((str_i, boundary_i) :: items)
          = (match boundariesLoop svc match_arg st items with
              | .error e => .error e
              | .ok rs => .ok (rs.1, [none] :: rs.2)) := by
  refine ⟨rfl, rfl, boundariesBody_na svc match_arg st str_i boundary_i h, ?_⟩
  rw [boundariesLoop]
  simp only [boundariesBody_na svc match_arg st str_i boundary_i h]

/-- Witness for C12 at the NA string paired with the name `word`, followed by
the element "ab". -/
theorem C12_na_propagation_witness :
    ((none : Option (List Nat)) = none ∨ some [119, 111, 114, 100] = (none : Option (List Nat)))
      ∧ stri_split_lines none 0 1 = some [none]
      ∧ stri_split_lines1 none = some [none]
      ∧ boundariesBody byteService exactMatch (BrkState.mk none none 0) none
          (some [119, 111, 114, 100]) = .ok (BrkState.mk none none 0, [none])
      ∧ boundariesLoop byteService exactMatch (BrkState.mk none none 0)
          ((none, some [119, 111, 114, 100]) :: [(some [97, 98], some [119, 111, 114, 100])])
          = (match boundariesLoop byteService exactMatch (BrkState.mk none none 0)
                [(some [97, 98], some [119, 111, 114, 100])] with
              | .error e => .error e
              | .ok rs => .ok (rs.1, [none] :: rs.2)) :=
  ⟨by decide,
    C12_na_propagation byteService exactMatch (BrkState.mk none none 0) none
      (some [119, 111, 114, 100]) 0 1 [(some [97, 98], some [119, 111, 114, 100])]
      (Or.inl rfl)⟩

/-! ## The ranges of `stri_split_boundaries` -/

theorem brkRanges_cover (s : List Nat) (n : Nat) :
    ∀ (bs : List Nat) (a : Nat), increasingFrom a bs = true →
      (a :: bs).getLast? = some n →
      a ≤ n
        ∧ List.Chain' (fun r r' : Nat × Nat => r.2 = r'.1) (brkRanges a bs)
        ∧ (∀ r ∈ (brkRanges a bs).head?, r.1 = a)
        ∧ ((brkRanges a bs).map (fun r => r.2 - r.1)).sum = n - a
        ∧ ((mkPieces s (brkRanges a bs)).map (fun p => p.getD [])).flatten = mkCharLen s (a, n) := by
  intro bs
  induction bs with
  | nil =>
    intro a _ hl
    simp only [List.getLast?_singleton, Option.some.injEq] at hl
    subst hl
    refine ⟨le_refl _, List.chain'_nil, by simp [brkRanges], by simp [brkRanges], ?_⟩
    simp [brkRanges, mkPieces, mkCharLen]
  | cons m ms ih =>
    intro a hc hl
    simp only [increasingFrom, Bool.and_eq_true, decide_eq_true_eq] at hc
    rw [List.getLast?_cons_cons] at hl
    obtain ⟨hmn, hch, hhead, hsum, hjoin⟩ := ih m hc.2 hl
    refine ⟨by omega, ?_, by simp [brkRanges], ?_, ?_⟩
    · rw [brkRanges]
      cases hms : brkRanges m ms with
      | nil => exact List.chain'_singleton _
      | cons r rs =>
        rw [hms] at hch hhead
        rw [List.chain'_cons]
        exact ⟨(hhead r (by simp)).symm, hch⟩
    · rw [brkRanges, List.map_cons, List.sum_cons, hsum]
      simp only
      omega
    · rw [brkRanges, mkPieces_cons, List.map_cons, List.flatten_cons, hjoin]
      simp only [Option.getD_some]
      exact mkCharLen_append s a m n (by omega) hmn

/-- C14: for a non-NA element `s` segmented with an instance of the kind `k`, the
service reporting `first() = 0` and then strictly increasing boundaries that end
at the byte length of `s`: the recorded ranges are contiguous, their lengths sum
to the byte length of `s`, and the pieces of the output, concatenated in order,
are the bytes of `s`. -/
theorem C14_boundaries_full_coverage (svc : BreakService) (k : BoundaryKind) (s : List Nat)
    (out : List (Option (List Nat))) (hfirst : svc.first k s = 0)
    (hinc : increasingFrom 0 (svc.nexts k s) = true)
    (hlast : (0 :: svc.nexts k s).getLast? = some s.length)
    (hout : brkSegment svc (some k) s = .ok out) :
    List.Chain' (fun r r' : Nat × Nat => r.2 = r'.1)
        (brkRanges (svc.first k s) (svc.nexts k s))
      ∧ ((brkRanges (svc.first k s) (svc.nexts k s)).map (fun r => r.2 - r.1)).sum = s.length
      ∧ out = brkOutput s (brkRanges (svc.first k s) (svc.nexts k s))
      ∧ (out.map (fun p => p.getD [])).flatten = s := by
  obtain ⟨-, hch, -, hsum, hjoin⟩ := brkRanges_cover s s.length (svc.nexts k s) 0 hinc hlast
  have hout' : out = brkOutput s (brkRanges (svc.first k s) (svc.nexts k s)) := by
    unfold brkSegment at hout
    simp only at hout
    split_ifs at hout
    exact (Except.ok.inj hout).symm
  rw [hfirst] at hout' ⊢
  refine ⟨hch, by simpa using hsum, hout', ?_⟩
  rw [hout', brkOutput]
  split_ifs with hlen
  · have hnil : brkRanges 0 (svc.nexts k s) = [] := List.length_eq_zero.1 (by omega)
    have hs : s.length = 0 := by
      rw [hnil] at hsum
      simpa using hsum.symm
    simp [List.length_eq_zero.1 hs]
  · rw [hjoin]
    exact mkCharLen_whole s

/-- Witness for C14 at the string "abc" with the sample service, whose boundaries
are 1, 2, 3. -/
theorem C14_boundaries_full_coverage_witness :
    byteService.first .word [97, 98, 99] = 0
      ∧ increasingFrom 0 (byteService.nexts .word [97, 98, 99]) = true
      ∧ (0 :: byteService.nexts .word [97, 98, 99]).getLast? = some ([97, 98, 99] : List Nat).length
      ∧ brkSegment byteService (some .word) [97, 98, 99] = .ok [some [97], some [98], some [99]]
      ∧ List.Chain' (fun r r' : Nat × Nat => r.2 = r'.1)
          (brkRanges (byteService.first .word [97, 98, 99])
            (byteService.nexts .word [97, 98, 99]))
      ∧ ((brkRanges (byteService.first .word [97, 98, 99])
            (byteService.nexts .word [97, 98, 99])).map (fun r => r.2 - r.1)).sum
          = ([97, 98, 99] : List Nat).length
      ∧ [some [97], some [98], some [99]] = brkOutput [97, 98, 99]
          (brkRanges (byteService.first .word [97, 98, 99])
            (byteService.nexts .word [97, 98, 99]))
      ∧ (([some [97], some [98], some [99]] : List (Option (List Nat))).map
          (fun p => p.getD [])).flatten = [97, 98, 99] :=
  ⟨by decide, by decide, by decide, by decide,
    C14_boundaries_full_coverage byteService .word [97, 98, 99] [some [97], some [98], some [99]]
      (by decide) (by decide) (by decide) (by decide)⟩

/-! ## One element of `stri_split_boundaries` -/

theorem brkOpen_ok (svc : BreakService) (st st1 : BrkState) (k : BoundaryKind)
    (h : brkOpen svc st k = .ok st1) :
    st1 = (if st.last_boundary = some k then st
      else BrkState.mk (some k) (some k) (st.created + 1)) := by
  unfold brkOpen at h
  by_cases hk : st.last_boundary = some k
  · rw [if_neg (not_not.2 hk)] at h
    rw [if_pos hk]
    exact (Except.ok.inj h).symm
  · rw [if_pos hk] at h
    rw [if_neg hk]
    split_ifs at h
    exact (Except.ok.inj h).symm

theorem brkSegment_ok (svc : BreakService) (briter : Option BoundaryKind) (s : List Nat)
    (out : List (Option (List Nat))) (h : brkSegment svc briter s = .ok out) :
    ∃ inst, briter = some inst ∧ out = brkExpected svc inst s := by
  unfold brkSegment at h
  split_ifs at h with h1
  cases briter with
  | none => cases h
  | some inst =>
    simp only at h
    split_ifs at h
    exact ⟨inst, rfl, (Except.ok.inj h).symm⟩

theorem boundariesBody_ok (svc : BreakService) (match_arg : List Nat → Option BoundaryKind)
    (st st' : BrkState) (s name : List Nat) (out : List (Option (List Nat)))
    (h : boundariesBody svc match_arg st (some s) (some name) = .ok (st', out)) :
    ∃ k, match_arg name = some k ∧ brkOpen svc st k = .ok st'
      ∧ brkSegment svc st'.briter s = .ok out := by
  unfold boundariesBody at h
  simp only at h
  cases hm : match_arg name with
  | none =>
    rw [hm] at h
    cases h
  | some k =>
    rw [hm] at h
    simp only at h
    cases ho : brkOpen svc st k with
    | error e =>
      rw [ho] at h
      cases h
    | ok st1 =>
      rw [ho] at h
      simp only at h
      cases hs : brkSegment svc st1.briter s with
      | error e =>
        rw [hs] at h
        cases h
      | ok ans =>
        rw [hs] at h
        simp only [Except.ok.injEq, Prod.mk.injEq] at h
        obtain ⟨rfl, rfl⟩ := h
        exact ⟨k, rfl, ho, hs⟩

/-- A non-NA element with the kind `k`, from a state in which `briter` is of the
kind `last_boundary`: the instance used is of the kind `k`, and it is constructed
in this iteration exactly when `last_boundary` is not `k`. -/
theorem boundariesBody_kind (svc : BreakService) (match_arg : List Nat → Option BoundaryKind)
    (st st' : BrkState) (s name : List Nat) (k : BoundaryKind) (out : List (Option (List Nat)))
    (hinv : BrkInv st) (hm : match_arg name = some k)
    (h : boundariesBody svc match_arg st (some s) (some name) = .ok (st', out)) :
    st'.last_boundary = some k ∧ st'.briter = some k
      ∧ st'.created = st.created + (if st.last_boundary = some k then 0 else 1)
      ∧ out = brkExpected svc k s := by
  obtain ⟨k', hm', ho, hs⟩ := boundariesBody_ok svc match_arg st st' s name out h
  rw [hm] at hm'
  cases Option.some.inj hm'
  have hst := brkOpen_ok svc st st' k ho
  obtain ⟨inst, hi, hout⟩ := brkSegment_ok svc _ s out hs
  by_cases hk : st.last_boundary = some k
  · rw [if_pos hk] at hst
    subst hst
    have hb : st'.briter = some k := by rw [hinv, hk]
    rw [hb] at hi
    cases Option.some.inj hi
    exact ⟨hk, hb, by simp [hk], hout⟩
  · rw [if_neg hk] at hst
    subst hst
    simp only at hi
    cases Option.some.inj hi
    exact ⟨rfl, rfl, by simp [hk], hout⟩

theorem length_brkOutput_pos (s : List Nat) (occ : List (Nat × Nat)) :
    1 ≤ (brkOutput s occ).length := by
  unfold brkOutput
  split_ifs with h
  · simp
  · rw [length_mkPieces]
    omega

/-- C15: a non-NA element of `stri_split_boundaries` that is processed without
an error yields at least one piece; when the segmenter reports no boundary after
`first()` it yields exactly one piece, the empty string, and so it does for the
empty string when the boundaries reported are strictly increasing from 0 and at
most the byte length. -/
theorem C15_boundaries_at_least_one_piece (svc : BreakService)
    (match_arg : List Nat → Option BoundaryKind) (st st' : BrkState) (s name : List Nat)
    (out : List (Option (List Nat)))
    (h : boundariesBody svc match_arg st (some s) (some name) = .ok (st', out)) :
    1 ≤ out.length
      ∧ (∀ k, st'.briter = some k → svc.nexts k s = [] → out = [some []])
      ∧ (∀ k, st'.briter = some k → s = [] → increasingFrom 0 (svc.nexts k s) = true →
          (∀ m ∈ svc.nexts k s, m ≤ s.length) → out = [some []]) := by
  obtain ⟨k', -, -, hs⟩ := boundariesBody_ok svc match_arg st st' s name out h
  obtain ⟨inst, hi, hout⟩ := brkSegment_ok svc _ s out hs
  have hnil : ∀ k, st'.briter = some k → svc.nexts k s = [] → out = [some []] := by
    intro k hk hn
    rw [hk] at hi
    cases Option.some.inj hi
    rw [hout, brkExpected, hn]
    rfl
  refine ⟨by rw [hout]; exact length_brkOutput_pos _ _, hnil, ?_⟩
  intro k hk hse hinc hle
  apply hnil k hk
  cases hb : svc.nexts k s with
  | nil => rfl
  | cons b bs =>
    rw [hb] at hinc hle
    simp only [increasingFrom, Bool.and_eq_true, decide_eq_true_eq] at hinc
    have := hle b (List.mem_cons_self _ _)
    rw [hse] at this
    simp only [List.length_nil] at this
    omega

/-- Witness for C15 at the empty string with the name `word` and the sample
service. -/
theorem C15_boundaries_at_least_one_piece_witness :
    boundariesBody byteService exactMatch (BrkState.mk none none 0) (some [])
        (some [119, 111, 114, 100])
        = .ok (BrkState.mk (some .word) (some .word) 1, [some []])
      ∧ 1 ≤ ([some []] : List (Option (List Nat))).length
      ∧ (∀ k, (BrkState.mk (some .word) (some .word) 1).briter = some k →
          byteService.nexts k [] = [] → ([some []] : List (Option (List Nat))) = [some []])
      ∧ (∀ k, (BrkState.mk (some .word) (some .word) 1).briter = some k → ([] : List Nat) = [] →
          increasingFrom 0 (byteService.nexts k []) = true →
          (∀ m ∈ byteService.nexts k [], m ≤ ([] : List Nat).length) →
          ([some []] : List (Option (List Nat))) = [some []]) :=
  ⟨by decide,
    C15_boundaries_at_least_one_piece byteService exactMatch (BrkState.mk none none 0)
      (BrkState.mk (some .word) (some .word) 1) [] [119, 111, 114, 100] [some []] (by decide)⟩

/-! ## The loop of `stri_split_boundaries` -/

theorem boundariesBody_inv (svc : BreakService) (match_arg : List Nat → Option BoundaryKind)
    (st st' : BrkState) (x b : Option (List Nat)) (out : List (Option (List Nat)))
    (hinv : BrkInv st) (h : boundariesBody svc match_arg st x b = .ok (st', out)) :
    BrkInv st' := by
  cases x with
  | none =>
    rw [boundariesBody_na _ _ _ _ _ (Or.inl rfl)] at h
    simp only [Except.ok.injEq, Prod.mk.injEq] at h
    rw [← h.1]
    exact hinv
  | some s =>
    cases b with
    | none =>
      rw [boundariesBody_na _ _ _ _ _ (Or.inr rfl)] at h
      simp only [Except.ok.injEq, Prod.mk.injEq] at h
      rw [← h.1]
      exact hinv
    | some name =>
      obtain ⟨k, hm, -, -⟩ := boundariesBody_ok svc match_arg st st' s name out h
      obtain ⟨h1, h2, -, -⟩ := boundariesBody_kind svc match_arg st st' s name k out hinv hm h
      unfold BrkInv
      rw [h1, h2]

theorem boundariesBody_unmatched (svc : BreakService)
    (match_arg : List Nat → Option BoundaryKind) (st : BrkState) (s name : List Nat)
    (hm : match_arg name = none) :
    boundariesBody svc match_arg st (some s) (some name) = .error .incorrectMatchOption := by
  unfold boundariesBody
  simp only [hm]

theorem boundariesBody_serviceOk (svc : BreakService)
    (match_arg : List Nat → Option BoundaryKind) (st : BrkState) (s name : List Nat)
    (k : BoundaryKind) (hok : ServiceOk svc) (hinv : BrkInv st) (hm : match_arg name = some k) :
    ∃ r, boundariesBody svc match_arg st (some s) (some name) = .ok r := by
  obtain ⟨h1, h2, h3⟩ := hok
  unfold boundariesBody brkOpen brkSegment
  simp only [hm, h1, h2, h3, if_true]
  by_cases hk : st.last_boundary = some k
  · have hb : st.briter = some k := by rw [hinv, hk]
    simp [hk, hb]
  · simp [hk]

theorem boundariesLoop_cons (svc : BreakService) (match_arg : List Nat → Option BoundaryKind)
    (st : BrkState) (x : Option (List Nat) × Option (List Nat))
    (items : List (Option (List Nat) × Option (List Nat))) :
    boundariesLoop svc match_arg st (x :: items)
      = (match boundariesBody svc match_arg st x.1 x.2 with
          | .error e => .error e
          | .ok r =>
            match boundariesLoop svc match_arg r.1 items with
            | .error e => .error e
            | .ok rs => .ok (rs.1, r.2 :: rs.2)) := by
  rw [boundariesLoop]

/-- The loop throws an error when some element has a non-NA string and a non-NA
name that matches no kind; when no call of the service fails, the error is that
of the unmatched name. -/
theorem boundariesLoop_unmatched (svc : BreakService)
    (match_arg : List Nat → Option BoundaryKind) (s name : List Nat)
    (hm : match_arg name = none) :
    ∀ (items : List (Option (List Nat) × Option (List Nat))) (st : BrkState),
      (some s, some name) ∈ items →
      (∃ e, boundariesLoop svc match_arg st items = .error e)
        ∧ (ServiceOk svc → BrkInv st →
            boundariesLoop svc match_arg st items = .error .incorrectMatchOption) := by
  intro items
  induction items with
  | nil =>
    intro st h
    cases h
  | cons x items ih =>
    intro st h
    rw [boundariesLoop_cons]
    rcases List.mem_cons.1 h with hx | hx
    · rw [← hx, boundariesBody_unmatched svc match_arg st s name hm]
      exact ⟨⟨_, rfl⟩, fun _ _ => rfl⟩
    · cases hb : boundariesBody svc match_arg st x.1 x.2 with
      | error e =>
        refine ⟨⟨e, rfl⟩, fun hok hinv => ?_⟩
        obtain ⟨x1, x2⟩ := x
        cases x1 with
        | none => rw [boundariesBody_na _ _ _ _ _ (Or.inl rfl)] at hb; cases hb
        | some s1 =>
          cases x2 with
          | none => rw [boundariesBody_na _ _ _ _ _ (Or.inr rfl)] at hb; cases hb
          | some n1 =>
            cases hm1 : match_arg n1 with
            | none =>
              rw [boundariesBody_unmatched svc match_arg st s1 n1 hm1] at hb
              rw [← Except.error.inj hb]
            | some k1 =>
              obtain ⟨r, hr⟩ := boundariesBody_serviceOk svc match_arg st s1 n1 k1 hok hinv hm1
              rw [hr] at hb
              cases hb
      | ok r =>
        obtain ⟨⟨e, he⟩, hok'⟩ := ih r.1 hx
        refine ⟨⟨e, by simp only [he]⟩, fun hok hinv => ?_⟩
        have hinv' : BrkInv r.1 :=
          boundariesBody_inv svc match_arg st r.1 x.1 x.2 r.2 hinv hb
        simp only [hok' hok hinv']

theorem mem_recycledItems (str boundary : List (Option (List Nat))) (L i : Nat) (hi : i < L) :
    (recycledGet str i none, recycledGet boundary i none) ∈ recycledItems str boundary L := by
  unfold recycledItems
  exact List.mem_map.2 ⟨i, List.mem_range.2 hi, rfl⟩

/-- C16 (as stated, refuted): the name "bogus" matches no kind, and paired with
an NA string it raises no error: the call returns the list holding the
one-element NA sequence. -/
theorem C16_counterexample_na_string_unmatched_name :
    exactMatch [98, 111, 103, 117, 115] = none
      ∧ stri_split_boundaries byteService exactMatch [none] [some [98, 111, 103, 117, 115]]
          = .ok [[none]] := by
  decide

/-- C16 (amended): `stri_split_boundaries` fails and returns no result list
whenever some index of the recycled vectors has a non-NA string and a non-NA
boundary name that matches none of the kinds; the error is the invalid-argument
error of the name when no call of the segmentation service fails. (An unmatched
name paired with an NA string is skipped.) -/
theorem C16_unmatched_name_fails (svc : BreakService)
    (match_arg : List Nat → Option BoundaryKind) (str boundary : List (Option (List Nat)))
    (L i : Nat) (s name : List Nat)
    (hL : stri__recycling_rule [str.length, boundary.length] = .ok L) (hi : i < L)
    (hs : recycledGet str i none = some s) (hb : recycledGet boundary i none = some name)
    (hm : match_arg name = none) :
    (∃ e, stri_split_boundaries svc match_arg str boundary = .error e)
      ∧ (ServiceOk svc →
          stri_split_boundaries svc match_arg str boundary = .error .incorrectMatchOption) := by
  have hmem := mem_recycledItems str boundary L i hi
  rw [hs, hb] at hmem
  obtain ⟨⟨e, he⟩, hok⟩ := boundariesLoop_unmatched svc match_arg s name hm
    (recycledItems str boundary L) (BrkState.mk none none 0) hmem
  unfold stri_split_boundaries
  simp only [hL]
  refine ⟨⟨e, by simp only [he]⟩, fun h => ?_⟩
  simp only [hok h rfl]

/-- Witness for C16 (amended) at the strings NA, "ab" with the names `word`,
"bogus": index 1 pairs the string "ab" with the unmatched name. -/
theorem C16_unmatched_name_fails_witness :
    stri__recycling_rule [([none, some [97, 98]] : List (Option (List Nat))).length,
        ([some [119, 111, 114, 100], some [98, 111, 103, 117, 115]]
          : List (Option (List Nat))).length] = .ok 2
      ∧ 1 < 2
      ∧ recycledGet [none, some [97, 98]] 1 none = some [97, 98]
      ∧ recycledGet [some [119, 111, 114, 100], some [98, 111, 103, 117, 115]] 1 none
          = some [98, 111, 103, 117, 115]
      ∧ exactMatch [98, 111, 103, 117, 115] = none
      ∧ (∃ e, stri_split_boundaries byteService exactMatch [none, some [97, 98]]
          [some [119, 111, 114, 100], some [98, 111, 103, 117, 115]] = .error e)
      ∧ (ServiceOk byteService →
          stri_split_boundaries byteService exactMatch [none, some [97, 98]]
            [some [119, 111, 114, 100], some [98, 111, 103, 117, 115]]
            = .error .incorrectMatchOption) :=
  ⟨by decide, by decide, by decide, by decide, by decide,
    C16_unmatched_name_fails byteService exactMatch [none, some [97, 98]]
      [some [119, 111, 114, 100], some [98, 111, 103, 117, 115]] 2 1 [97, 98]
      [98, 111, 103, 117, 115] (by decide) (by decide) (by decide) (by decide) (by decide)⟩

/-! ## Reuse of the segmenter instance -/

theorem kindsOf_cons_na (match_arg : List Nat → Option BoundaryKind)
    (x b : Option (List Nat)) (items : List (Option (List Nat) × Option (List Nat)))
    (h : x = none ∨ b = none) : kindsOf match_arg ((x, b) :: items) = kindsOf match_arg items := by
  rcases h with rfl | rfl
  · rfl
  · cases x <;> rfl

theorem kindsOf_cons_kind (match_arg : List Nat → Option BoundaryKind) (s name : List Nat)
    (k : BoundaryKind) (items : List (Option (List Nat) × Option (List Nat)))
    (h : match_arg name = some k) :
    kindsOf match_arg ((some s, some name) :: items) = k :: kindsOf match_arg items := by
  rw [kindsOf]
  simp only [h]

theorem runs_cons (a : BoundaryKind) (l : List BoundaryKind) :
    runs (a :: l) = 1 + runsFrom (some a) l := by
  induction l generalizing a with
  | nil => rfl
  | cons b l ih =>
    rw [runs, ih b, runsFrom]
    by_cases h : a = b
    · simp [h]
    · simp [h]

theorem runs_eq_runsFrom (l : List BoundaryKind) : runs l = runsFrom none l := by
  cases l with
  | nil => rfl
  | cons a l =>
    rw [runs_cons, runsFrom]
    simp

theorem lastKind_eq (l : List BoundaryKind) :
    ∀ prev, lastKind prev l = (match l.getLast? with | some k => some k | none => prev) := by
  induction l with
  | nil => intro prev; rfl
  | cons a l ih =>
    intro prev
    rw [lastKind, ih]
    cases l with
    | nil => rfl
    | cons b l =>
      rw [List.getLast?_cons_cons]
      cases hX : (b :: l).getLast? with
      | none => simp at hX
      | some k => rfl

theorem lastKind_none (l : List BoundaryKind) : lastKind none l = l.getLast? := by
  rw [lastKind_eq]
  cases l.getLast? <;> rfl

/-- A run of the loop of `stri_split_boundaries` that ends without an error, from
a state in which `briter` is of the kind `last_boundary`: it ends in such a state,
`last_boundary` is the kind of the last non-NA element, and one instance was
constructed per change of kind. -/
theorem boundariesLoop_run (svc : BreakService) (match_arg : List Nat → Option BoundaryKind) :
    ∀ (items : List (Option (List Nat) × Option (List Nat))) (st st' : BrkState)
      (outs : List (List (Option (List Nat)))), BrkInv st →
      boundariesLoop svc match_arg st items = .ok (st', outs) →
      BrkInv st' ∧ st'.last_boundary = lastKind st.last_boundary (kindsOf match_arg items)
        ∧ st'.created = st.created + runsFrom st.last_boundary (kindsOf match_arg items) := by
  intro items
  induction items with
  | nil =>
    intro st st' outs hinv h
    simp only [boundariesLoop, Except.ok.injEq, Prod.mk.injEq] at h
    rw [← h.1]
    exact ⟨hinv, rfl, rfl⟩
  | cons x items ih =>
    intro st st' outs hinv h
    rw [boundariesLoop_cons] at h
    cases hb : boundariesBody svc match_arg st x.1 x.2 with
    | error e =>
      rw [hb] at h
      cases h
    | ok r =>
      rw [hb] at h
      simp only at h
      cases hl : boundariesLoop svc match_arg r.1 items with
      | error e =>
        rw [hl] at h
        cases h
      | ok rs =>
        rw [hl] at h
        simp only [Except.ok.injEq, Prod.mk.injEq] at h
        have hinv1 := boundariesBody_inv svc match_arg st r.1 x.1 x.2 r.2 hinv hb
        obtain ⟨i1, i2, i3⟩ := ih r.1 rs.1 rs.2 hinv1 hl
        rw [← h.1]
        obtain ⟨x1, x2⟩ := x
        by_cases hna : x1 = none ∨ x2 = none
        · rw [boundariesBody_na _ _ _ _ _ hna] at hb
          have hr : r.1 = st := by
            simp only [Except.ok.injEq] at hb
            rw [← hb]
          rw [hr] at i2 i3
          rw [kindsOf_cons_na _ _ _ _ hna]
          exact ⟨i1, i2, i3⟩
        · obtain ⟨s, rfl⟩ : ∃ s, x1 = some s := by
            cases x1 with
            | none => exact absurd (Or.inl rfl) hna
            | some s => exact ⟨s, rfl⟩
          obtain ⟨name, rfl⟩ : ∃ n, x2 = some n := by
            cases x2 with
            | none => exact absurd (Or.inr rfl) hna
            | some n => exact ⟨n, rfl⟩
          obtain ⟨k, hm, -, -⟩ := boundariesBody_ok svc match_arg st r.1 s name r.2 hb
          obtain ⟨k1, -, k3, -⟩ := boundariesBody_kind svc match_arg st r.1 s name k r.2 hinv hm hb
          rw [kindsOf_cons_kind _ _ _ _ _ hm, lastKind, runsFrom]
          rw [k1] at i2 i3
          refine ⟨i1, i2, ?_⟩
          rw [i3, k3]
          omega

theorem boundariesLoop_append (svc : BreakService) (match_arg : List Nat → Option BoundaryKind) :
    ∀ (a b : List (Option (List Nat) × Option (List Nat))) (st st2 : BrkState)
      (outs : List (List (Option (List Nat)))),
      boundariesLoop svc match_arg st (a ++ b) = .ok (st2, outs) →
      ∃ st1 o1 o2, boundariesLoop svc match_arg st a = .ok (st1, o1)
        ∧ boundariesLoop svc match_arg st1 b = .ok (st2, o2) ∧ outs = o1 ++ o2
        ∧ o1.length = a.length := by
  intro a
  induction a with
  | nil =>
    intro b st st2 outs h
    exact ⟨st, [], outs, rfl, h, rfl, rfl⟩
  | cons x a ih =>
    intro b st st2 outs h
    rw [List.cons_append, boundariesLoop_cons] at h
    rw [boundariesLoop_cons]
    cases hb : boundariesBody svc match_arg st x.1 x.2 with
    | error e =>
      rw [hb] at h
      cases h
    | ok r =>
      rw [hb] at h
      simp only at h ⊢
      cases hl : boundariesLoop svc match_arg r.1 (a ++ b) with
      | error e =>
        rw [hl] at h
        cases h
      | ok rs =>
        rw [hl] at h
        simp only [Except.ok.injEq, Prod.mk.injEq] at h
        obtain ⟨st1, o1, o2, h1, h2, h3, h4⟩ := ih b r.1 rs.1 rs.2 hl
        rw [h1]
        refine ⟨st1, r.2 :: o1, o2, rfl, ?_, ?_, by simp [h4]⟩
        · rw [← h.1]
          exact h2
        · rw [← h.2, h3]
          rfl

/-- C19: in a run of the loop of `stri_split_boundaries` that ends without an
error, at every element with a non-NA string and a non-NA name the instance used
is of the kind `k` of the name, so that the element of `ret` is the segmentation
of the string with this kind; a new instance is constructed in this iteration
exactly when `k` is not the kind of the last non-NA element before it (or there
is none); and the number of instances constructed in the run is the number of
maximal runs of equal kinds among the non-NA elements, in the order of the
iteration (the index order). -/
theorem C19_segmenter_reuse (svc : BreakService) (match_arg : List Nat → Option BoundaryKind)
    (pre post : List (Option (List Nat) × Option (List Nat))) (s name : List Nat)
    (st : BrkState) (outs : List (List (Option (List Nat))))
    (h : boundariesLoop svc match_arg (BrkState.mk none none 0)
      (pre ++ (some s, some name) :: post) = .ok (st, outs)) :
    ∃ k st0 st1 outs0, match_arg name = some k
      ∧ boundariesLoop svc match_arg (BrkState.mk none none 0) pre = .ok (st0, outs0)
      ∧ boundariesBody svc match_arg st0 (some s) (some name) = .ok (st1, brkExpected svc k s)
      ∧ outs[pre.length]? = some (brkExpected svc k s)
      ∧ st1.briter = some k
      ∧ st1.created = st0.created
          + (if (kindsOf match_arg pre).getLast? = some k then 0 else 1)
      ∧ st.created = runs (kindsOf match_arg (pre ++ (some s, some name) :: post)) := by
  have hinit : BrkInv (BrkState.mk none none 0) := rfl
  obtain ⟨st0, o1, o2, h1, h2, h3, h4⟩ :=
    boundariesLoop_append svc match_arg pre _ _ st outs h
  obtain ⟨inv0, last0, -⟩ := boundariesLoop_run svc match_arg pre _ st0 o1 hinit h1
  rw [boundariesLoop_cons] at h2
  cases hb : boundariesBody svc match_arg st0 (some s) (some name) with
  | error e =>
    simp only [hb] at h2
    cases h2
  | ok r =>
    simp only [hb] at h2
    cases hl : boundariesLoop svc match_arg r.1 post with
    | error e =>
      rw [hl] at h2
      cases h2
    | ok rs =>
      rw [hl] at h2
      simp only [Except.ok.injEq, Prod.mk.injEq] at h2
      obtain ⟨k, hm, -, -⟩ := boundariesBody_ok svc match_arg st0 r.1 s name r.2 hb
      obtain ⟨-, k2, k3, k4⟩ := boundariesBody_kind svc match_arg st0 r.1 s name k r.2 inv0 hm hb
      obtain ⟨-, -, hcount⟩ := boundariesLoop_run svc match_arg _ _ st outs hinit h
      simp only [lastKind_none] at last0
      refine ⟨k, st0, r.1, o1, hm, h1, ?_, ?_, k2, ?_, ?_⟩
      · rw [← k4]
        exact hb
      · rw [h3, ← h2.2, ← h4, List.getElem?_append_right (le_refl _)]
        simp [k4]
      · rw [k3, last0]
      · rw [hcount, runs_eq_runsFrom]
        simp

/-- Witness for C19 at the elements ("ab", `word`), (NA, `sentence`),
("c", `word`), ("d", `sentence`): the third element reuses the instance, and two
instances are constructed in all. -/
theorem C19_segmenter_reuse_witness :
    boundariesLoop byteService exactMatch (BrkState.mk none none 0)
        ([(some [97, 98], some [119, 111, 114, 100]),
            (none, some [115, 101, 110, 116, 101, 110, 99, 101])]
          ++ (some [99], some [119, 111, 114, 100])
            :: [(some [100], some [115, 101, 110, 116, 101, 110, 99, 101])])
        = .ok (BrkState.mk (some .sentence) (some .sentence) 2,
            [[some [97], some [98]], [none], [some [99]], [some [100]]])
      ∧ ∃ k st0 st1 outs0, exactMatch [119, 111, 114, 100] = some k
        ∧ boundariesLoop byteService exactMatch (BrkState.mk none none 0)
            [(some [97, 98], some [119, 111, 114, 100]),
              (none, some [115, 101, 110, 116, 101, 110, 99, 101])] = .ok (st0, outs0)
        ∧ boundariesBody byteService exactMatch st0 (some [99]) (some [119, 111, 114, 100])
            = .ok (st1, brkExpected byteService k [99])
        ∧ ([[some [97], some [98]], [none], [some [99]], [some [100]]]
              : List (List (Option (List Nat))))[([(some [97, 98], some [119, 111, 114, 100]),
              (none, some [115, 101, 110, 116, 101, 110, 99, 101])]
                : List (Option (List Nat) × Option (List Nat))).length]?
            = some (brkExpected byteService k [99])
        ∧ st1.briter = some k
        ∧ st1.created = st0.created
            + (if (kindsOf exactMatch [(some [97, 98], some [119, 111, 114, 100]),
                (none, some [115, 101, 110, 116, 101, 110, 99, 101])]).getLast? = some k
              then 0 else 1)
        ∧ (BrkState.mk (some .sentence) (some .sentence) 2).created
            = runs (kindsOf exactMatch
                ([(some [97, 98], some [119, 111, 114, 100]),
                    (none, some [115, 101, 110, 116, 101, 110, 99, 101])]
                  ++ (some [99], some [119, 111, 114, 100])
                    :: [(some [100], some [115, 101, 110, 116, 101, 110, 99, 101])])) :=
  ⟨by decide,
    C19_segmenter_reuse byteService exactMatch
      [(some [97, 98], some [119, 111, 114, 100]),
        (none, some [115, 101, 110, 116, 101, 110, 99, 101])]
      [(some [100], some [115, 101, 110, 116, 101, 110, 99, 101])] [99] [119, 111, 114, 100]
      (BrkState.mk (some .sentence) (some .sentence) 2)
      [[some [97], some [98]], [none], [some [99]], [some [100]]] (by decide)⟩

/-! ## Recycling in the vectorised call of `stri_split_lines` -/

theorem allSome_eq_some {α : Type} :
    ∀ (l : List (Option α)) (ret : List α), allSome l = some ret → l = ret.map some := by
  intro l
  induction l with
  | nil =>
    intro ret h
    simp only [allSome, Option.some.injEq] at h
    rw [← h]
    rfl
  | cons x l ih =>
    intro ret h
    cases x with
    | none => simp [allSome] at h
    | some a =>
      rw [allSome] at h
      cases hr : allSome l with
      | none =>
        rw [hr] at h
        cases h
      | some r =>
        rw [hr] at h
        simp only [Option.some.injEq] at h
        rw [← h, List.map_cons, ← ih r hr]

theorem allSome_total {α : Type} :
    ∀ (l : List (Option α)), (∀ o ∈ l, ∃ r, o = some r) → ∃ ret, allSome l = some ret := by
  intro l
  induction l with
  | nil => intro _; exact ⟨[], rfl⟩
  | cons x l ih =>
    intro h
    obtain ⟨a, rfl⟩ := h x (List.mem_cons_self _ _)
    obtain ⟨r, hr⟩ := ih (fun o ho => h o (List.mem_cons_of_mem _ ho))
    exact ⟨a :: r, by rw [allSome, hr]⟩

theorem recycling_rule_three (a b c : Nat) (ha : a ≠ 0) :
    stri__recycling_rule [a, b, c]
      = if (max (max a b) c % a = 0 ∧ (b = 0 ∨ max (max a b) c % b = 0)
            ∧ (c = 0 ∨ max (max a b) c % c = 0))
        then .ok (max (max a b) c) else .error .recyclingRule := by
  unfold stri__recycling_rule
  simp only [if_neg ha, List.foldl_cons, List.foldl_nil, Nat.zero_max, List.all_cons,
    List.all_nil, Bool.and_true, Bool.and_eq_true, Bool.or_eq_true, decide_eq_true_eq, ha,
    false_or, if_false]

theorem recycledGet_of_ne_nil {α : Type} (v : List α) (i : Nat) (d : α) (h : v ≠ []) :
    v[i % v.length]? = some (recycledGet v i d) := by
  have hlen : 0 < v.length := List.length_pos.2 h
  have hi : i % v.length < v.length := Nat.mod_lt _ hlen
  unfold recycledGet
  rw [List.getD_eq_getElem?_getD, List.getElem?_eq_getElem hi]
  rfl

/-- C17: for non-empty vectors `str`, `n_max` and `omit_empty`, a result list of
the vectorised `stri_split_lines` has one output sequence per index below `L`,
the maximum of the three lengths, and the output at the index `i` is the line
split of the element `i mod len(str)` of `str` with the elements
`i mod len(n_max)` of `n_max` and `i mod len(omit_empty)` of `omit_empty`; the
call returns such a list when every length divides `L`. -/
theorem C17_recycling (str : List (Option (List Nat))) (n_max omit_empty : List Int)
    (hs : str ≠ []) (hn : n_max ≠ []) (ho : omit_empty ≠ []) :
    (∀ ret, stri_split_lines_vec str n_max omit_empty = .ok (some ret) →
        ret.length = max (max str.length n_max.length) omit_empty.length
          ∧ ∀ i, i < max (max str.length n_max.length) omit_empty.length →
            ∃ x n o out, str[i % str.length]? = some x ∧ n_max[i % n_max.length]? = some n
              ∧ omit_empty[i % omit_empty.length]? = some o
              ∧ ret[i]? = some out ∧ stri_split_lines x n o = some out)
      ∧ (max (max str.length n_max.length) omit_empty.length % str.length = 0
          → max (max str.length n_max.length) omit_empty.length % n_max.length = 0
          → max (max str.length n_max.length) omit_empty.length % omit_empty.length = 0
          → ∃ ret, stri_split_lines_vec str n_max omit_empty = .ok (some ret)) := by
  have hs' : str.length ≠ 0 := fun e => hs (List.length_eq_zero.1 e)
  have hrule := recycling_rule_three str.length n_max.length omit_empty.length hs'
  generalize max (max str.length n_max.length) omit_empty.length = L at hrule ⊢
  constructor
  · intro ret h
    unfold stri_split_lines_vec at h
    rw [hrule] at h
    split_ifs at h with hc
    simp only [Except.ok.injEq] at h
    have hmap := allSome_eq_some _ _ h
    have hlen : ret.length = L := by
      have := congrArg List.length hmap
      simpa using this.symm
    refine ⟨hlen, fun i hi => ?_⟩
    have hget := congrArg (fun l => l[i]?) hmap
    simp only [List.getElem?_map, List.getElem?_range hi, Option.map_some'] at hget
    cases hr : ret[i]? with
    | none =>
      rw [hr] at hget
      cases hget
    | some out =>
      rw [hr] at hget
      exact ⟨_, _, _, out, recycledGet_of_ne_nil str i none hs,
        recycledGet_of_ne_nil n_max i (-2147483648) hn,
        recycledGet_of_ne_nil omit_empty i (-2147483648) ho, rfl, Option.some.inj hget⟩
  · intro h1 h2 h3
    unfold stri_split_lines_vec
    rw [hrule, if_pos ⟨h1, Or.inr h2, Or.inr h3⟩]
    obtain ⟨ret, hret⟩ := allSome_total ((List.range L).map (fun i =>
      stri_split_lines (recycledGet str i none) (recycledGet n_max i (-2147483648))
        (recycledGet omit_empty i (-2147483648)))) (by
      intro o ho
      obtain ⟨i, -, rfl⟩ := List.mem_map.1 ho
      exact stri_split_lines_total _ _ _)
    exact ⟨ret, by simp only [hret]⟩

/-- Witness for C17 at four strings, two values of `n_max` and one of
`omit_empty`: the iteration length is 4 and `n_max` is read at `i mod 2`. -/
theorem C17_recycling_witness :
    ([some [97, 10, 98], none, some [10], some []] : List (Option (List Nat))) ≠ []
      ∧ ([-1, 1] : List Int) ≠ [] ∧ ([0] : List Int) ≠ []
      ∧ stri_split_lines_vec [some [97, 10, 98], none, some [10], some []] [-1, 1] [0]
          = .ok (some [[some [97], some [98]], [none], [some [], some []], [some []]])
      ∧ ([[some [97], some [98]], [none], [some [], some []], [some []]]
            : List (List (Option (List Nat)))).length
          = max (max ([some [97, 10, 98], none, some [10], some []]
              : List (Option (List Nat))).length ([-1, 1] : List Int).length)
              ([0] : List Int).length
      ∧ ∀ i, i < max (max ([some [97, 10, 98], none, some [10], some []]
              : List (Option (List Nat))).length ([-1, 1] : List Int).length)
              ([0] : List Int).length →
          ∃ x n o out,
            ([some [97, 10, 98], none, some [10], some []] : List (Option (List Nat)))[i %
                ([some [97, 10, 98], none, some [10], some []]
                  : List (Option (List Nat))).length]? = some x
            ∧ ([-1, 1] : List Int)[i % ([-1, 1] : List Int).length]? = some n
            ∧ ([0] : List Int)[i % ([0] : List Int).length]? = some o
            ∧ ([[some [97], some [98]], [none], [some [], some []], [some []]]
              : List (List (Option (List Nat))))[i]? = some out
            ∧ stri_split_lines x n o = some out :=
  ⟨by decide, by decide, by decide, by decide,
    (C17_recycling [some [97, 10, 98], none, some [10], some []] [-1, 1] [0] (by decide)
      (by decide) (by decide)).1 _ (by decide)⟩

/-! ## Progress of the scans -/

theorem tokLen_headTok (c : Nat) (rest : List Nat) :
    tokLen (headTok c rest)
      = (utf8Encode c).length + (if c = 0x0D ∧ rest.head? = some 0x0A then 1 else 0) := by
  unfold headTok tokLen
  by_cases h : c = 0x0D ∧ rest.head? = some 0x0A
  · rw [if_pos h, if_pos h, h.1]
    rfl
  · rw [if_neg h, if_neg h]
    simp [utf8]

theorem decodeNewline_at_boundary (p : List Nat) (c : Nat) (rest : List Nat)
    (hv : Valid (p ++ c :: rest)) :
    (decodeNewline (utf8 (p ++ c :: rest)) (utf8 (p ++ c :: rest)).length (utf8 p).length).2
      = (utf8 p).length + (utf8Encode c).length
          + (if c = 0x0D ∧ rest.head? = some 0x0A then 1 else 0) := by
  have hv' : Valid (c :: rest) := fun x hx => hv x (List.mem_append_right _ hx)
  have h := decodeNewline_utf8 (utf8 p) c rest ((utf8 p).length + (utf8 (c :: rest)).length) hv'
    rfl
  rw [utf8_append, List.length_append, h, tokLen_headTok, Nat.add_assoc]

/-- C21: on every valid UTF-8 string of `n` bytes, the scan loops of
`stri_split_lines1` and of `stri_split_lines` end within `n` iterations (the fuel
`n` is enough); each iteration from an index `j < n` moves `j` to the same,
strictly larger index in both loops, which is at most `n`, and the byte that the
CR look-ahead reads is at an index at most `n`; and at the start of a code point
`c` the index grows by the width of `c`, plus one only when `c` is a CR followed
by an LF, which leads to the start of a code point or to the end. -/
theorem C21_scan_progress (cs : List Nat) (hv : Valid cs) (n_max_cur omit_empty : Int) :
    (∃ r, lines1Loop (utf8 cs) (utf8 cs).length (utf8 cs).length 0 [(0, 0)] = some r)
      ∧ (∃ r, linesLoop (utf8 cs) (utf8 cs).length n_max_cur omit_empty (utf8 cs).length
          0 1 [(0, 0)] = some r)
      ∧ (∀ (j : Nat) (k : Int) (occ : List (Nat × Nat)), j < (utf8 cs).length →
          (linesStep (utf8 cs) (utf8 cs).length omit_empty j k occ).1
              = (lines1Step (utf8 cs) (utf8 cs).length j occ).1
            ∧ j < (lines1Step (utf8 cs) (utf8 cs).length j occ).1
            ∧ (lines1Step (utf8 cs) (utf8 cs).length j occ).1 ≤ (utf8 cs).length
            ∧ (U8_NEXT (utf8 cs) j (utf8 cs).length).2 ≤ (utf8 cs).length)
      ∧ (∀ (p : List Nat) (c : Nat) (rest : List Nat) (occ : List (Nat × Nat)),
          cs = p ++ c :: rest →
          (lines1Step (utf8 cs) (utf8 cs).length (utf8 p).length occ).1
              = (utf8 p).length + (utf8Encode c).length
                  + (if c = 0x0D ∧ rest.head? = some 0x0A then 1 else 0)
            ∧ ∃ p' rest', cs = p' ++ rest'
                ∧ (lines1Step (utf8 cs) (utf8 cs).length (utf8 p).length occ).1
                    = (utf8 p').length) := by
  refine ⟨lines1Loop_total _ _ _ _ _ (by omega), linesLoop_total _ _ _ _ _ _ _ _ (by omega),
    ?_, ?_⟩
  · intro j k occ hj
    rw [linesStep_fst, lines1Step_fst]
    exact ⟨rfl, decodeNewline_gt _ _ _, decodeNewline_le _ _ hj, U8_NEXT_le _ _ _ hj⟩
  · intro p c rest occ hcs
    have hv' : Valid (p ++ c :: rest) := hcs ▸ hv
    rw [lines1Step_fst, hcs, decodeNewline_at_boundary p c rest hv']
    refine ⟨rfl, p ++ (headTok c rest).2, afterTok c rest, ?_, ?_⟩
    · rw [List.append_assoc, headTok_append_afterTok]
    · rw [utf8_append, List.length_append, Nat.add_assoc, ← tokLen_headTok]
      rfl

/-- Witness for C21 at the string "a\r\nb", NEL. -/
theorem C21_scan_progress_witness :
    Valid [97, 13, 10, 98, 0x85]
      ∧ (∃ r, lines1Loop (utf8 [97, 13, 10, 98, 0x85]) (utf8 [97, 13, 10, 98, 0x85]).length
          (utf8 [97, 13, 10, 98, 0x85]).length 0 [(0, 0)] = some r)
      ∧ (∃ r, linesLoop (utf8 [97, 13, 10, 98, 0x85]) (utf8 [97, 13, 10, 98, 0x85]).length 3 1
          (utf8 [97, 13, 10, 98, 0x85]).length 0 1 [(0, 0)] = some r)
      ∧ (∀ (j : Nat) (k : Int) (occ : List (Nat × Nat)),
          j < (utf8 [97, 13, 10, 98, 0x85]).length →
          (linesStep (utf8 [97, 13, 10, 98, 0x85]) (utf8 [97, 13, 10, 98, 0x85]).length 1 j k
                occ).1
              = (lines1Step (utf8 [97, 13, 10, 98, 0x85]) (utf8 [97, 13, 10, 98, 0x85]).length j
                  occ).1
            ∧ j < (lines1Step (utf8 [97, 13, 10, 98, 0x85])
                (utf8 [97, 13, 10, 98, 0x85]).length j occ).1
            ∧ (lines1Step (utf8 [97, 13, 10, 98, 0x85]) (utf8 [97, 13, 10, 98, 0x85]).length j
                occ).1 ≤ (utf8 [97, 13, 10, 98, 0x85]).length
            ∧ (U8_NEXT (utf8 [97, 13, 10, 98, 0x85]) j (utf8 [97, 13, 10, 98, 0x85]).length).2
                ≤ (utf8 [97, 13, 10, 98, 0x85]).length)
      ∧ (∀ (p : List Nat) (c : Nat) (rest : List Nat) (occ : List (Nat × Nat)),
          [97, 13, 10, 98, 0x85] = p ++ c :: rest →
          (lines1Step (utf8 [97, 13, 10, 98, 0x85]) (utf8 [97, 13, 10, 98, 0x85]).length
                (utf8 p).length occ).1
              = (utf8 p).length + (utf8Encode c).length
                  + (if c = 0x0D ∧ rest.head? = some 0x0A then 1 else 0)
            ∧ ∃ p' rest', [97, 13, 10, 98, 0x85] = p' ++ rest'
                ∧ (lines1Step (utf8 [97, 13, 10, 98, 0x85])
                    (utf8 [97, 13, 10, 98, 0x85]).length (utf8 p).length occ).1
                    = (utf8 p').length) :=
  ⟨by decide, C21_scan_progress [97, 13, 10, 98, 0x85] (by decide) 3 1⟩

/-! ## A cap that does not bind -/

/-- The number of ranges left by the post-loop code of `stri_split_lines`: the field
count, or one less when suppression discards the last range. -/
theorem length_linesFinish_append (n : Nat) (cap o k : Int) (pre : List (Nat × Nat))
    (b : Nat × Nat) :
    (linesFinish n cap o k (pre ++ [b])).length ≤ pre.length + 1
      ∧ pre.length ≤ (linesFinish n cap o k (pre ++ [b])).length
      ∧ (o = 0 → (linesFinish n cap o k (pre ++ [b])).length = pre.length + 1) := by
  rw [linesFinish_append]
  generalize (if k = cap then n else b.2) = e
  by_cases h : o ≠ 0 ∧ b.1 = e
  · rw [if_pos h]
    exact ⟨by omega, le_refl _, fun ho => absurd ho h.1⟩
  · rw [if_neg h]
    simp

/-- C22 (as stated, refuted): with `omit_empty = TRUE` the unbounded split of
"a\n\n" returns the single piece "a", and `n_max = 2`, which is greater than one,
returns the two pieces "a" and "\n". -/
theorem C22_counterexample_cap_after_suppressed_tail :
    stri_split_lines (some [97, 10, 10]) (-1) 1 = some [some [97]]
      ∧ ((([some [97]] : List (Option (List Nat))).length : Int) < 2)
      ∧ stri_split_lines (some [97, 10, 10]) 2 1 = some [some [97], some [10]]
      ∧ stri_split_lines (some [97, 10, 10]) 2 1 ≠ stri_split_lines (some [97, 10, 10]) (-1) 1 := by
  decide

/-- C22 (amended): for every string `s`, either `omit_empty` and every negative
`n_max`, the unbounded split returns pieces `ps` and its scan ends with a field
count `k`, which is the number of pieces when `omit_empty` is FALSE and the number
of pieces or one more otherwise; every `n_max` greater than `k` (and at most
`INT_MAX`) returns the same pieces `ps`. -/
theorem C22_non_binding_cap (s : List Nat) (omit_empty n_neg m : Int) (hneg : n_neg < 0)
    (hmax : m ≤ INT_MAX) :
    ∃ ps r, stri_split_lines (some s) n_neg omit_empty = some ps
      ∧ linesLoop s s.length INT_MAX omit_empty s.length 0 1 [(0, 0)] = some r
      ∧ (ps.length : Int) ≤ r.1 ∧ r.1 ≤ (ps.length : Int) + 1
      ∧ (omit_empty = 0 → r.1 = (ps.length : Int))
      ∧ (r.1 < m → stri_split_lines (some s) m omit_empty = some ps) := by
  obtain ⟨r, j, hr, hP, -⟩ := linesLoop_spec s INT_MAX omit_empty (by decide)
  obtain ⟨pre, b, hocc, -, -, -, hk, -, -, -, -⟩ := hP
  have hR : linesRanges s n_neg omit_empty
      = some (linesFinish s.length INT_MAX omit_empty r.1 r.2) := by
    unfold linesRanges
    dsimp only
    rw [if_pos hneg, hr]
    rfl
  have hlen := length_linesFinish_append s.length INT_MAX omit_empty r.1 pre b
  rw [← hocc] at hlen
  refine ⟨_, r, stri_split_lines_of_ranges s n_neg omit_empty (by omega) _ hR, hr, ?_, ?_, ?_, ?_⟩
  · rw [length_mkPieces]
    omega
  · rw [length_mkPieces]
    omega
  · intro ho
    rw [length_mkPieces, hlen.2.2 ho]
    omega
  · intro hm
    have hrm := (linesLoop_cap_irrelevant s s.length INT_MAX m omit_empty s.length 0 1
      [(0, 0)] r hr).2 (by omega) hm
    have hfin : linesFinish s.length m omit_empty r.1 r.2
        = linesFinish s.length INT_MAX omit_empty r.1 r.2 := by
      have e1 : ¬ (r.1 = m) := by omega
      have e2 : ¬ (r.1 = INT_MAX) := by omega
      unfold linesFinish
      simp only [e1, e2, if_false]
    have hm0 : ¬ (m < 0) := by omega
    have hRm : linesRanges s m omit_empty
        = some (linesFinish s.length INT_MAX omit_empty r.1 r.2) := by
      unfold linesRanges
      dsimp only
      rw [if_neg hm0, hrm, ← hfin]
      rfl
    exact stri_split_lines_of_ranges s m omit_empty (by omega) _ hRm

/-- Witness for C22 (amended) at "a\n\n" with `omit_empty = TRUE` and `n_max = 3`. -/
theorem C22_non_binding_cap_witness :
    (-1 : Int) < 0 ∧ (3 : Int) ≤ INT_MAX
      ∧ ∃ ps r, stri_split_lines (some [97, 10, 10]) (-1) 1 = some ps
          ∧ linesLoop [97, 10, 10] [97, 10, 10].length INT_MAX 1 [97, 10, 10].length 0 1
              [(0, 0)] = some r
          ∧ (ps.length : Int) ≤ r.1 ∧ r.1 ≤ (ps.length : Int) + 1
          ∧ ((1 : Int) = 0 → r.1 = (ps.length : Int))
          ∧ (r.1 < 3 → stri_split_lines (some [97, 10, 10]) 3 1 = some ps) :=
  ⟨by decide, by decide, C22_non_binding_cap [97, 10, 10] 1 (-1) 3 (by decide) (by decide)⟩

end Stringi
